import Mathlib

/-!
# Factor graph compilation and weight learning

A shallow embedding of `src/dstruct/factor_graph/factor_graph.cpp`
(namespace `dd`): `FactorGraph::is_usable`, `FactorGraph::compile`,
`FactorGraph::safety_check`, `compare_position`,
`CompiledFactorGraph::copy_from`,
`CompiledFactorGraph::get_multinomial_weight_id` and
`CompiledFactorGraph::update_weight`, with the properties of the compiled
layout, of the readiness flags, of the replication, of the mixed-radix weight
index and of the learning step.

Conventions of the embedding.

* Machine integers are `Int` with explicit wrap-around where the sources fix
  a width: the `long` accumulator and result of `get_multinomial_weight_id`
  are reduced modulo 2^64 into `[-2^63, 2^63)` (`wrap_long`), and the entries
  of the `int` array `compact_factors_weightids` modulo 2^32 into
  `[-2^31, 2^31)` (`wrap_int`).  The widths of the record fields are declared
  in headers that are not part of the sources; the fields are mathematical
  integers.  Cursors that start at 0 and are only incremented are `Nat`.
* A C++ array is a `List`; reading or writing outside of it is the fault
  `Fault.out_of_bounds` (undefined behaviour in the program).
* `assert` failing is `Fault.assertion`, `abort()` is `Fault.abort`.
* Weight values, the step size and potentials are rationals: the learning
  rule is studied in exact arithmetic.
* The record types, their constructors `Factor(rf)` and `Variable(rv)`,
  `InferenceResult::init`, `InferenceResult::copy_from`,
  `Variable::get_domain_index` and the `potential` template are declared in
  files that are not part of the sources.  The records, the constructors and
  the two methods of the store follow the specification; `get_domain_index`
  and `potential` are parameters of the functions that call them.

The file has three parts: the definitions (the embedding, the reference
definitions of the claims and a small graph), the lemmas on the loops, and the
claims.
-/

namespace dd

/-! ## Outcomes -/

/-- The ways in which a run can stop without returning. -/
inductive Fault where
  | abort
  | assertion
  | out_of_bounds
deriving DecidableEq, Repr

/-- Read `xs[i]` for a C++ index `i`. -/
def getAt {α : Type} (xs : List α) (i : Int) : Except Fault α :=
  if 0 ≤ i then
    match xs[i.toNat]? with
    | some x => Except.ok x
    | none => Except.error Fault.out_of_bounds
  else Except.error Fault.out_of_bounds

/-- Write `xs[i] = v` for a C++ index `i`. -/
def setAt {α : Type} (xs : List α) (i : Int) (v : α) : Except Fault (List α) :=
  if 0 ≤ i ∧ i.toNat < xs.length then Except.ok (xs.set i.toNat v)
  else Except.error Fault.out_of_bounds

/-- The value held by a 64-bit `long` after arithmetic whose exact result is
`x`: `x` reduced modulo 2^64 into `[-2^63, 2^63)`. -/
def wrap_long (x : Int) : Int :=
  (x + 9223372036854775808) % 18446744073709551616 - 9223372036854775808

/-- The value held by a 32-bit `int` that is assigned `x`: `x` reduced modulo
2^32 into `[-2^31, 2^31)`. -/
def wrap_int (x : Int) : Int :=
  (x + 2147483648) % 4294967296 - 2147483648

/-! ## Entity records -/

/-- Modelled from the spec: the `DTYPE_` constants are defined in a header that
is not part of the sources.  Only the two labels of the `switch` in
`update_weight` are named; every other stored value is `DTYPE_OTHER`. -/
inductive DomainType where
  | DTYPE_BOOLEAN
  | DTYPE_MULTINOMIAL
  | DTYPE_OTHER (code : Int)
deriving DecidableEq, Repr

/-- Modelled from the spec: the `FUNC_` constants are defined in a header that
is not part of the sources.  Only the two labels of the `switch` in
`get_multinomial_weight_id` are named. -/
inductive FuncId where
  | FUNC_SPARSE_MULTINOMIAL
  | FUNC_MULTINOMIAL
  | FUNC_OTHER (code : Int)
deriving DecidableEq, Repr

/-- Modelled from the spec: an edge, the pair `(vid, n_position)`. -/
structure VariableInFactor where
  vid : Int
  n_position : Int
deriving DecidableEq, Repr

/-- Modelled from the spec: the raw (load time) factor record, with its
growable edge list `tmp_variables`; `weight_ids` is the explicit table of a
sparse multinomial factor (key: encoded offset, value: weight id). -/
structure RawFactor where
  id : Int
  weight_id : Int
  func_id : FuncId
  n_variables : Int
  n_start_i_vif : Int
  weight_ids : List (Int × Int)
  tmp_variables : List VariableInFactor
deriving DecidableEq, Repr

/-- Modelled from the spec: the clean factor record of the compiled graph. -/
structure Factor where
  id : Int
  weight_id : Int
  func_id : FuncId
  n_variables : Int
  n_start_i_vif : Int
  weight_ids : List (Int × Int)
deriving DecidableEq, Repr

/-- The denormalized copy of a factor stored per variable-adjacency entry;
its four fields are the ones `compile` assigns. -/
structure CompactFactor where
  id : Int
  func_id : FuncId
  n_variables : Int
  n_start_i_vif : Int
deriving DecidableEq, Repr

/-- Modelled from the spec: the raw (load time) variable record, with its
growable list of incident factor ids `tmp_factor_ids`. -/
structure RawVariable where
  id : Int
  domain_type : DomainType
  is_evid : Bool
  cardinality : Int
  assignment_evid : Int
  assignment_free : Int
  n_factors : Int
  n_start_i_factors : Int
  n_start_i_tally : Int
  tmp_factor_ids : List Int
deriving DecidableEq, Repr

/-- Modelled from the spec: the clean variable record of the compiled graph. -/
structure Variable where
  id : Int
  domain_type : DomainType
  is_evid : Bool
  cardinality : Int
  assignment_evid : Int
  assignment_free : Int
  n_factors : Int
  n_start_i_factors : Int
  n_start_i_tally : Int
deriving DecidableEq, Repr

/-- Modelled from the spec: a weight, with its identity, scalar value and
fixed flag. -/
structure Weight where
  id : Int
  weight : ℚ
  isfixed : Bool
deriving DecidableEq, Repr

/-- Modelled from the spec: the constructor `Factor(rf)`, which copies the
identity, `func_id`, `n_variables`, the offset and `weight_id` of a raw factor
and discards its edge list. -/
def Factor.ofRaw (rf : RawFactor) : Factor :=
  { id := rf.id, weight_id := rf.weight_id, func_id := rf.func_id,
    n_variables := rf.n_variables, n_start_i_vif := rf.n_start_i_vif,
    weight_ids := rf.weight_ids }

/-- Modelled from the spec: the constructor `Variable(rv)`, which copies a raw
variable without its list of incident factor ids. -/
def Variable.ofRaw (rv : RawVariable) : Variable :=
  { id := rv.id, domain_type := rv.domain_type, is_evid := rv.is_evid,
    cardinality := rv.cardinality, assignment_evid := rv.assignment_evid,
    assignment_free := rv.assignment_free, n_factors := rv.n_factors,
    n_start_i_factors := rv.n_start_i_factors,
    n_start_i_tally := rv.n_start_i_tally }

/-! ## The inference-result store -/

/-- Modelled from the spec: the store of per-weight values and fixed flags,
per-variable assignments (evidence and free snapshots) and tallies. -/
structure InferenceResult where
  ntallies : Int
  multinomial_tallies : List Int
  assignments_free : List Int
  assignments_evid : List Int
  weight_values : List ℚ
  weights_isfixed : List Bool
deriving DecidableEq, Repr

/-- Modelled from the spec: `InferenceResult::init`, which seeds the
assignments from the compiled variables and the values and fixed flags from
the weights, and sizes the tally array to the sum of the cardinalities of the
multinomial variables. -/
def InferenceResult.init (vars : List Variable) (weights : List Weight) :
    InferenceResult :=
  let nt : Int := ((vars.filter
      (fun v => decide (v.domain_type = DomainType.DTYPE_MULTINOMIAL))).map
      (fun v => v.cardinality)).sum
  { ntallies := nt
    multinomial_tallies := List.replicate nt.toNat 0
    assignments_free := vars.map (fun v => v.assignment_free)
    assignments_evid := vars.map (fun v => v.assignment_evid)
    weight_values := weights.map (fun w => w.weight)
    weights_isfixed := weights.map (fun w => w.isfixed) }

/-! ## The two graphs -/

/-- The raw graph.  The arrays `variables` (here `vars`, as `variables` is a
reserved word), `factors` and `weights` are allocated by the constructor with
exactly `n_var`, `n_factor` and `n_weight` entries, so these three counts are
the lengths of the lists. -/
structure FactorGraph where
  n_edge : Int
  c_nvar : Int
  c_nfactor : Int
  c_nweight : Int
  c_edge : Int
  n_evid : Int
  n_query : Int
  stepsize : ℚ
  vars : List RawVariable
  factors : List RawFactor
  weights : List Weight
  sorted : Bool
  safety_check_passed : Bool
deriving DecidableEq, Repr

/-- The compiled graph.  Its arrays keep the sizes given to its own
constructor: `variables` (here `vars`) has `n_var` entries, `factors` has `n_factor`, and
`compact_factors`, `compact_factors_weightids`, `factor_ids` and `vifs` have
`n_edge` entries each. -/
structure CompiledFactorGraph where
  c_nvar : Int
  c_nfactor : Int
  c_nweight : Int
  c_edge : Int
  n_evid : Int
  n_query : Int
  stepsize : ℚ
  vars : List Variable
  factors : List Factor
  compact_factors : List CompactFactor
  compact_factors_weightids : List Int
  factor_ids : List Int
  vifs : List VariableInFactor
  infrs : InferenceResult
  sorted : Bool
  safety_check_passed : Bool
deriving DecidableEq, Repr

/-- The count `n_var` of a raw graph. -/
def FactorGraph.n_var (fg : FactorGraph) : Int := fg.vars.length

/-- The count `n_factor` of a raw graph. -/
def FactorGraph.n_factor (fg : FactorGraph) : Int := fg.factors.length

/-- The count `n_weight` of a raw graph. -/
def FactorGraph.n_weight (fg : FactorGraph) : Int := fg.weights.length

/-- The size `n_edge` of the edge arrays of a compiled graph. -/
def CompiledFactorGraph.n_edge (cfg : CompiledFactorGraph) : Int := cfg.vifs.length

/-! ## `compare_position` and the sort of a factor's edges -/

/-- The comparison `dd::compare_position`. -/
def compare_position (x y : VariableInFactor) : Bool :=
  decide (x.n_position < y.n_position)

/-- Insert `x` into a list ordered by `lt`, after the entries that are
strictly before it. -/
def sort_insert {α : Type} (lt : α → α → Bool) (x : α) : List α → List α
  | [] => [x]
  | y :: ys => if lt y x then y :: sort_insert lt x ys else x :: y :: ys

/-- The call `std::sort(first, last, comp)` of the C++ library, as an insertion
sort driven by `comp`.  The library fixes the result up to the order of entries
that `comp` does not separate; this model keeps such entries in their original
order. -/
def std_sort {α : Type} (lt : α → α → Bool) : List α → List α
  | [] => []
  | x :: xs => sort_insert lt x (std_sort lt xs)

/-! ## `FactorGraph::compile` -/

/-- The loop `for (vif : rf.tmp_variables) { cfg.vifs[i_edge] = vif; i_edge++; }`
of the first pass. -/
def write_vifs : List VariableInFactor → Nat → List VariableInFactor →
    Except Fault (Nat × List VariableInFactor)
  | [], i_edge, vifs => Except.ok (i_edge, vifs)
  | vif :: rest, i_edge, vifs => do
      let vifs1 ← setAt vifs i_edge vif
      write_vifs rest (i_edge + 1) vifs1

/-- The updates of the raw factor at the head of an iteration of the first
pass: the offset `n_start_i_vif` is recorded and the edge list is sorted in
place by `compare_position`. -/
def stamp_factor (rf : RawFactor) (i_edge : Nat) : RawFactor :=
  { rf with n_start_i_vif := i_edge
            tmp_variables := std_sort compare_position rf.tmp_variables }

/-- The first pass of `compile`, `for (i = 0; i < n_factor; i++)`, from the
factor at index `i` on.  It returns the raw factors as the pass leaves them
(offset recorded, edge list sorted in place), the edge cursor, and the arrays
`cfg.vifs` and `cfg.factors`. -/
def compile_factors : List RawFactor → Nat → Nat → List VariableInFactor →
    List Factor → Except Fault (List RawFactor × Nat × List VariableInFactor × List Factor)
  | [], _, i_edge, vifs, cfactors => Except.ok ([], i_edge, vifs, cfactors)
  | rf :: rest, i, i_edge, vifs, cfactors => do
      let rf1 := stamp_factor rf i_edge
      let (i_edge1, vifs1) ← write_vifs rf1.tmp_variables i_edge vifs
      let cfactors1 ← setAt cfactors i (Factor.ofRaw rf1)
      let (rest1, i_edge2, vifs2, cfactors2) ←
        compile_factors rest (i + 1) i_edge1 vifs1 cfactors1
      Except.ok (rf1 :: rest1, i_edge2, vifs2, cfactors2)

/-- The three edge arrays written by the second pass. -/
structure EdgeArrays where
  factor_ids : List Int
  compact_factors : List CompactFactor
  compact_factors_weightids : List Int
deriving DecidableEq, Repr

/-- The loop `for (fid : rv.tmp_factor_ids)` of the second pass: one entry of
each of the three parallel arrays per incident factor id, read from the raw
factor `factors[fid]`.  The array `compact_factors_weightids` is an array of
`int`, so the weight id is narrowed when it is stored. -/
def write_factor_ids (factors : List RawFactor) : List Int → Nat → EdgeArrays →
    Except Fault (Nat × EdgeArrays)
  | [], i_edge, arrs => Except.ok (i_edge, arrs)
  | fid :: rest, i_edge, arrs => do
      let fids1 ← setAt arrs.factor_ids i_edge fid
      let f ← getAt factors fid
      let cfs1 ← setAt arrs.compact_factors i_edge
        { id := f.id, func_id := f.func_id, n_variables := f.n_variables,
          n_start_i_vif := f.n_start_i_vif }
      let wids1 ← setAt arrs.compact_factors_weightids i_edge (wrap_int f.weight_id)
      write_factor_ids factors rest (i_edge + 1)
        { factor_ids := fids1, compact_factors := cfs1,
          compact_factors_weightids := wids1 }

/-- The updates of the raw variable at the head of an iteration of the second
pass: `n_factors`, `n_start_i_factors` and, for a multinomial variable,
`n_start_i_tally`. -/
def stamp_variable (rv : RawVariable) (i_edge : Nat) (ntallies : Int) : RawVariable :=
  let rv1 : RawVariable :=
    { rv with n_factors := rv.tmp_factor_ids.length, n_start_i_factors := i_edge }
  if rv1.domain_type = DomainType.DTYPE_MULTINOMIAL then
    { rv1 with n_start_i_tally := ntallies }
  else rv1

/-- The tally cursor after an iteration of the second pass. -/
def next_tally (rv : RawVariable) (ntallies : Int) : Int :=
  if rv.domain_type = DomainType.DTYPE_MULTINOMIAL then ntallies + rv.cardinality
  else ntallies

/-- The second pass of `compile`, `for (i = 0; i < n_var; i++)`, from the
variable at index `i` on.  It returns the raw variables as the pass leaves
them, the edge cursor, the tally cursor, the three edge arrays and
`cfg.variables`. -/
def compile_variables (factors : List RawFactor) : List RawVariable → Nat → Nat → Int →
    EdgeArrays → List Variable →
    Except Fault (List RawVariable × Nat × Int × EdgeArrays × List Variable)
  | [], _, i_edge, ntallies, arrs, cvars => Except.ok ([], i_edge, ntallies, arrs, cvars)
  | rv :: rest, i, i_edge, ntallies, arrs, cvars => do
      let rv1 := stamp_variable rv i_edge ntallies
      let (i_edge1, arrs1) ← write_factor_ids factors rv1.tmp_factor_ids i_edge arrs
      let cvars1 ← setAt cvars i (Variable.ofRaw rv1)
      let (rest1, i_edge2, ntallies2, arrs2, cvars2) ←
        compile_variables factors rest (i + 1) i_edge1 (next_tally rv ntallies) arrs1 cvars1
      Except.ok (rv1 :: rest1, i_edge2, ntallies2, arrs2, cvars2)

/-- The method `FactorGraph::compile(cfg)`.  It returns the raw graph as the
call leaves it, and the compiled graph. -/
def FactorGraph.compile (fg : FactorGraph) (cfg : CompiledFactorGraph) :
    Except Fault (FactorGraph × CompiledFactorGraph) := do
  let (factors1, i_edge, vifs1, cfactors1) ←
    compile_factors fg.factors 0 0 cfg.vifs cfg.factors
  if (i_edge : Int) ≠ fg.n_edge then Except.error Fault.assertion
  else do
    let (vars1, i_edge2, _, arrs, cvars1) ←
      compile_variables factors1 fg.vars 0 0 0
        { factor_ids := cfg.factor_ids, compact_factors := cfg.compact_factors,
          compact_factors_weightids := cfg.compact_factors_weightids }
        cfg.vars
    let infrs1 := InferenceResult.init cvars1 fg.weights
    if (i_edge2 : Int) ≠ fg.n_edge then Except.error Fault.assertion
    else
      Except.ok
        ({ fg with factors := factors1, vars := vars1, c_edge := i_edge2 },
         { cfg with
            c_nvar := fg.c_nvar, c_nfactor := fg.c_nfactor, c_nweight := fg.c_nweight,
            n_evid := fg.n_evid, n_query := fg.n_query, stepsize := fg.stepsize,
            vifs := vifs1, factors := cfactors1, vars := cvars1,
            factor_ids := arrs.factor_ids, compact_factors := arrs.compact_factors,
            compact_factors_weightids := arrs.compact_factors_weightids,
            infrs := infrs1, c_edge := i_edge2 })

/-- The number of edges held by a list of raw factors. -/
def edge_count (l : List RawFactor) : Nat :=
  (l.map (fun rf => rf.tmp_variables.length)).sum

/-- The number of incident factor ids held by a list of raw variables. -/
def incidence_count (l : List RawVariable) : Nat :=
  (l.map (fun rv => rv.tmp_factor_ids.length)).sum

/-- The tally cursor after the second pass has gone through a list of raw
variables, starting from `ntallies`. -/
def tally_after (l : List RawVariable) (ntallies : Int) : Int :=
  l.foldl (fun nt rv => next_tally rv nt) ntallies

/-- The range `xs[start .. start + n)` of an array. -/
def slice {α : Type} (xs : List α) (start n : Int) : List α :=
  (xs.drop start.toNat).take n.toNat

/-! ## `CompiledFactorGraph::get_multinomial_weight_id` -/

/-- The expression `(vif.vid == vid) ? proposal : (int)assignments[vif.vid]`. -/
def value_of (assignments : List Int) (vid proposal : Int) (vif : VariableInFactor) :
    Except Fault Int :=
  if vif.vid = vid then Except.ok proposal else getAt assignments vif.vid

/-- The loop of `get_multinomial_weight_id` that accumulates `weight_offset`:
`n` iterations are left, `i` is the index into `vifs`, `off` the running
offset, a `long`: the results of `weight_offset *= ...` and of
`weight_offset += ...` that do not fit are reduced modulo 2^64 (the
two's-complement result; the language leaves signed overflow undefined).
`get_domain_index` is the accessor of `Variable`, which is declared
in a header that is not part of the sources and is taken as a parameter. -/
def weight_offset (get_domain_index : Variable → Int → Int) (cfg : CompiledFactorGraph)
    (assignments : List Int) (vid proposal : Int) : Nat → Int → Int → Except Fault Int
  | 0, _, off => Except.ok off
  | n + 1, i, off => do
      let vif ← getAt cfg.vifs i
      let v ← getAt cfg.vars vif.vid
      let value ← value_of assignments vid proposal vif
      weight_offset get_domain_index cfg assignments vid proposal n (i + 1)
        (wrap_long (wrap_long (off * v.cardinality) + get_domain_index v value))

/-- Modelled from the spec: the lookup `weight_ids[weight_offset]` in the
explicit table of a sparse multinomial factor; the table type is declared in a
header that is not part of the sources, and an offset without an entry is
left undefined. -/
def sparse_weight_id (f : Factor) (off : Int) : Except Fault Int :=
  match f.weight_ids.lookup off with
  | some w => Except.ok w
  | none => Except.error Fault.out_of_bounds

/-- The method `get_multinomial_weight_id(assignments, fs, vid, proposal)`.
The reference `fs` points into `compact_factors` (the code recovers its index
as `&fs - compact_factors`), so it is given by that index `e`. -/
def CompiledFactorGraph.get_multinomial_weight_id (get_domain_index : Variable → Int → Int)
    (cfg : CompiledFactorGraph) (assignments : List Int) (e : Int) (vid proposal : Int) :
    Except Fault Int := do
  let fs ← getAt cfg.compact_factors e
  let off ← weight_offset get_domain_index cfg assignments vid proposal
    fs.n_variables.toNat fs.n_start_i_vif 0
  match fs.func_id with
  | FuncId.FUNC_SPARSE_MULTINOMIAL => do
      let f ← getAt cfg.factors fs.id
      sparse_weight_id f off
  | FuncId.FUNC_MULTINOMIAL => do
      let base ← getAt cfg.compact_factors_weightids e
      Except.ok (wrap_long (base + off))
  | FuncId.FUNC_OTHER _ => Except.ok 0

/-! ## `CompiledFactorGraph::update_weight` -/

/-- The statement `weight_values[wid] += d`. -/
def add_weight (wv : List ℚ) (wid : Int) (d : ℚ) : Except Fault (List ℚ) := do
  let old ← getAt wv wid
  setAt wv wid (old + d)

/-- The guarded statement
`if (weights_isfixed[wid] == false) weight_values[wid] += d;`. -/
def add_unless_fixed (weights_isfixed : List Bool) (wv : List ℚ) (wid : Int) (d : ℚ) :
    Except Fault (List ℚ) := do
  let isfixed ← getAt weights_isfixed wid
  if isfixed = false then add_weight wv wid d else Except.ok wv

/-- One iteration of the loop of `update_weight`, for the incident entry `i`
of the variable `v`, on the weight values `wv`.  `potential b fs` stands for
the call `potential<b>(fs)`, whose template is declared in a header that is
not part of the sources: `potential false` reads the evidence snapshot and
`potential true` the free snapshot. -/
def update_weight_step (get_domain_index : Variable → Int → Int)
    (potential : Bool → CompactFactor → ℚ) (cfg : CompiledFactorGraph) (v : Variable)
    (i : Nat) (wv : List ℚ) : Except Fault (List ℚ) :=
  let e : Int := v.n_start_i_factors + i
  match v.domain_type with
  | DomainType.DTYPE_BOOLEAN => do
      let wid ← getAt cfg.compact_factors_weightids e
      let isfixed ← getAt cfg.infrs.weights_isfixed wid
      if isfixed = false then do
        let fs ← getAt cfg.compact_factors e
        add_weight wv wid (cfg.stepsize * (potential false fs - potential true fs))
      else Except.ok wv
  | DomainType.DTYPE_MULTINOMIAL => do
      let wid1 ← cfg.get_multinomial_weight_id get_domain_index
        cfg.infrs.assignments_evid e (-1) (-1)
      let wid2 ← cfg.get_multinomial_weight_id get_domain_index
        cfg.infrs.assignments_free e (-1) (-1)
      let equal : ℚ := if wid1 = wid2 then 1 else 0
      let fs ← getAt cfg.compact_factors e
      let wv1 ← add_unless_fixed cfg.infrs.weights_isfixed wv wid1
        (cfg.stepsize * (potential false fs - equal * potential true fs))
      add_unless_fixed cfg.infrs.weights_isfixed wv1 wid2
        (cfg.stepsize * (equal * potential false fs - potential true fs))
  | DomainType.DTYPE_OTHER _ => Except.error Fault.abort

/-- The loop `for (long i = 0; i < variable.n_factors; i++)` of `update_weight`,
with `n` iterations left from index `i`. -/
def update_weight_loop (get_domain_index : Variable → Int → Int)
    (potential : Bool → CompactFactor → ℚ) (cfg : CompiledFactorGraph) (v : Variable) :
    Nat → Nat → List ℚ → Except Fault (List ℚ)
  | 0, _, wv => Except.ok wv
  | n + 1, i, wv => do
      let wv1 ← update_weight_step get_domain_index potential cfg v i wv
      update_weight_loop get_domain_index potential cfg v n (i + 1) wv1

/-- The method `CompiledFactorGraph::update_weight(variable)`: the compiled
graph after the call.  Only `infrs->weight_values` is written. -/
def CompiledFactorGraph.update_weight (get_domain_index : Variable → Int → Int)
    (potential : Bool → CompactFactor → ℚ) (cfg : CompiledFactorGraph) (v : Variable) :
    Except Fault CompiledFactorGraph := do
  let wv ← update_weight_loop get_domain_index potential cfg v v.n_factors.toNat 0
    cfg.infrs.weight_values
  Except.ok { cfg with infrs := { cfg.infrs with weight_values := wv } }

/-! ## `FactorGraph::is_usable` and `FactorGraph::safety_check` -/

/-- The method `FactorGraph::is_usable()`. -/
def FactorGraph.is_usable (fg : FactorGraph) : Bool :=
  fg.sorted && fg.safety_check_passed

/-- The loop `for (long i = 0; i < s; i++) assert(array[i].id == i);` of
`safety_check`, on the ids of the array from index `i` on. -/
def check_ids : List Int → Nat → Except Fault Unit
  | [], _ => Except.ok ()
  | id :: rest, i =>
      if id = (i : Int) then check_ids rest (i + 1) else Except.error Fault.assertion

/-- The method `FactorGraph::safety_check()`: the raw graph after the call. -/
def FactorGraph.safety_check (fg : FactorGraph) : Except Fault FactorGraph := do
  check_ids (fg.vars.map (fun rv => rv.id)) 0
  check_ids (fg.factors.map (fun rf => rf.id)) 0
  check_ids (fg.weights.map (fun w => w.id)) 0
  Except.ok { fg with safety_check_passed := true }

/-! ## `CompiledFactorGraph::copy_from` -/

/-- The call `memcpy(dst, src, sizeof(T) * n)` on two arrays of `T`: the first
`n` entries of `dst` become those of `src`. -/
def memcpy {α : Type} (dst src : List α) (n : Nat) : Except Fault (List α) :=
  if n ≤ dst.length ∧ n ≤ src.length then Except.ok (src.take n ++ dst.drop n)
  else Except.error Fault.out_of_bounds

/-- Modelled from the spec: `InferenceResult::copy_from`, defined in a file that
is not part of the sources, which duplicates the scalar state of the other
store (assignments, weight values and fixed flags). -/
def InferenceResult.copy_from (self other : InferenceResult) : InferenceResult :=
  { self with
    assignments_free := other.assignments_free
    assignments_evid := other.assignments_evid
    weight_values := other.weight_values
    weights_isfixed := other.weights_isfixed }

/-- The statements `multinomial_tallies = new int[ntallies]` and the loop that
copies `ntallies` tallies of the other store.  A negative size makes `new`
throw, which ends the process. -/
def copy_tallies (ntallies : Int) (other_tallies : List Int) : Except Fault (List Int) :=
  if ntallies < 0 then Except.error Fault.abort
  else if ntallies.toNat ≤ other_tallies.length then
    Except.ok (other_tallies.take ntallies.toNat)
  else Except.error Fault.out_of_bounds

/-- The method `CompiledFactorGraph::copy_from(p_other_fg)`, called on `self`.
The sizes `n_var`, `n_factor` and `n_edge` in the `memcpy` calls are those of
`self`: the lengths of its `variables`, `factors` and `vifs`.  The other graph
is reached through a pointer to `const` and only read; the result is the
pair of `self` and the other graph as the call leaves them. -/
def CompiledFactorGraph.copy_from (self other : CompiledFactorGraph) :
    Except Fault (CompiledFactorGraph × CompiledFactorGraph) := do
  let vars1 ← memcpy self.vars other.vars self.vars.length
  let factors1 ← memcpy self.factors other.factors self.factors.length
  let compact_factors1 ← memcpy self.compact_factors other.compact_factors self.vifs.length
  let weightids1 ← memcpy self.compact_factors_weightids other.compact_factors_weightids
    self.vifs.length
  let factor_ids1 ← memcpy self.factor_ids other.factor_ids self.vifs.length
  let vifs1 ← memcpy self.vifs other.vifs self.vifs.length
  let infrs1 := self.infrs.copy_from other.infrs
  let tallies1 ← copy_tallies other.infrs.ntallies other.infrs.multinomial_tallies
  Except.ok
    ({ self with
        c_nvar := other.c_nvar, c_nfactor := other.c_nfactor, c_nweight := other.c_nweight,
        c_edge := other.c_edge, n_evid := other.n_evid, n_query := other.n_query,
        vars := vars1, factors := factors1, compact_factors := compact_factors1,
        compact_factors_weightids := weightids1, factor_ids := factor_ids1, vifs := vifs1,
        sorted := other.sorted, safety_check_passed := other.safety_check_passed,
        infrs := { infrs1 with ntallies := other.infrs.ntallies,
                               multinomial_tallies := tallies1 } },
     other)

/-! ## The digits of a factor -/

/-- The digits that the loop of `get_multinomial_weight_id` reads for the `n`
edges from index `i` of `vifs` on: for each edge, the cardinality of its
variable and the domain index of its value (the proposal for the pivot). -/
def factor_digits (get_domain_index : Variable → Int → Int) (cfg : CompiledFactorGraph)
    (assignments : List Int) (vid proposal : Int) : Nat → Int →
    Except Fault (List (Int × Int))
  | 0, _ => Except.ok []
  | n + 1, i => do
      let vif ← getAt cfg.vifs i
      let v ← getAt cfg.vars vif.vid
      let value ← value_of assignments vid proposal vif
      let rest ← factor_digits get_domain_index cfg assignments vid proposal n (i + 1)
      Except.ok ((v.cardinality, get_domain_index v value) :: rest)

/-! ## Reference definitions for the claims -/

/-- The mixed-radix number of a list of digits `(d_j, i_j)` (cardinality and
domain index, most significant first): the sum over `j` of `i_j` times the
product of the `d_l` with `l > j`. -/
def mixed_radix : List (Int × Int) → Int
  | [] => 0
  | di :: rest => di.2 * (rest.map Prod.fst).prod + mixed_radix rest

/-- The nested form `(...((off * d1 + i1) * d2 + i2)...) * dk + ik` of the
mixed-radix number, from the running offset `off`. -/
def mixed_radix_nested (digits : List (Int × Int)) (off : Int) : Int :=
  digits.foldl (fun acc di => acc * di.1 + di.2) off

/-- The contribution of the incident entry `i` of a boolean variable `v` to the
weight `w`: `potential(evidence) - potential(free)` of the entry's factor when
the weight id recorded for the entry is `w` and `w` is not fixed, and nothing
otherwise. -/
def boolean_term (potential : Bool → CompactFactor → ℚ) (cfg : CompiledFactorGraph)
    (v : Variable) (w : Int) (i : Nat) : ℚ :=
  match getAt cfg.compact_factors_weightids (v.n_start_i_factors + i),
      getAt cfg.compact_factors (v.n_start_i_factors + i),
      getAt cfg.infrs.weights_isfixed w with
  | Except.ok wid, Except.ok fs, Except.ok false =>
      if wid = w then potential false fs - potential true fs else 0
  | _, _, _ => 0

/-- The sum of `boolean_term` over the incident entries `i` in
`[0, v.n_factors)`. -/
def boolean_gradient (potential : Bool → CompactFactor → ℚ) (cfg : CompiledFactorGraph)
    (v : Variable) (w : Int) : ℚ :=
  ((List.range v.n_factors.toNat).map (boolean_term potential cfg v w)).sum

/-! ## A small graph

Two multinomial variables of cardinalities 2 and 3 and two dense multinomial
factors: factor 0 over both variables (its edges loaded out of position order)
and factor 1 over variable 1 alone. -/

/-- Raw variable 0, of cardinality 2, declared by factor 0. -/
def example_variable0 : RawVariable :=
  { id := 0, domain_type := DomainType.DTYPE_MULTINOMIAL, is_evid := false,
    cardinality := 2, assignment_evid := 1, assignment_free := 0, n_factors := 0,
    n_start_i_factors := 0, n_start_i_tally := 0, tmp_factor_ids := [0] }

/-- Raw variable 1, of cardinality 3, declared by factors 0 and 1. -/
def example_variable1 : RawVariable :=
  { id := 1, domain_type := DomainType.DTYPE_MULTINOMIAL, is_evid := false,
    cardinality := 3, assignment_evid := 2, assignment_free := 1, n_factors := 0,
    n_start_i_factors := 0, n_start_i_tally := 0, tmp_factor_ids := [0, 1] }

/-- Raw factor 0: variable 1 at position 1 is loaded before variable 0 at
position 0. -/
def example_factor0 : RawFactor :=
  { id := 0, weight_id := 0, func_id := FuncId.FUNC_MULTINOMIAL, n_variables := 2,
    n_start_i_vif := 0, weight_ids := [],
    tmp_variables := [{ vid := 1, n_position := 1 }, { vid := 0, n_position := 0 }] }

/-- Raw factor 1, over variable 1 alone. -/
def example_factor1 : RawFactor :=
  { id := 1, weight_id := 6, func_id := FuncId.FUNC_MULTINOMIAL, n_variables := 1,
    n_start_i_vif := 0, weight_ids := [],
    tmp_variables := [{ vid := 1, n_position := 0 }] }

/-- The raw graph as loaded. -/
def example_raw : FactorGraph :=
  { n_edge := 3, c_nvar := 2, c_nfactor := 2, c_nweight := 9, c_edge := 0,
    n_evid := 0, n_query := 2, stepsize := 1,
    vars := [example_variable0, example_variable1],
    factors := [example_factor0, example_factor1],
    weights := (List.range 9).map (fun i => { id := i, weight := 0, isfixed := false }),
    sorted := true, safety_check_passed := true }

/-- A freshly constructed target for `example_raw`, sized to
`(n_var, n_factor, n_weight, n_edge) = (2, 2, 9, 3)`. -/
def example_target : CompiledFactorGraph :=
  { c_nvar := 0, c_nfactor := 0, c_nweight := 0, c_edge := 0, n_evid := 0, n_query := 0,
    stepsize := 0,
    vars := List.replicate 2
      { id := 0, domain_type := DomainType.DTYPE_BOOLEAN, is_evid := false, cardinality := 0,
        assignment_evid := 0, assignment_free := 0, n_factors := 0, n_start_i_factors := 0,
        n_start_i_tally := 0 },
    factors := List.replicate 2
      { id := 0, weight_id := 0, func_id := FuncId.FUNC_OTHER 0, n_variables := 0,
        n_start_i_vif := 0, weight_ids := [] },
    compact_factors := List.replicate 3
      { id := 0, func_id := FuncId.FUNC_OTHER 0, n_variables := 0, n_start_i_vif := 0 },
    compact_factors_weightids := List.replicate 3 0,
    factor_ids := List.replicate 3 0,
    vifs := List.replicate 3 { vid := 0, n_position := 0 },
    infrs :=
      { ntallies := 0, multinomial_tallies := [], assignments_free := List.replicate 2 0,
        assignments_evid := List.replicate 2 0, weight_values := List.replicate 9 0,
        weights_isfixed := List.replicate 9 false },
    sorted := false, safety_check_passed := false }

/-- The raw graph `example_raw` as `compile` leaves it. -/
def example_raw_after : FactorGraph :=
  { example_raw with
    c_edge := 3,
    vars :=
      [{ id := 0, domain_type := DomainType.DTYPE_MULTINOMIAL, is_evid := false,
         cardinality := 2, assignment_evid := 1, assignment_free := 0, n_factors := 1,
         n_start_i_factors := 0, n_start_i_tally := 0, tmp_factor_ids := [0] },
       { id := 1, domain_type := DomainType.DTYPE_MULTINOMIAL, is_evid := false,
         cardinality := 3, assignment_evid := 2, assignment_free := 1, n_factors := 2,
         n_start_i_factors := 1, n_start_i_tally := 2, tmp_factor_ids := [0, 1] }],
    factors :=
      [{ id := 0, weight_id := 0, func_id := FuncId.FUNC_MULTINOMIAL, n_variables := 2,
         n_start_i_vif := 0, weight_ids := [],
         tmp_variables := [{ vid := 0, n_position := 0 }, { vid := 1, n_position := 1 }] },
       { id := 1, weight_id := 6, func_id := FuncId.FUNC_MULTINOMIAL, n_variables := 1,
         n_start_i_vif := 2, weight_ids := [],
         tmp_variables := [{ vid := 1, n_position := 0 }] }] }

/-- The compiled graph that `compile` makes of `example_raw`. -/
def example_compiled : CompiledFactorGraph :=
  { c_nvar := 2, c_nfactor := 2, c_nweight := 9, c_edge := 3, n_evid := 0, n_query := 2,
    stepsize := 1,
    vars :=
      [{ id := 0, domain_type := DomainType.DTYPE_MULTINOMIAL, is_evid := false,
         cardinality := 2, assignment_evid := 1, assignment_free := 0, n_factors := 1,
         n_start_i_factors := 0, n_start_i_tally := 0 },
       { id := 1, domain_type := DomainType.DTYPE_MULTINOMIAL, is_evid := false,
         cardinality := 3, assignment_evid := 2, assignment_free := 1, n_factors := 2,
         n_start_i_factors := 1, n_start_i_tally := 2 }],
    factors :=
      [{ id := 0, weight_id := 0, func_id := FuncId.FUNC_MULTINOMIAL, n_variables := 2,
         n_start_i_vif := 0, weight_ids := [] },
       { id := 1, weight_id := 6, func_id := FuncId.FUNC_MULTINOMIAL, n_variables := 1,
         n_start_i_vif := 2, weight_ids := [] }],
    compact_factors :=
      [{ id := 0, func_id := FuncId.FUNC_MULTINOMIAL, n_variables := 2, n_start_i_vif := 0 },
       { id := 0, func_id := FuncId.FUNC_MULTINOMIAL, n_variables := 2, n_start_i_vif := 0 },
       { id := 1, func_id := FuncId.FUNC_MULTINOMIAL, n_variables := 1, n_start_i_vif := 2 }],
    compact_factors_weightids := [0, 0, 6],
    factor_ids := [0, 0, 1],
    vifs := [{ vid := 0, n_position := 0 }, { vid := 1, n_position := 1 },
             { vid := 1, n_position := 0 }],
    infrs :=
      { ntallies := 5, multinomial_tallies := List.replicate 5 0,
        assignments_free := [0, 1], assignments_evid := [1, 2],
        weight_values := List.replicate 9 0, weights_isfixed := List.replicate 9 false },
    sorted := false, safety_check_passed := false }

/-- A boolean variable record whose single incident entry is entry 2 of the
small compiled graph (factor 1, weight id 6). -/
def example_boolean_variable : Variable :=
  { id := 1, domain_type := DomainType.DTYPE_BOOLEAN, is_evid := false, cardinality := 2,
    assignment_evid := 1, assignment_free := 0, n_factors := 1, n_start_i_factors := 2,
    n_start_i_tally := 0 }

/-- Compiled variable 0 of the small graph: multinomial, with the single
incident entry 0 (factor 0). -/
def example_multinomial_variable : Variable :=
  { id := 0, domain_type := DomainType.DTYPE_MULTINOMIAL, is_evid := false,
    cardinality := 2, assignment_evid := 1, assignment_free := 0, n_factors := 1,
    n_start_i_factors := 0, n_start_i_tally := 0 }

/-- A variable record with an unrecognized domain type and no incident
factor. -/
def example_unrecognized_variable : Variable :=
  { id := 0, domain_type := DomainType.DTYPE_OTHER 2, is_evid := false, cardinality := 2,
    assignment_evid := 0, assignment_free := 0, n_factors := 0, n_start_i_factors := 0,
    n_start_i_tally := 0 }

/-- Potentials with `potential(evidence) = 1` and `potential(free) = 0` for
every factor. -/
def example_potential : Bool → CompactFactor → ℚ :=
  fun does_change_evid _ => if does_change_evid then 0 else 1

/-- Potentials with `potential(evidence) = 3` and `potential(free) = 2` for
every factor. -/
def example_potential_3_2 : Bool → CompactFactor → ℚ :=
  fun does_change_evid _ => if does_change_evid then 2 else 3

/-- The small compiled graph with factor 0 of a function that is neither dense
nor sparse multinomial, for which `get_multinomial_weight_id` resolves every
snapshot to the weight id 0.  The evidence snapshot `[1, 2]` and the free
snapshot `[0, 1]` differ. -/
def example_shared : CompiledFactorGraph :=
  { example_compiled with
    factors :=
      [{ id := 0, weight_id := 0, func_id := FuncId.FUNC_OTHER 0, n_variables := 2,
         n_start_i_vif := 0, weight_ids := [] },
       { id := 1, weight_id := 6, func_id := FuncId.FUNC_MULTINOMIAL, n_variables := 1,
         n_start_i_vif := 2, weight_ids := [] }],
    compact_factors :=
      [{ id := 0, func_id := FuncId.FUNC_OTHER 0, n_variables := 2, n_start_i_vif := 0 },
       { id := 0, func_id := FuncId.FUNC_OTHER 0, n_variables := 2, n_start_i_vif := 0 },
       { id := 1, func_id := FuncId.FUNC_MULTINOMIAL, n_variables := 1,
         n_start_i_vif := 2 }] }

/-- The small compiled graph with factor 0 sparse multinomial, with a table
that gives the offsets 5 and 1 the same weight id 4: the evidence snapshot
`[1, 2]` and the free snapshot `[0, 1]` differ and resolve to the weight 4. -/
def example_tied : CompiledFactorGraph :=
  { example_compiled with
    factors :=
      [{ id := 0, weight_id := 0, func_id := FuncId.FUNC_SPARSE_MULTINOMIAL,
         n_variables := 2, n_start_i_vif := 0, weight_ids := [(5, 4), (1, 4)] },
       { id := 1, weight_id := 6, func_id := FuncId.FUNC_MULTINOMIAL, n_variables := 1,
         n_start_i_vif := 2, weight_ids := [] }],
    compact_factors :=
      [{ id := 0, func_id := FuncId.FUNC_SPARSE_MULTINOMIAL, n_variables := 2,
         n_start_i_vif := 0 },
       { id := 0, func_id := FuncId.FUNC_SPARSE_MULTINOMIAL, n_variables := 2,
         n_start_i_vif := 0 },
       { id := 1, func_id := FuncId.FUNC_MULTINOMIAL, n_variables := 1,
         n_start_i_vif := 2 }] }

/-- The small compiled graph with the weight 5 fixed. -/
def example_fixed : CompiledFactorGraph :=
  { example_compiled with
    infrs := { example_compiled.infrs with
      weights_isfixed := [false, false, false, false, false, true, false, false, false] } }

/-- The graph `example_fixed` after `update_weight` on variable 0 with the
potentials 3 and 2: the free snapshot resolves to the weight 1, which loses
`1 * 2`, and the fixed weight 5 keeps its value. -/
def example_fixed_after : CompiledFactorGraph :=
  { example_fixed with
    infrs := { example_fixed.infrs with
      weight_values := [0, -2, 0, 0, 0, 0, 0, 0, 0] } }

/-! ## Further small graphs -/

/-- The small raw graph with the field `n_variables` of factor 1 set to 5,
while the factor still has the single edge it was loaded with. -/
def example_miscounted : FactorGraph :=
  { example_raw with
    factors := [example_factor0, { example_factor1 with n_variables := 5 }] }

/-- The raw graph `example_miscounted` as `compile` leaves it. -/
def example_miscounted_after : FactorGraph :=
  { example_raw_after with
    factors :=
      [{ id := 0, weight_id := 0, func_id := FuncId.FUNC_MULTINOMIAL, n_variables := 2,
         n_start_i_vif := 0, weight_ids := [],
         tmp_variables := [{ vid := 0, n_position := 0 }, { vid := 1, n_position := 1 }] },
       { id := 1, weight_id := 6, func_id := FuncId.FUNC_MULTINOMIAL, n_variables := 5,
         n_start_i_vif := 2, weight_ids := [],
         tmp_variables := [{ vid := 1, n_position := 0 }] }] }

/-- The compiled graph that `compile` makes of `example_miscounted`. -/
def example_miscounted_compiled : CompiledFactorGraph :=
  { example_compiled with
    factors :=
      [{ id := 0, weight_id := 0, func_id := FuncId.FUNC_MULTINOMIAL, n_variables := 2,
         n_start_i_vif := 0, weight_ids := [] },
       { id := 1, weight_id := 6, func_id := FuncId.FUNC_MULTINOMIAL, n_variables := 5,
         n_start_i_vif := 2, weight_ids := [] }],
    compact_factors :=
      [{ id := 0, func_id := FuncId.FUNC_MULTINOMIAL, n_variables := 2, n_start_i_vif := 0 },
       { id := 0, func_id := FuncId.FUNC_MULTINOMIAL, n_variables := 2, n_start_i_vif := 0 },
       { id := 1, func_id := FuncId.FUNC_MULTINOMIAL, n_variables := 5,
         n_start_i_vif := 2 }] }

/-- The small compiled graph after `update_weight` on the boolean variable
record with the potentials 1 and 0: the weight 6 has moved from 0 to 1. -/
def example_boolean_after : CompiledFactorGraph :=
  { example_compiled with
    infrs := { example_compiled.infrs with
      weight_values := [0, 0, 0, 0, 0, 0, 1, 0, 0] } }

/-- The small raw graph with the weight id of factor 1 set to 2147483653, above
the largest `int`. -/
def example_heavy : FactorGraph :=
  { example_raw with
    factors := [example_factor0, { example_factor1 with weight_id := 2147483653 }] }

/-- The raw graph `example_heavy` as `compile` leaves it. -/
def example_heavy_after : FactorGraph :=
  { example_raw_after with
    factors :=
      [{ id := 0, weight_id := 0, func_id := FuncId.FUNC_MULTINOMIAL, n_variables := 2,
         n_start_i_vif := 0, weight_ids := [],
         tmp_variables := [{ vid := 0, n_position := 0 }, { vid := 1, n_position := 1 }] },
       { id := 1, weight_id := 2147483653, func_id := FuncId.FUNC_MULTINOMIAL,
         n_variables := 1, n_start_i_vif := 2, weight_ids := [],
         tmp_variables := [{ vid := 1, n_position := 0 }] }] }

/-- The compiled graph that `compile` makes of `example_heavy`: the entry of
factor 1 in the `int` array `compact_factors_weightids` is
`2147483653 - 2^32`. -/
def example_heavy_compiled : CompiledFactorGraph :=
  { example_compiled with
    factors :=
      [{ id := 0, weight_id := 0, func_id := FuncId.FUNC_MULTINOMIAL, n_variables := 2,
         n_start_i_vif := 0, weight_ids := [] },
       { id := 1, weight_id := 2147483653, func_id := FuncId.FUNC_MULTINOMIAL,
         n_variables := 1, n_start_i_vif := 2, weight_ids := [] }],
    compact_factors_weightids := [0, 0, -2147483643] }

/-- A compiled graph with three multinomial variables of cardinality
2147483647 and one dense multinomial factor over them, in the order of their
ids, with the base weight id 0.  The arrays that `get_multinomial_weight_id`
reads are filled in; the store is left empty. -/
def example_wide : CompiledFactorGraph :=
  { c_nvar := 3, c_nfactor := 1, c_nweight := 0, c_edge := 3, n_evid := 0, n_query := 3,
    stepsize := 1,
    vars :=
      [{ id := 0, domain_type := DomainType.DTYPE_MULTINOMIAL, is_evid := false,
         cardinality := 2147483647, assignment_evid := 0, assignment_free := 0,
         n_factors := 1, n_start_i_factors := 0, n_start_i_tally := 0 },
       { id := 1, domain_type := DomainType.DTYPE_MULTINOMIAL, is_evid := false,
         cardinality := 2147483647, assignment_evid := 0, assignment_free := 0,
         n_factors := 1, n_start_i_factors := 1, n_start_i_tally := 2147483647 },
       { id := 2, domain_type := DomainType.DTYPE_MULTINOMIAL, is_evid := false,
         cardinality := 2147483647, assignment_evid := 0, assignment_free := 0,
         n_factors := 1, n_start_i_factors := 2, n_start_i_tally := 4294967294 }],
    factors :=
      [{ id := 0, weight_id := 0, func_id := FuncId.FUNC_MULTINOMIAL, n_variables := 3,
         n_start_i_vif := 0, weight_ids := [] }],
    compact_factors := List.replicate 3
      { id := 0, func_id := FuncId.FUNC_MULTINOMIAL, n_variables := 3, n_start_i_vif := 0 },
    compact_factors_weightids := [0, 0, 0],
    factor_ids := [0, 0, 0],
    vifs := [{ vid := 0, n_position := 0 }, { vid := 1, n_position := 1 },
             { vid := 2, n_position := 2 }],
    infrs :=
      { ntallies := 0, multinomial_tallies := [], assignments_free := [0, 0, 0],
        assignments_evid := [0, 0, 0], weight_values := [], weights_isfixed := [] },
    sorted := true, safety_check_passed := true }

/-- The compact factor of `example_wide`. -/
def example_wide_factor : CompactFactor :=
  { id := 0, func_id := FuncId.FUNC_MULTINOMIAL, n_variables := 3, n_start_i_vif := 0 }

/-! ## Arrays -/

/-- Reading at a natural index. -/
theorem getAt_natCast {α : Type} (xs : List α) (n : Nat) :
    getAt xs (n : Int) = match xs[n]? with
      | some x => Except.ok x
      | none => Except.error Fault.out_of_bounds := by
  simp [getAt]

/-- A read succeeds exactly at a non-negative index inside the array. -/
theorem getAt_eq_ok {α : Type} {xs : List α} {i : Int} {x : α} :
    getAt xs i = Except.ok x ↔ 0 ≤ i ∧ xs[i.toNat]? = some x := by
  unfold getAt
  by_cases h : 0 ≤ i
  · simp only [h, if_true, true_and]
    cases hx : xs[i.toNat]? <;> simp
  · simp [h]

/-- A write at a natural index succeeds exactly inside the array. -/
theorem setAt_natCast_eq_ok {α : Type} {xs ys : List α} {n : Nat} {v : α} :
    setAt xs (n : Int) v = Except.ok ys ↔ n < xs.length ∧ ys = xs.set n v := by
  unfold setAt
  by_cases h : n < xs.length
  · simp [h, eq_comm]
  · simp [h]

/-- A range of an array whose entries are those of `l` is `l`. -/
theorem slice_eq_of_getElem? {α : Type} (xs l : List α) (s : Nat)
    (h : ∀ t, t < l.length → xs[s + t]? = l[t]?) :
    slice xs (s : Int) (l.length : Int) = l := by
  unfold slice
  apply List.ext_getElem?
  intro t
  simp only [Int.toNat_ofNat]
  by_cases ht : t < l.length
  · rw [List.getElem?_take_of_lt ht, List.getElem?_drop, h t ht]
  · rw [List.getElem?_eq_none (by simp; omega), List.getElem?_eq_none (by omega)]

/-! ## Sorting -/

/-- Inserting into a list permutes the list with the new entry in front. -/
theorem sort_insert_perm {α : Type} (lt : α → α → Bool) (x : α) (l : List α) :
    (sort_insert lt x l).Perm (x :: l) := by
  induction l with
  | nil => simp [sort_insert]
  | cons y ys ih =>
    unfold sort_insert
    split
    · exact (List.Perm.cons y ih).trans (List.Perm.swap x y ys)
    · exact List.Perm.refl _

/-- The sort permutes its input. -/
theorem std_sort_perm {α : Type} (lt : α → α → Bool) (l : List α) :
    (std_sort lt l).Perm l := by
  induction l with
  | nil => simp [std_sort]
  | cons x xs ih =>
    unfold std_sort
    exact (sort_insert_perm lt x _).trans (List.Perm.cons x ih)

/-- The sort keeps the length. -/
theorem std_sort_length {α : Type} (lt : α → α → Bool) (l : List α) :
    (std_sort lt l).length = l.length :=
  (std_sort_perm lt l).length_eq

/-- Inserting by `compare_position` keeps a list ordered by position. -/
theorem sort_insert_position_sorted (x : VariableInFactor) (l : List VariableInFactor)
    (h : l.Pairwise (fun a b => a.n_position ≤ b.n_position)) :
    (sort_insert compare_position x l).Pairwise (fun a b => a.n_position ≤ b.n_position) := by
  induction l with
  | nil => simp [sort_insert]
  | cons y ys ih =>
    unfold sort_insert
    rw [List.pairwise_cons] at h
    split
    · rename_i hlt
      simp only [compare_position, decide_eq_true_eq] at hlt
      rw [List.pairwise_cons]
      refine ⟨?_, ih h.2⟩
      intro z hz
      rcases List.mem_cons.mp ((sort_insert_perm compare_position x ys).mem_iff.mp hz) with
        rfl | hz1
      · omega
      · exact h.1 z hz1
    · rename_i hlt
      simp only [compare_position, decide_eq_true_eq, not_lt] at hlt
      rw [List.pairwise_cons]
      refine ⟨?_, List.pairwise_cons.mpr h⟩
      intro z hz
      rcases List.mem_cons.mp hz with rfl | hz1
      · exact hlt
      · exact le_trans hlt (h.1 z hz1)

/-- The sort by `compare_position` orders by non-decreasing position. -/
theorem std_sort_position_sorted (l : List VariableInFactor) :
    (std_sort compare_position l).Pairwise (fun a b => a.n_position ≤ b.n_position) := by
  induction l with
  | nil => simp [std_sort]
  | cons x xs ih =>
    unfold std_sort
    exact sort_insert_position_sorted x _ ih

/-! ## The first pass of `compile` -/

/-- A successful run of the inner loop of the first pass advances the cursor by the
number of edges, writes them from the cursor on and leaves the rest of `vifs`. -/
theorem write_vifs_ok (l : List VariableInFactor) :
    ∀ (k : Nat) (xs : List VariableInFactor) (k' : Nat) (xs' : List VariableInFactor),
      write_vifs l k xs = Except.ok (k', xs') →
      k' = k + l.length ∧ xs'.length = xs.length ∧
      (∀ p, p < k → xs'[p]? = xs[p]?) ∧
      (∀ p, k + l.length ≤ p → xs'[p]? = xs[p]?) ∧
      (∀ t, t < l.length → xs'[k + t]? = l[t]?) := by
  induction l with
  | nil =>
    intro k xs k' xs' h
    simp [write_vifs] at h
    obtain ⟨rfl, rfl⟩ := h
    simp
  | cons vif rest ih =>
    intro k xs k' xs' h
    simp only [write_vifs, bind, Except.bind] at h
    split at h
    · cases h
    · rename_i ys hset
      obtain ⟨hk, rfl⟩ := setAt_natCast_eq_ok.mp hset
      obtain ⟨h1, h2, h3, h4, h5⟩ := ih (k + 1) _ k' xs' h
      refine ⟨by simp [h1]; omega, by simpa using h2, ?_, ?_, ?_⟩
      · intro p hp
        rw [h3 p (by omega), List.getElem?_set_ne (by omega)]
      · intro p hp
        simp only [List.length_cons] at hp
        rw [h4 p (by omega), List.getElem?_set_ne (by omega)]
      · intro t ht
        cases t with
        | zero =>
          rw [Nat.add_zero, h3 k (by omega)]
          simp [hk]
        | succ t =>
          simp only [List.length_cons] at ht
          have := h5 t (by omega)
          rw [show k + (t + 1) = k + 1 + t by omega, this]
          simp

/-- The edge count of a list of raw factors, head first. -/
theorem edge_count_cons (rf : RawFactor) (l : List RawFactor) :
    edge_count (rf :: l) = rf.tmp_variables.length + edge_count l := by
  simp [edge_count]

/-- Sorting in place keeps the number of edges of a raw factor. -/
theorem stamp_factor_length (rf : RawFactor) (s : Nat) :
    (stamp_factor rf s).tmp_variables.length = rf.tmp_variables.length := by
  simp [stamp_factor, std_sort_length]

/-- A successful first pass: the cursor ends at the start plus the edge count, the
arrays keep their sizes and their entries outside the written ranges, and the
factor at position `j` is stamped with the offset of the edges before it,
copied to `cfg.factors`, and has its sorted edges in `vifs` from that offset. -/
theorem compile_factors_ok (l : List RawFactor) :
    ∀ (i i_edge : Nat) (vifs : List VariableInFactor) (cfs : List Factor)
      (l' : List RawFactor) (e' : Nat) (vifs' : List VariableInFactor) (cfs' : List Factor),
      compile_factors l i i_edge vifs cfs = Except.ok (l', e', vifs', cfs') →
      e' = i_edge + edge_count l ∧ vifs'.length = vifs.length ∧
      cfs'.length = cfs.length ∧ l'.length = l.length ∧
      (∀ p, p < i_edge → vifs'[p]? = vifs[p]?) ∧
      (∀ p, e' ≤ p → vifs'[p]? = vifs[p]?) ∧
      (∀ q, q < i → cfs'[q]? = cfs[q]?) ∧
      (∀ q, i + l.length ≤ q → cfs'[q]? = cfs[q]?) ∧
      (∀ j rf, l[j]? = some rf →
        l'[j]? = some (stamp_factor rf (i_edge + edge_count (l.take j))) ∧
        cfs'[i + j]? = some (Factor.ofRaw (stamp_factor rf (i_edge + edge_count (l.take j)))) ∧
        ∀ t, t < rf.tmp_variables.length →
          vifs'[i_edge + edge_count (l.take j) + t]? =
            (std_sort compare_position rf.tmp_variables)[t]?) := by
  induction l with
  | nil =>
    intro i i_edge vifs cfs l' e' vifs' cfs' h
    simp [compile_factors] at h
    obtain ⟨rfl, rfl, rfl, rfl⟩ := h
    simp [edge_count]
  | cons rf rest ih =>
    intro i i_edge vifs cfs l' e' vifs' cfs' h
    simp only [compile_factors, bind, Except.bind] at h
    split at h
    · cases h
    · rename_i r1 hw
      obtain ⟨e1, vifs1⟩ := r1
      simp only at h
      split at h
      · cases h
      · rename_i cfs1 hset
        split at h
        · cases h
        · rename_i r2 hrec
          obtain ⟨rest1, e2, vifs2, cfs2⟩ := r2
          simp only [Except.ok.injEq, Prod.mk.injEq] at h
          obtain ⟨rfl, rfl, rfl, rfl⟩ := h
          obtain ⟨hi, rfl⟩ := setAt_natCast_eq_ok.mp hset
          obtain ⟨w1, w2, w3, w4, w5⟩ := write_vifs_ok _ _ _ _ _ hw
          rw [stamp_factor_length] at w1 w4 w5
          obtain ⟨a1, a2, a3, a4, a5, a6, a7, a8, a9⟩ := ih _ _ _ _ _ _ _ _ hrec
          refine ⟨by rw [a1, w1, edge_count_cons]; omega, by rw [a2, w2],
            by simpa using a3, by simp [a4], ?_, ?_, ?_, ?_, ?_⟩
          · intro p hp
            rw [a5 p (by omega), w3 p hp]
          · intro p hp
            rw [a6 p hp, w4 p (by rw [a1, w1] at hp; omega)]
          · intro q hq
            rw [a7 q (by omega), List.getElem?_set_ne (by omega)]
          · intro q hq
            simp only [List.length_cons] at hq
            rw [a8 q (by omega), List.getElem?_set_ne (by omega)]
          · intro j rf' hj
            cases j with
            | zero =>
              simp only [List.getElem?_cons_zero, Option.some.injEq] at hj
              subst hj
              simp only [List.take_zero, edge_count, List.map_nil, List.sum_nil, Nat.add_zero,
                List.getElem?_cons_zero, true_and]
              refine ⟨?_, ?_⟩
              · rw [a7 i (by omega)]
                simp [hi]
              · intro t ht
                rw [a5 _ (by omega), w5 t ht]
                simp [stamp_factor]
            | succ j =>
              simp only [List.getElem?_cons_succ] at hj
              obtain ⟨b1, b2, b3⟩ := a9 j rf' hj
              simp only [List.take_succ_cons, edge_count_cons, List.getElem?_cons_succ]
              rw [w1] at b1 b2 b3
              rw [show i_edge + (rf.tmp_variables.length + edge_count (List.take j rest)) =
                i_edge + rf.tmp_variables.length + edge_count (List.take j rest) by omega]
              refine ⟨b1, ?_, b3⟩
              rw [show i + (j + 1) = i + 1 + j by omega]
              exact b2

/-! ## The second pass of `compile` -/

/-- The incidence count of a list of raw variables, head first. -/
theorem incidence_count_cons (rv : RawVariable) (l : List RawVariable) :
    incidence_count (rv :: l) = rv.tmp_factor_ids.length + incidence_count l := by
  simp [incidence_count]

/-- The second pass does not touch the list of incident factor ids. -/
theorem stamp_variable_tmp_factor_ids (rv : RawVariable) (s : Nat) (nt : Int) :
    (stamp_variable rv s nt).tmp_factor_ids = rv.tmp_factor_ids := by
  unfold stamp_variable
  simp only
  split <;> rfl

/-- The second pass records the number of incident factor ids. -/
theorem stamp_variable_n_factors (rv : RawVariable) (s : Nat) (nt : Int) :
    (stamp_variable rv s nt).n_factors = rv.tmp_factor_ids.length := by
  unfold stamp_variable
  simp only
  split <;> rfl

/-- The second pass records the edge cursor as the offset of the variable. -/
theorem stamp_variable_n_start_i_factors (rv : RawVariable) (s : Nat) (nt : Int) :
    (stamp_variable rv s nt).n_start_i_factors = s := by
  unfold stamp_variable
  simp only
  split <;> rfl

/-- A successful run of the inner loop of the second pass advances the cursor by
the number of ids, leaves the entries outside the written range, and writes,
for the id at position `t`, the id, the compact copy of its raw factor and the
factor's weight id at the cursor plus `t`. -/
theorem write_factor_ids_ok (factors : List RawFactor) (l : List Int) :
    ∀ (k : Nat) (arrs : EdgeArrays) (k' : Nat) (arrs' : EdgeArrays),
      write_factor_ids factors l k arrs = Except.ok (k', arrs') →
      k' = k + l.length ∧
      arrs'.factor_ids.length = arrs.factor_ids.length ∧
      arrs'.compact_factors.length = arrs.compact_factors.length ∧
      arrs'.compact_factors_weightids.length = arrs.compact_factors_weightids.length ∧
      (∀ p, p < k ∨ k + l.length ≤ p →
        arrs'.factor_ids[p]? = arrs.factor_ids[p]? ∧
        arrs'.compact_factors[p]? = arrs.compact_factors[p]? ∧
        arrs'.compact_factors_weightids[p]? = arrs.compact_factors_weightids[p]?) ∧
      (∀ t fid, l[t]? = some fid → ∃ f, getAt factors fid = Except.ok f ∧
        arrs'.factor_ids[k + t]? = some fid ∧
        arrs'.compact_factors[k + t]? = some
          { id := f.id, func_id := f.func_id, n_variables := f.n_variables,
            n_start_i_vif := f.n_start_i_vif } ∧
        arrs'.compact_factors_weightids[k + t]? = some (wrap_int f.weight_id)) := by
  induction l with
  | nil =>
    intro k arrs k' arrs' h
    simp [write_factor_ids] at h
    obtain ⟨rfl, rfl⟩ := h
    simp
  | cons fid rest ih =>
    intro k arrs k' arrs' h
    simp only [write_factor_ids, bind, Except.bind] at h
    split at h
    · cases h
    · rename_i fids1 hset1
      split at h
      · cases h
      · rename_i f hget
        split at h
        · cases h
        · rename_i cfs1 hset2
          split at h
          · cases h
          · rename_i wids1 hset3
            obtain ⟨hk1, rfl⟩ := setAt_natCast_eq_ok.mp hset1
            obtain ⟨hk2, rfl⟩ := setAt_natCast_eq_ok.mp hset2
            obtain ⟨hk3, rfl⟩ := setAt_natCast_eq_ok.mp hset3
            obtain ⟨a1, a2, a3, a4, a5, a6⟩ := ih _ _ _ _ h
            simp only [List.length_set] at a2 a3 a4
            refine ⟨by simp [a1]; omega, a2, a3, a4, ?_, ?_⟩
            · intro p hp
              simp only [List.length_cons] at hp
              obtain ⟨b1, b2, b3⟩ := a5 p (by omega)
              rw [b1, b2, b3]
              simp only
              rw [List.getElem?_set_ne (by omega), List.getElem?_set_ne (by omega),
                List.getElem?_set_ne (by omega)]
              exact ⟨rfl, rfl, rfl⟩
            · intro t fid' ht
              cases t with
              | zero =>
                simp only [List.getElem?_cons_zero, Option.some.injEq] at ht
                subst ht
                obtain ⟨b1, b2, b3⟩ := a5 k (by omega)
                refine ⟨f, hget, ?_, ?_, ?_⟩
                · rw [Nat.add_zero, b1]; simp [hk1]
                · rw [Nat.add_zero, b2]; simp [hk2]
                · rw [Nat.add_zero, b3]; simp [hk3]
              | succ t =>
                simp only [List.getElem?_cons_succ] at ht
                obtain ⟨f', c1, c2, c3, c4⟩ := a6 t fid' ht
                rw [show k + (t + 1) = k + 1 + t by omega]
                exact ⟨f', c1, c2, c3, c4⟩

/-- A successful second pass: the cursors, the sizes of the arrays, the entries
it leaves alone, and for the variable at position `j` its stamped record, the
copy in `cfg.variables` and the three parallel entries of each of its incident
factor ids. -/
theorem compile_variables_ok (factors : List RawFactor) (l : List RawVariable) :
    ∀ (i i_edge : Nat) (nt : Int) (arrs : EdgeArrays) (cvars : List Variable)
      (l' : List RawVariable) (e' : Nat) (nt' : Int) (arrs' : EdgeArrays)
      (cvars' : List Variable),
      compile_variables factors l i i_edge nt arrs cvars =
        Except.ok (l', e', nt', arrs', cvars') →
      e' = i_edge + incidence_count l ∧ nt' = tally_after l nt ∧
      arrs'.factor_ids.length = arrs.factor_ids.length ∧
      arrs'.compact_factors.length = arrs.compact_factors.length ∧
      arrs'.compact_factors_weightids.length = arrs.compact_factors_weightids.length ∧
      cvars'.length = cvars.length ∧ l'.length = l.length ∧
      (∀ p, p < i_edge ∨ e' ≤ p →
        arrs'.factor_ids[p]? = arrs.factor_ids[p]? ∧
        arrs'.compact_factors[p]? = arrs.compact_factors[p]? ∧
        arrs'.compact_factors_weightids[p]? = arrs.compact_factors_weightids[p]?) ∧
      (∀ q, q < i ∨ i + l.length ≤ q → cvars'[q]? = cvars[q]?) ∧
      (∀ j rv, l[j]? = some rv →
        l'[j]? = some (stamp_variable rv (i_edge + incidence_count (l.take j))
          (tally_after (l.take j) nt)) ∧
        cvars'[i + j]? = some (Variable.ofRaw
          (stamp_variable rv (i_edge + incidence_count (l.take j))
            (tally_after (l.take j) nt))) ∧
        ∀ t fid, rv.tmp_factor_ids[t]? = some fid → ∃ f, getAt factors fid = Except.ok f ∧
          arrs'.factor_ids[i_edge + incidence_count (l.take j) + t]? = some fid ∧
          arrs'.compact_factors[i_edge + incidence_count (l.take j) + t]? = some
            { id := f.id, func_id := f.func_id, n_variables := f.n_variables,
              n_start_i_vif := f.n_start_i_vif } ∧
          arrs'.compact_factors_weightids[i_edge + incidence_count (l.take j) + t]? =
            some (wrap_int f.weight_id)) := by
  induction l with
  | nil =>
    intro i i_edge nt arrs cvars l' e' nt' arrs' cvars' h
    simp [compile_variables] at h
    obtain ⟨rfl, rfl, rfl, rfl, rfl⟩ := h
    simp [incidence_count, tally_after]
  | cons rv rest ih =>
    intro i i_edge nt arrs cvars l' e' nt' arrs' cvars' h
    simp only [compile_variables, bind, Except.bind] at h
    split at h
    · cases h
    · rename_i r1 hw
      obtain ⟨e1, arrs1⟩ := r1
      simp only at h
      split at h
      · cases h
      · rename_i cvars1 hset
        split at h
        · cases h
        · rename_i r2 hrec
          obtain ⟨rest1, e2, nt2, arrs2, cvars2⟩ := r2
          simp only [Except.ok.injEq, Prod.mk.injEq] at h
          obtain ⟨rfl, rfl, rfl, rfl, rfl⟩ := h
          obtain ⟨hi, rfl⟩ := setAt_natCast_eq_ok.mp hset
          rw [stamp_variable_tmp_factor_ids] at hw
          obtain ⟨w1, w2, w3, w4, w5, w6⟩ := write_factor_ids_ok _ _ _ _ _ _ hw
          obtain ⟨a1, a2, a3, a4, a5, a6, a7, a8, a9, a10⟩ :=
            ih _ _ _ _ _ _ _ _ _ _ hrec
          refine ⟨by rw [a1, w1, incidence_count_cons]; omega, by simp [a2, tally_after],
            by rw [a3, w2], by rw [a4, w3], by rw [a5, w4], by simpa using a6, by simp [a7],
            ?_, ?_, ?_⟩
          · intro p hp
            obtain ⟨b1, b2, b3⟩ := a8 p (by rw [a1, w1] at hp ⊢; omega)
            obtain ⟨c1, c2, c3⟩ := w5 p (by rw [a1, w1] at hp; omega)
            exact ⟨b1.trans c1, b2.trans c2, b3.trans c3⟩
          · intro q hq
            simp only [List.length_cons] at hq
            rw [a9 q (by omega), List.getElem?_set_ne (by omega)]
          · intro j rv' hj
            cases j with
            | zero =>
              simp only [List.getElem?_cons_zero, Option.some.injEq] at hj
              subst hj
              simp only [List.take_zero, incidence_count, tally_after, List.map_nil,
                List.sum_nil, Nat.add_zero, List.foldl_nil, List.getElem?_cons_zero, true_and]
              refine ⟨?_, ?_⟩
              · rw [a9 i (by omega)]
                simp [hi]
              · intro t fid ht
                obtain ⟨f, c1, c2, c3, c4⟩ := w6 t fid ht
                have hlt : t < rv.tmp_factor_ids.length := by
                  rcases List.getElem?_eq_some.mp ht with ⟨h1, _⟩
                  exact h1
                obtain ⟨b1, b2, b3⟩ := a8 (i_edge + t) (by rw [w1]; omega)
                exact ⟨f, c1, b1.trans c2, b2.trans c3, b3.trans c4⟩
            | succ j =>
              simp only [List.getElem?_cons_succ] at hj
              obtain ⟨b1, b2, b3⟩ := a10 j rv' hj
              simp only [List.take_succ_cons, incidence_count_cons, List.getElem?_cons_succ]
              rw [w1] at b1 b2 b3
              rw [show i_edge + (rv.tmp_factor_ids.length + incidence_count (List.take j rest)) =
                i_edge + rv.tmp_factor_ids.length + incidence_count (List.take j rest) by omega]
              have ht : tally_after (rv :: List.take j rest) nt =
                  tally_after (List.take j rest) (next_tally rv nt) := by
                simp [tally_after]
              rw [ht]
              refine ⟨b1, ?_, b3⟩
              rw [show i + (j + 1) = i + 1 + j by omega]
              exact b2

/-! ## `compile` as a whole -/

/-- A successful `compile` is a successful first pass ending at `n_edge`, followed
by a successful second pass ending at `n_edge`, whose results make up the raw
graph and the compiled graph it returns. -/
theorem compile_ok {fg fg' : FactorGraph} {cfg cfg' : CompiledFactorGraph}
    (h : fg.compile cfg = Except.ok (fg', cfg')) :
    ∃ (factors1 : List RawFactor) (vars1 : List RawVariable) (nt : Int)
      (arrs : EdgeArrays),
      compile_factors fg.factors 0 0 cfg.vifs cfg.factors =
        Except.ok (factors1, fg.n_edge.toNat, cfg'.vifs, cfg'.factors) ∧
      compile_variables factors1 fg.vars 0 0 0
        { factor_ids := cfg.factor_ids, compact_factors := cfg.compact_factors,
          compact_factors_weightids := cfg.compact_factors_weightids } cfg.vars =
        Except.ok (vars1, fg.n_edge.toNat, nt, arrs, cfg'.vars) ∧
      0 ≤ fg.n_edge ∧
      fg' = { fg with factors := factors1, vars := vars1, c_edge := fg.n_edge } ∧
      cfg'.factor_ids = arrs.factor_ids ∧ cfg'.compact_factors = arrs.compact_factors ∧
      cfg'.compact_factors_weightids = arrs.compact_factors_weightids ∧
      cfg'.c_edge = fg.n_edge ∧ cfg'.stepsize = fg.stepsize ∧
      cfg'.infrs = InferenceResult.init cfg'.vars fg.weights := by
  simp only [FactorGraph.compile, bind, Except.bind] at h
  split at h
  · cases h
  · rename_i r1 h1
    obtain ⟨factors1, e1, vifs1, cfactors1⟩ := r1
    simp only at h
    split at h
    · cases h
    · rename_i he1
      simp only [ne_eq, not_not] at he1
      split at h
      · cases h
      · rename_i r2 h2
        obtain ⟨vars1, e2, nt, arrs, cvars1⟩ := r2
        simp only at h
        split at h
        · cases h
        · rename_i he2
          simp only [ne_eq, not_not] at he2
          simp only [Except.ok.injEq, Prod.mk.injEq] at h
          obtain ⟨rfl, rfl⟩ := h
          have hn1 : fg.n_edge.toNat = e1 := by omega
          have hn2 : fg.n_edge.toNat = e2 := by omega
          refine ⟨factors1, vars1, nt, arrs, ?_, ?_, by omega, ?_, rfl, rfl, rfl, ?_, rfl, rfl⟩
          · rw [hn1]; exact h1
          · rw [hn2]; exact h2
          · rw [he2]
          · simp [he2]

/-- Every entry between the start cursor and the end cursor of a successful second
pass was written from some incident factor id and its raw factor. -/
theorem compile_variables_entry (factors : List RawFactor) (l : List RawVariable) :
    ∀ (i i_edge : Nat) (nt : Int) (arrs : EdgeArrays) (cvars : List Variable)
      (l' : List RawVariable) (e' : Nat) (nt' : Int) (arrs' : EdgeArrays)
      (cvars' : List Variable),
      compile_variables factors l i i_edge nt arrs cvars =
        Except.ok (l', e', nt', arrs', cvars') →
      ∀ p, i_edge ≤ p → p < e' → ∃ fid f, getAt factors fid = Except.ok f ∧
        arrs'.factor_ids[p]? = some fid ∧
        arrs'.compact_factors[p]? = some
          { id := f.id, func_id := f.func_id, n_variables := f.n_variables,
            n_start_i_vif := f.n_start_i_vif } ∧
        arrs'.compact_factors_weightids[p]? = some (wrap_int f.weight_id) := by
  induction l with
  | nil =>
    intro i i_edge nt arrs cvars l' e' nt' arrs' cvars' h p hp1 hp2
    simp [compile_variables] at h
    omega
  | cons rv rest ih =>
    intro i i_edge nt arrs cvars l' e' nt' arrs' cvars' h p hp1 hp2
    simp only [compile_variables, bind, Except.bind] at h
    split at h
    · cases h
    · rename_i r1 hw
      obtain ⟨e1, arrs1⟩ := r1
      simp only at h
      split at h
      · cases h
      · rename_i cvars1 hset
        split at h
        · cases h
        · rename_i r2 hrec
          obtain ⟨rest1, e2, nt2, arrs2, cvars2⟩ := r2
          simp only [Except.ok.injEq, Prod.mk.injEq] at h
          obtain ⟨rfl, rfl, rfl, rfl, rfl⟩ := h
          rw [stamp_variable_tmp_factor_ids] at hw
          obtain ⟨w1, -, -, -, -, w6⟩ := write_factor_ids_ok _ _ _ _ _ _ hw
          by_cases hlt : p < e1
          · obtain ⟨-, -, -, -, -, -, -, a8, -⟩ :=
              compile_variables_ok _ _ _ _ _ _ _ _ _ _ _ _ hrec
            obtain ⟨b1, b2, b3⟩ := a8 p (Or.inl hlt)
            have ht : p - i_edge < rv.tmp_factor_ids.length := by omega
            obtain ⟨f, c1, c2, c3, c4⟩ :=
              w6 (p - i_edge) _ (List.getElem?_eq_getElem ht)
            rw [show i_edge + (p - i_edge) = p by omega] at c2 c3 c4
            exact ⟨_, f, c1, b1.trans c2, b2.trans c3, b3.trans c4⟩
          · exact ih _ _ _ _ _ _ _ _ _ _ hrec p (by omega) hp2

/-! ## When `compile` returns -/

/-- The inner loop of the first pass returns when the edges fit into `vifs`. -/
theorem write_vifs_returns (l : List VariableInFactor) :
    ∀ (k : Nat) (xs : List VariableInFactor), k + l.length ≤ xs.length →
      ∃ r, write_vifs l k xs = Except.ok r := by
  induction l with
  | nil => intro k xs _; exact ⟨_, rfl⟩
  | cons vif rest ih =>
    intro k xs h
    simp only [List.length_cons] at h
    have hset : setAt xs (k : Int) vif = Except.ok (xs.set k vif) :=
      setAt_natCast_eq_ok.mpr ⟨by omega, rfl⟩
    obtain ⟨r, hr⟩ := ih (k + 1) (xs.set k vif) (by simp; omega)
    exact ⟨r, by simp only [write_vifs, bind, Except.bind, hset, hr]⟩

/-- The inner loop of the first pass can only stop on an access outside of
`vifs`. -/
theorem write_vifs_error (l : List VariableInFactor) :
    ∀ (k : Nat) (xs : List VariableInFactor) (e : Fault),
      write_vifs l k xs = Except.error e → e = Fault.out_of_bounds ∧ xs.length < k + l.length := by
  induction l with
  | nil => intro k xs e h; simp [write_vifs] at h
  | cons vif rest ih =>
    intro k xs e h
    simp only [write_vifs, bind, Except.bind] at h
    by_cases hk : k < xs.length
    · have hset : setAt xs (k : Int) vif = Except.ok (xs.set k vif) :=
        setAt_natCast_eq_ok.mpr ⟨hk, rfl⟩
      rw [hset] at h
      obtain ⟨h1, h2⟩ := ih _ _ _ h
      refine ⟨h1, ?_⟩
      simp only [List.length_set, List.length_cons] at h2 ⊢
      omega
    · have hset : setAt xs (k : Int) vif = Except.error Fault.out_of_bounds := by
        simp [setAt, hk]
      rw [hset] at h
      simp only [Except.error.injEq] at h
      refine ⟨h.symm, ?_⟩
      simp only [List.length_cons]
      omega

/-- The first pass returns when the target has room for the factors and for
their edges. -/
theorem compile_factors_returns (l : List RawFactor) :
    ∀ (i i_edge : Nat) (vifs : List VariableInFactor) (cfs : List Factor),
      i + l.length ≤ cfs.length → i_edge + edge_count l ≤ vifs.length →
      ∃ r, compile_factors l i i_edge vifs cfs = Except.ok r := by
  induction l with
  | nil => intro i i_edge vifs cfs _ _; exact ⟨_, rfl⟩
  | cons rf rest ih =>
    intro i i_edge vifs cfs h1 h2
    simp only [List.length_cons] at h1
    rw [edge_count_cons] at h2
    obtain ⟨⟨e1, vifs1⟩, hw⟩ := write_vifs_returns (stamp_factor rf i_edge).tmp_variables
      i_edge vifs (by rw [stamp_factor_length]; omega)
    obtain ⟨w1, w2, -⟩ := write_vifs_ok _ _ _ _ _ hw
    rw [stamp_factor_length] at w1
    have hset : setAt cfs (i : Int) (Factor.ofRaw (stamp_factor rf i_edge)) =
        Except.ok (cfs.set i (Factor.ofRaw (stamp_factor rf i_edge))) :=
      setAt_natCast_eq_ok.mpr ⟨by omega, rfl⟩
    obtain ⟨⟨rest1, e2, vifs2, cfs2⟩, hrec⟩ := ih (i + 1) e1 vifs1
      (cfs.set i (Factor.ofRaw (stamp_factor rf i_edge))) (by simp; omega) (by omega)
    have hres : compile_factors (rf :: rest) i i_edge vifs cfs =
        Except.ok (stamp_factor rf i_edge :: rest1, e2, vifs2, cfs2) := by
      simp only [compile_factors, bind, Except.bind, hw, hset, hrec]
    exact ⟨_, hres⟩

/-- The first pass can only stop on an access outside of the target. -/
theorem compile_factors_error (l : List RawFactor) :
    ∀ (i i_edge : Nat) (vifs : List VariableInFactor) (cfs : List Factor) (e : Fault),
      compile_factors l i i_edge vifs cfs = Except.error e → e = Fault.out_of_bounds := by
  induction l with
  | nil => intro i i_edge vifs cfs e h; simp [compile_factors] at h
  | cons rf rest ih =>
    intro i i_edge vifs cfs e h
    simp only [compile_factors, bind, Except.bind] at h
    split at h
    · rename_i e1 hw
      simp only [Except.error.injEq] at h
      subst h
      exact (write_vifs_error _ _ _ _ hw).1
    · rename_i r1 hw
      obtain ⟨e1, vifs1⟩ := r1
      simp only at h
      split at h
      · rename_i e2 hset
        simp only [Except.error.injEq] at h
        subst h
        unfold setAt at hset
        split at hset
        · cases hset
        · simp only [Except.error.injEq] at hset
          exact hset.symm
      · split at h
        · rename_i e3 hrec
          simp only [Except.error.injEq] at h
          subst h
          exact ih _ _ _ _ _ hrec
        · cases h

/-- The inner loop of the second pass returns when the ids are indices of raw
factors and the entries fit into the three arrays. -/
theorem write_factor_ids_returns (factors : List RawFactor) (l : List Int) :
    ∀ (k : Nat) (arrs : EdgeArrays),
      (∀ fid ∈ l, 0 ≤ fid ∧ fid < factors.length) →
      k + l.length ≤ arrs.factor_ids.length →
      k + l.length ≤ arrs.compact_factors.length →
      k + l.length ≤ arrs.compact_factors_weightids.length →
      ∃ r, write_factor_ids factors l k arrs = Except.ok r := by
  induction l with
  | nil => intro k arrs _ _ _ _; exact ⟨_, rfl⟩
  | cons fid rest ih =>
    intro k arrs hfid h1 h2 h3
    simp only [List.length_cons] at h1 h2 h3
    obtain ⟨hf0, hf1⟩ := hfid fid (List.mem_cons_self _ _)
    have hlt : fid.toNat < factors.length := by omega
    have hget : getAt factors fid = Except.ok factors[fid.toNat] :=
      getAt_eq_ok.mpr ⟨hf0, List.getElem?_eq_getElem hlt⟩
    have hs1 : setAt arrs.factor_ids (k : Int) fid = Except.ok (arrs.factor_ids.set k fid) :=
      setAt_natCast_eq_ok.mpr ⟨by omega, rfl⟩
    have hs2 : ∀ c : CompactFactor, setAt arrs.compact_factors (k : Int) c =
        Except.ok (arrs.compact_factors.set k c) :=
      fun c => setAt_natCast_eq_ok.mpr ⟨by omega, rfl⟩
    have hs3 : ∀ w : Int, setAt arrs.compact_factors_weightids (k : Int) w =
        Except.ok (arrs.compact_factors_weightids.set k w) :=
      fun w => setAt_natCast_eq_ok.mpr ⟨by omega, rfl⟩
    obtain ⟨r, hr⟩ := ih (k + 1)
      { factor_ids := arrs.factor_ids.set k fid
        compact_factors := arrs.compact_factors.set k
          { id := factors[fid.toNat].id, func_id := factors[fid.toNat].func_id,
            n_variables := factors[fid.toNat].n_variables,
            n_start_i_vif := factors[fid.toNat].n_start_i_vif }
        compact_factors_weightids :=
          arrs.compact_factors_weightids.set k (wrap_int factors[fid.toNat].weight_id) }
      (fun f hf => hfid f (List.mem_cons_of_mem _ hf))
      (by simp; omega) (by simp; omega) (by simp; omega)
    exact ⟨r, by simp only [write_factor_ids, bind, Except.bind, hs1, hget, hs2, hs3, hr]⟩

/-- The inner loop of the second pass can only stop on an access outside of an
array. -/
theorem write_factor_ids_error (factors : List RawFactor) (l : List Int) :
    ∀ (k : Nat) (arrs : EdgeArrays) (e : Fault),
      write_factor_ids factors l k arrs = Except.error e → e = Fault.out_of_bounds := by
  have hsetAt : ∀ {α : Type} (xs : List α) (i : Int) (x : α) (e : Fault),
      setAt xs i x = Except.error e → e = Fault.out_of_bounds := by
    intro α xs i x e h
    unfold setAt at h
    split at h
    · cases h
    · simp only [Except.error.injEq] at h
      exact h.symm
  have hgetAt : ∀ {α : Type} (xs : List α) (i : Int) (e : Fault),
      getAt xs i = Except.error e → e = Fault.out_of_bounds := by
    intro α xs i e h
    unfold getAt at h
    split at h
    · split at h
      · cases h
      · simp only [Except.error.injEq] at h
        exact h.symm
    · simp only [Except.error.injEq] at h
      exact h.symm
  induction l with
  | nil => intro k arrs e h; simp [write_factor_ids] at h
  | cons fid rest ih =>
    intro k arrs e h
    simp only [write_factor_ids, bind, Except.bind] at h
    split at h
    · rename_i e1 h1
      simp only [Except.error.injEq] at h
      subst h
      exact hsetAt _ _ _ _ h1
    · split at h
      · rename_i e1 h1
        simp only [Except.error.injEq] at h
        subst h
        exact hgetAt _ _ _ h1
      · split at h
        · rename_i e1 h1
          simp only [Except.error.injEq] at h
          subst h
          exact hsetAt _ _ _ _ h1
        · split at h
          · rename_i e1 h1
            simp only [Except.error.injEq] at h
            subst h
            exact hsetAt _ _ _ _ h1
          · exact ih _ _ _ h

/-- The second pass returns when the incident factor ids are indices of raw
factors and the target has room for the variables and for their entries. -/
theorem compile_variables_returns (factors : List RawFactor) (l : List RawVariable) :
    ∀ (i i_edge : Nat) (nt : Int) (arrs : EdgeArrays) (cvars : List Variable),
      (∀ rv ∈ l, ∀ fid ∈ rv.tmp_factor_ids, 0 ≤ fid ∧ fid < factors.length) →
      i + l.length ≤ cvars.length →
      i_edge + incidence_count l ≤ arrs.factor_ids.length →
      i_edge + incidence_count l ≤ arrs.compact_factors.length →
      i_edge + incidence_count l ≤ arrs.compact_factors_weightids.length →
      ∃ r, compile_variables factors l i i_edge nt arrs cvars = Except.ok r := by
  induction l with
  | nil => intro i i_edge nt arrs cvars _ _ _ _ _; exact ⟨_, rfl⟩
  | cons rv rest ih =>
    intro i i_edge nt arrs cvars hfid h0 h1 h2 h3
    simp only [List.length_cons] at h0
    rw [incidence_count_cons] at h1 h2 h3
    obtain ⟨⟨e1, arrs1⟩, hw⟩ := write_factor_ids_returns factors
      (stamp_variable rv i_edge nt).tmp_factor_ids i_edge arrs
      (by rw [stamp_variable_tmp_factor_ids]; exact hfid rv (List.mem_cons_self _ _))
      (by rw [stamp_variable_tmp_factor_ids]; omega)
      (by rw [stamp_variable_tmp_factor_ids]; omega)
      (by rw [stamp_variable_tmp_factor_ids]; omega)
    obtain ⟨w1, w2, w3, w4, -⟩ := write_factor_ids_ok _ _ _ _ _ _ hw
    rw [stamp_variable_tmp_factor_ids] at w1
    have hset : setAt cvars (i : Int) (Variable.ofRaw (stamp_variable rv i_edge nt)) =
        Except.ok (cvars.set i (Variable.ofRaw (stamp_variable rv i_edge nt))) :=
      setAt_natCast_eq_ok.mpr ⟨by omega, rfl⟩
    obtain ⟨⟨rest1, e2, nt2, arrs2, cvars2⟩, hrec⟩ := ih (i + 1) e1 (next_tally rv nt) arrs1
      (cvars.set i (Variable.ofRaw (stamp_variable rv i_edge nt)))
      (fun r hr => hfid r (List.mem_cons_of_mem _ hr))
      (by simp; omega) (by omega) (by omega) (by omega)
    have hres : compile_variables factors (rv :: rest) i i_edge nt arrs cvars =
        Except.ok (stamp_variable rv i_edge nt :: rest1, e2, nt2, arrs2, cvars2) := by
      simp only [compile_variables, bind, Except.bind, hw, hset, hrec]
    exact ⟨_, hres⟩

/-- The second pass can only stop on an access outside of an array. -/
theorem compile_variables_error (factors : List RawFactor) (l : List RawVariable) :
    ∀ (i i_edge : Nat) (nt : Int) (arrs : EdgeArrays) (cvars : List Variable) (e : Fault),
      compile_variables factors l i i_edge nt arrs cvars = Except.error e →
      e = Fault.out_of_bounds := by
  induction l with
  | nil => intro i i_edge nt arrs cvars e h; simp [compile_variables] at h
  | cons rv rest ih =>
    intro i i_edge nt arrs cvars e h
    simp only [compile_variables, bind, Except.bind] at h
    split at h
    · rename_i e1 hw
      simp only [Except.error.injEq] at h
      subst h
      exact write_factor_ids_error _ _ _ _ _ hw
    · rename_i r1 hw
      obtain ⟨e1, arrs1⟩ := r1
      simp only at h
      split at h
      · rename_i e2 hset
        simp only [Except.error.injEq] at h
        subst h
        unfold setAt at hset
        split at hset
        · cases hset
        · simp only [Except.error.injEq] at hset
          exact hset.symm
      · split at h
        · rename_i e3 hrec
          simp only [Except.error.injEq] at h
          subst h
          exact ih _ _ _ _ _ _ hrec
        · cases h

/-- A run of `compile` can only stop on a failed assertion or on an access
outside of an array. -/
theorem compile_error (fg : FactorGraph) (cfg : CompiledFactorGraph) (e : Fault)
    (h : fg.compile cfg = Except.error e) :
    e = Fault.assertion ∨ e = Fault.out_of_bounds := by
  simp only [FactorGraph.compile, bind, Except.bind] at h
  split at h
  · rename_i e1 h1
    simp only [Except.error.injEq] at h
    subst h
    exact Or.inr (compile_factors_error _ _ _ _ _ _ h1)
  · rename_i r1 h1
    obtain ⟨factors1, e1, vifs1, cfactors1⟩ := r1
    simp only at h
    split at h
    · simp only [Except.error.injEq] at h
      exact Or.inl h.symm
    · split at h
      · rename_i e2 h2
        simp only [Except.error.injEq] at h
        subst h
        exact Or.inr (compile_variables_error _ _ _ _ _ _ _ _ h2)
      · rename_i r2 h2
        obtain ⟨vars1, e2, nt, arrs, cvars1⟩ := r2
        simp only at h
        split at h
        · simp only [Except.error.injEq] at h
          exact Or.inl h.symm
        · cases h

/-- A successful `compile` has gone through exactly `n_edge` edges in each of
its passes. -/
theorem compile_ok_counts {fg fg' : FactorGraph} {cfg cfg' : CompiledFactorGraph}
    (h : fg.compile cfg = Except.ok (fg', cfg')) :
    (edge_count fg.factors : Int) = fg.n_edge ∧
      (incidence_count fg.vars : Int) = fg.n_edge := by
  obtain ⟨factors1, vars1, nt, arrs, h1, h2, hne, -⟩ := compile_ok h
  obtain ⟨a1, -⟩ := compile_factors_ok _ _ _ _ _ _ _ _ _ h1
  obtain ⟨b1, -⟩ := compile_variables_ok _ _ _ _ _ _ _ _ _ _ _ _ h2
  constructor <;> omega

/-- The outcome of `compile` on a target with room for the raw graph, when no
total exceeds `n_edge`: it returns when both totals are `n_edge`, and stops on
an assertion otherwise. -/
theorem compile_outcome (fg : FactorGraph) (cfg : CompiledFactorGraph)
    (hvars : fg.vars.length ≤ cfg.vars.length)
    (hfactors : fg.factors.length ≤ cfg.factors.length)
    (hfid : ∀ rv ∈ fg.vars, ∀ fid ∈ rv.tmp_factor_ids, 0 ≤ fid ∧ fid < fg.factors.length)
    (hA : edge_count fg.factors ≤ cfg.vifs.length)
    (hB1 : incidence_count fg.vars ≤ cfg.factor_ids.length)
    (hB2 : incidence_count fg.vars ≤ cfg.compact_factors.length)
    (hB3 : incidence_count fg.vars ≤ cfg.compact_factors_weightids.length) :
    ((edge_count fg.factors : Int) = fg.n_edge ∧ (incidence_count fg.vars : Int) = fg.n_edge →
      ∃ r, fg.compile cfg = Except.ok r) ∧
    (¬((edge_count fg.factors : Int) = fg.n_edge ∧
        (incidence_count fg.vars : Int) = fg.n_edge) →
      fg.compile cfg = Except.error Fault.assertion) := by
  obtain ⟨⟨factors1, e1, vifs1, cfs1⟩, hr1⟩ := compile_factors_returns fg.factors 0 0
    cfg.vifs cfg.factors (by omega) (by omega)
  obtain ⟨a1, -, -, a4, -⟩ := compile_factors_ok _ _ _ _ _ _ _ _ _ hr1
  obtain ⟨⟨vars1, e2, nt, arrs, cvars1⟩, hr2⟩ := compile_variables_returns factors1 fg.vars
    0 0 0 { factor_ids := cfg.factor_ids, compact_factors := cfg.compact_factors,
            compact_factors_weightids := cfg.compact_factors_weightids } cfg.vars
    (by rw [a4]; exact hfid) (by omega) (by simp only; omega) (by simp only; omega)
    (by simp only; omega)
  obtain ⟨b1, -⟩ := compile_variables_ok _ _ _ _ _ _ _ _ _ _ _ _ hr2
  rw [Nat.zero_add] at a1 b1
  subst a1 b1
  refine ⟨?_, ?_⟩
  · rintro ⟨hA', hB'⟩
    simp only [FactorGraph.compile, bind, Except.bind, hr1, hr2, hA', hB', ne_eq,
      not_true_eq_false, if_false]
    exact ⟨_, rfl⟩
  · intro hne
    simp only [FactorGraph.compile, bind, Except.bind, hr1, hr2, ne_eq]
    by_cases hA' : (edge_count fg.factors : Int) = fg.n_edge
    · have hB' : ¬ (incidence_count fg.vars : Int) = fg.n_edge := fun hB' => hne ⟨hA', hB'⟩
      simp [hA', hB']
    · simp [hA']

/-- The fields `n_variables` of the compiled factors are those of the raw
factors. -/
theorem compile_n_variables {fg fg' : FactorGraph} {cfg cfg' : CompiledFactorGraph}
    (h : fg.compile cfg = Except.ok (fg', cfg')) :
    (cfg'.factors.take fg.factors.length).map (fun f => f.n_variables) =
      fg.factors.map (fun rf => rf.n_variables) := by
  obtain ⟨factors1, vars1, nt, arrs, h1, -⟩ := compile_ok h
  obtain ⟨-, -, a3, -, -, -, -, -, a9⟩ := compile_factors_ok _ _ _ _ _ _ _ _ _ h1
  apply List.ext_getElem?
  intro j
  simp only [List.getElem?_map]
  by_cases hj : j < fg.factors.length
  · obtain ⟨-, b2, -⟩ := a9 j _ (List.getElem?_eq_getElem hj)
    rw [Nat.zero_add] at b2
    rw [List.getElem?_take_of_lt hj, b2, List.getElem?_eq_getElem hj]
    rfl
  · rw [List.getElem?_eq_none (by simp; omega), List.getElem?_eq_none (by omega)]
    rfl

/-- The run of `compile` on the small graph with a miscounted factor. -/
theorem example_miscounted_compile :
    example_miscounted.compile example_target =
      Except.ok (example_miscounted_after, example_miscounted_compiled) := by
  rfl

/-! ## Prefix sums and the ranges of the variables -/

/-- A wrapped value is in the range of a `long`. -/
theorem wrap_long_range (x : Int) :
    -9223372036854775808 ≤ wrap_long x ∧ wrap_long x < 9223372036854775808 := by
  unfold wrap_long
  omega

/-- A value in the range of a `long` is not changed by wrapping. -/
theorem wrap_long_of_range (x : Int) (h0 : -9223372036854775808 ≤ x)
    (h1 : x < 9223372036854775808) : wrap_long x = x := by
  unfold wrap_long
  omega

/-- A value in the range of an `int` is not changed by narrowing. -/
theorem wrap_int_of_range (x : Int) (h0 : -2147483648 ≤ x) (h1 : x < 2147483648) :
    wrap_int x = x := by
  unfold wrap_int
  omega

/-- Wrapping keeps the value modulo 2^64. -/
theorem wrap_long_modEq (x : Int) : wrap_long x ≡ x [ZMOD 18446744073709551616] := by
  unfold wrap_long Int.ModEq
  omega

/-- Values that agree modulo 2^64 wrap to the same `long`. -/
theorem wrap_long_congr {x y : Int} (h : x ≡ y [ZMOD 18446744073709551616]) :
    wrap_long x = wrap_long y := by
  unfold wrap_long
  unfold Int.ModEq at h
  omega

/-- Two wrapped values are equal only if the values agree modulo 2^64. -/
theorem modEq_of_wrap_long_eq {x y : Int} (h : wrap_long x = wrap_long y) :
    x ≡ y [ZMOD 18446744073709551616] := by
  unfold wrap_long at h
  unfold Int.ModEq
  omega

/-- Wrapping twice is wrapping once. -/
theorem wrap_long_idem (x : Int) : wrap_long (wrap_long x) = wrap_long x :=
  wrap_long_congr (wrap_long_modEq x)

/-- One iteration of the offset loop keeps the exact value modulo 2^64. -/
theorem wrap_step_modEq (off d x : Int) :
    wrap_long (wrap_long (off * d) + x) ≡ off * d + x [ZMOD 18446744073709551616] :=
  (wrap_long_modEq _).trans ((wrap_long_modEq _).add_right x)

/-! ## The mixed-radix offset -/

/-- The nested form from `off` is `off` times the product of the cardinalities plus
the mixed-radix number. -/
theorem mixed_radix_nested_eq (digits : List (Int × Int)) :
    ∀ off : Int, mixed_radix_nested digits off =
      off * (digits.map Prod.fst).prod + mixed_radix digits := by
  induction digits with
  | nil => intro off; simp [mixed_radix_nested, mixed_radix]
  | cons di rest ih =>
    intro off
    have h := ih (off * di.1 + di.2)
    simp only [mixed_radix_nested, List.foldl_cons] at h ⊢
    rw [h]
    simp only [mixed_radix, List.map_cons, List.prod_cons]
    ring

/-- The nested form from 0 is the mixed-radix number. -/
theorem mixed_radix_nested_zero (digits : List (Int × Int)) :
    mixed_radix_nested digits 0 = mixed_radix digits := by
  rw [mixed_radix_nested_eq, zero_mul, zero_add]

/-- The nested form keeps congruences of the running offset. -/
theorem mixed_radix_nested_modEq (digits : List (Int × Int)) :
    ∀ (m a b : Int), a ≡ b [ZMOD m] →
      mixed_radix_nested digits a ≡ mixed_radix_nested digits b [ZMOD m] := by
  induction digits with
  | nil => intro m a b h; simpa [mixed_radix_nested] using h
  | cons di rest ih =>
    intro m a b h
    simp only [mixed_radix_nested, List.foldl_cons]
    exact ih m _ _ ((h.mul_right di.1).add_right di.2)

/-- The loop of `get_multinomial_weight_id` over variables with the given digits
returns the nested form of their mixed-radix number, wrapped into a `long`. -/
theorem weight_offset_digits (get_domain_index : Variable → Int → Int)
    (cfg : CompiledFactorGraph) (assignments : List Int) (vid proposal : Int)
    (digits : List (Int × Int)) :
    ∀ (i off : Int), wrap_long off = off →
      (∀ (j : Nat) (d x : Int), digits[j]? = some (d, x) → ∃ vif v val,
        getAt cfg.vifs (i + j) = Except.ok vif ∧ getAt cfg.vars vif.vid = Except.ok v ∧
        value_of assignments vid proposal vif = Except.ok val ∧
        v.cardinality = d ∧ get_domain_index v val = x) →
      weight_offset get_domain_index cfg assignments vid proposal digits.length i off =
        Except.ok (wrap_long (mixed_radix_nested digits off)) := by
  induction digits with
  | nil =>
    intro i off hoff _
    simp [weight_offset, mixed_radix_nested, hoff]
  | cons di rest ih =>
    intro i off hoff h
    obtain ⟨vif, v, val, h1, h2, h3, h4, h5⟩ := h 0 di.1 di.2 (by simp)
    simp only [Nat.cast_zero, add_zero] at h1
    simp only [List.length_cons, weight_offset, bind, Except.bind, h1, h2, h3]
    rw [ih (i + 1) _ (wrap_long_idem _)]
    · simp only [mixed_radix_nested, List.foldl_cons, Except.ok.injEq]
      apply wrap_long_congr
      apply mixed_radix_nested_modEq
      rw [h4, h5]
      exact wrap_step_modEq off di.1 di.2
    · intro j d x hj
      obtain ⟨vif', v', val', g1, g2, g3, g4, g5⟩ := h (j + 1) d x (by simpa using hj)
      refine ⟨vif', v', val', ?_, g2, g3, g4, g5⟩
      rw [← g1]
      congr 1
      push_cast
      ring

/-- For a valid pivot, the value read for an edge with the proposal is the value
read without pivot from the assignment with the pivot entry replaced. -/
theorem value_of_set (assignments : List Int) (vid proposal : Int) (vif : VariableInFactor)
    (hvif : 0 ≤ vif.vid) (h0 : 0 ≤ vid) (h1 : vid < assignments.length) :
    value_of assignments vid proposal vif =
      value_of (assignments.set vid.toNat proposal) (-1) (-1) vif := by
  unfold value_of
  have hne : vif.vid ≠ -1 := by omega
  rw [if_neg hne]
  by_cases hv : vif.vid = vid
  · rw [if_pos hv, hv]
    unfold getAt
    rw [if_pos h0, List.getElem?_set_self (by omega)]
  · rw [if_neg hv]
    simp only [getAt, if_pos hvif]
    rw [List.getElem?_set_ne (by omega)]

/-- The offset with a valid pivot and a proposal is the offset without pivot under
the assignment with the pivot entry replaced. -/
theorem weight_offset_set (get_domain_index : Variable → Int → Int)
    (cfg : CompiledFactorGraph) (assignments : List Int) (vid proposal : Int)
    (h0 : 0 ≤ vid) (h1 : vid < assignments.length) (n : Nat) :
    ∀ (i off : Int),
      weight_offset get_domain_index cfg assignments vid proposal n i off =
        weight_offset get_domain_index cfg (assignments.set vid.toNat proposal) (-1) (-1)
          n i off := by
  induction n with
  | zero => intro i off; simp [weight_offset]
  | succ n ih =>
    intro i off
    simp only [weight_offset, bind, Except.bind]
    cases hvif : getAt cfg.vifs i with
    | error err => rfl
    | ok vif =>
      simp only
      cases hv : getAt cfg.vars vif.vid with
      | error err => rfl
      | ok v =>
        simp only
        rw [← value_of_set assignments vid proposal vif (getAt_eq_ok.mp hv).1 h0 h1]
        cases value_of assignments vid proposal vif with
        | error err => rfl
        | ok val => exact ih _ _

/-- When no edge of the range is the pivot, the offset does not depend on the
proposal. -/
theorem weight_offset_no_pivot (get_domain_index : Variable → Int → Int)
    (cfg : CompiledFactorGraph) (assignments : List Int) (vid p q : Int) (n : Nat) :
    ∀ (i off : Int),
      (∀ (j : Nat) (vif : VariableInFactor), j < n →
        getAt cfg.vifs (i + j) = Except.ok vif → vif.vid ≠ vid) →
      weight_offset get_domain_index cfg assignments vid p n i off =
        weight_offset get_domain_index cfg assignments vid q n i off := by
  induction n with
  | zero => intro i off _; simp [weight_offset]
  | succ n ih =>
    intro i off h
    simp only [weight_offset, bind, Except.bind]
    cases hvif : getAt cfg.vifs i with
    | error err => rfl
    | ok vif =>
      simp only
      have hne : vif.vid ≠ vid := h 0 vif (by omega) (by simpa using hvif)
      cases hv : getAt cfg.vars vif.vid with
      | error err => rfl
      | ok v =>
        simp only [value_of, if_neg hne]
        cases getAt assignments vif.vid with
        | error err => rfl
        | ok val =>
          apply ih
          intro j vif' hj hget
          refine h (j + 1) vif' (by omega) ?_
          rw [← hget]
          congr 1
          push_cast
          ring

/-! ## The digits of a factor and the mixed-radix number -/

/-- The offset loop returns the nested mixed-radix number of the digits it
reads, wrapped into a `long`, and stops where reading the digits stops. -/
theorem weight_offset_eq_factor_digits (get_domain_index : Variable → Int → Int)
    (cfg : CompiledFactorGraph) (a : List Int) (vid p : Int) (n : Nat) :
    ∀ (i off : Int), wrap_long off = off →
      weight_offset get_domain_index cfg a vid p n i off =
        (factor_digits get_domain_index cfg a vid p n i).map
          (fun ds => wrap_long (mixed_radix_nested ds off)) := by
  induction n with
  | zero =>
    intro i off hoff
    simp [weight_offset, factor_digits, Except.map, mixed_radix_nested, hoff]
  | succ n ih =>
    intro i off hoff
    simp only [weight_offset, factor_digits, bind, Except.bind]
    cases getAt cfg.vifs i with
    | error err => rfl
    | ok vif =>
      simp only
      cases getAt cfg.vars vif.vid with
      | error err => rfl
      | ok v =>
        simp only
        cases value_of a vid p vif with
        | error err => rfl
        | ok val =>
          simp only
          rw [ih _ _ (wrap_long_idem _)]
          cases factor_digits get_domain_index cfg a vid p n (i + 1) with
          | error err => rfl
          | ok rest =>
            simp only [Except.map, mixed_radix_nested, List.foldl_cons, Except.ok.injEq]
            apply wrap_long_congr
            apply mixed_radix_nested_modEq
            exact wrap_step_modEq off v.cardinality (get_domain_index v val)

/-- The offset loop on digits that were read. -/
theorem weight_offset_of_factor_digits (get_domain_index : Variable → Int → Int)
    (cfg : CompiledFactorGraph) (a : List Int) (vid p : Int) (n : Nat) (i : Int)
    (ds : List (Int × Int))
    (h : factor_digits get_domain_index cfg a vid p n i = Except.ok ds) :
    weight_offset get_domain_index cfg a vid p n i 0 =
      Except.ok (wrap_long (mixed_radix ds)) := by
  rw [weight_offset_eq_factor_digits _ _ _ _ _ _ _ 0 (by unfold wrap_long; omega), h,
    ← mixed_radix_nested_zero ds]
  rfl

/-- The mixed-radix number of digits in range is in `[0, product of the
cardinalities)`. -/
theorem mixed_radix_bounds (ds : List (Int × Int))
    (h : ∀ di ∈ ds, 0 ≤ di.2 ∧ di.2 < di.1) :
    0 ≤ mixed_radix ds ∧ mixed_radix ds < (ds.map Prod.fst).prod := by
  induction ds with
  | nil => simp [mixed_radix]
  | cons di rest ih =>
    obtain ⟨h0, h1⟩ := h di (List.mem_cons_self _ _)
    obtain ⟨ih0, ih1⟩ := ih (fun d hd => h d (List.mem_cons_of_mem _ hd))
    simp only [mixed_radix, List.map_cons, List.prod_cons]
    have hP : 0 < (rest.map Prod.fst).prod := lt_of_le_of_lt ih0 ih1
    constructor
    · positivity
    · nlinarith

/-- Reading an array after a write inside it. -/
theorem getAt_set {α : Type} (xs : List α) (wid w : Int) (x y : α)
    (hx : getAt xs wid = Except.ok x) :
    getAt (xs.set wid.toNat y) w =
      (getAt xs w).map (fun old => if w = wid then y else old) := by
  obtain ⟨h0, h1⟩ := getAt_eq_ok.mp hx
  have hlt : wid.toNat < xs.length := (List.getElem?_eq_some.mp h1).1
  by_cases hw : 0 ≤ w
  · by_cases he : w = wid
    · subst he
      simp only [getAt, if_pos hw, List.getElem?_set_self hlt, h1]
      simp [Except.map]
    · simp only [getAt, if_pos hw]
      rw [List.getElem?_set_ne (by omega)]
      cases xs[w.toNat]? <;> simp [Except.map, he]
  · simp [getAt, hw, Except.map]

/-- The weight values after `weight_values[wid] += d`. -/
theorem getAt_add_weight (wv wv' : List ℚ) (wid : Int) (d : ℚ)
    (h : add_weight wv wid d = Except.ok wv') (w : Int) :
    getAt wv' w = (getAt wv w).map (fun old => if w = wid then old + d else old) := by
  simp only [add_weight, bind, Except.bind] at h
  split at h
  · cases h
  · rename_i old hold
    obtain ⟨h0, h1⟩ := getAt_eq_ok.mp hold
    have hlt : wid.toNat < wv.length := (List.getElem?_eq_some.mp h1).1
    simp only [setAt, h0, hlt, and_self, if_true, Except.ok.injEq] at h
    subst h
    rw [getAt_set wv wid w old _ hold]
    by_cases he : w = wid
    · subst he
      rw [hold]
      simp [Except.map]
    · cases getAt wv w <;> simp [Except.map, he]

/-- The statement `weight_values[wid] += d` succeeds for a valid weight id. -/
theorem add_weight_ok (wv : List ℚ) (wid : Int) (d old : ℚ)
    (h : getAt wv wid = Except.ok old) :
    ∃ wv', add_weight wv wid d = Except.ok wv' := by
  obtain ⟨h0, h1⟩ := getAt_eq_ok.mp h
  have hlt : wid.toNat < wv.length := (List.getElem?_eq_some.mp h1).1
  simp [add_weight, bind, Except.bind, h, setAt, h0, hlt]

/-- A successful `update_weight` is a successful loop, and only the weight values
of the graph change. -/
theorem update_weight_eq (get_domain_index : Variable → Int → Int)
    (potential : Bool → CompactFactor → ℚ) (cfg cfg' : CompiledFactorGraph) (v : Variable)
    (h : cfg.update_weight get_domain_index potential v = Except.ok cfg') :
    update_weight_loop get_domain_index potential cfg v v.n_factors.toNat 0
        cfg.infrs.weight_values = Except.ok cfg'.infrs.weight_values ∧
      cfg' = { cfg with infrs := { cfg.infrs with
        weight_values := cfg'.infrs.weight_values } } := by
  simp only [CompiledFactorGraph.update_weight, bind, Except.bind] at h
  split at h
  · cases h
  · rename_i wv hwv
    simp only [Except.ok.injEq] at h
    subst h
    exact ⟨hwv, rfl⟩

/-- A successful loop gives a successful `update_weight`. -/
theorem update_weight_of_loop (get_domain_index : Variable → Int → Int)
    (potential : Bool → CompactFactor → ℚ) (cfg : CompiledFactorGraph) (v : Variable)
    (wv : List ℚ)
    (h : update_weight_loop get_domain_index potential cfg v v.n_factors.toNat 0
      cfg.infrs.weight_values = Except.ok wv) :
    cfg.update_weight get_domain_index potential v =
      Except.ok { cfg with infrs := { cfg.infrs with weight_values := wv } } := by
  simp [CompiledFactorGraph.update_weight, bind, Except.bind, h]

/-! ### Boolean variables -/

/-- One iteration for a boolean variable adds `stepsize` times the term of the
entry to each weight. -/
theorem boolean_step (get_domain_index : Variable → Int → Int)
    (potential : Bool → CompactFactor → ℚ) (cfg : CompiledFactorGraph) (v : Variable)
    (hb : v.domain_type = DomainType.DTYPE_BOOLEAN) (i : Nat) (wv wv' : List ℚ)
    (h : update_weight_step get_domain_index potential cfg v i wv = Except.ok wv')
    (w : Int) :
    getAt wv' w = (getAt wv w).map
      (fun old => old + cfg.stepsize * boolean_term potential cfg v w i) := by
  simp only [update_weight_step, hb, bind, Except.bind] at h
  split at h
  · cases h
  · rename_i wid hwid
    split at h
    · cases h
    · rename_i isfixed hfixed
      cases isfixed with
      | true =>
        simp only [Bool.true_eq_false, if_false, Except.ok.injEq] at h
        subst h
        have hterm : boolean_term potential cfg v w i = 0 := by
          unfold boolean_term
          rw [hwid]
          split
          · rename_i wid' fs heq _ hf
            simp only [Except.ok.injEq] at heq
            subst heq
            by_cases he : wid = w
            · subst he
              rw [hfixed] at hf
              cases hf
            · rw [if_neg he]
          · rfl
        rw [hterm]
        cases getAt wv w <;> simp [Except.map]
      | false =>
        simp only [if_true] at h
        split at h
        · cases h
        · rename_i fs hfs
          rw [getAt_add_weight wv wv' wid _ h w]
          have hterm : boolean_term potential cfg v w i =
              if w = wid then potential false fs - potential true fs else 0 := by
            unfold boolean_term
            rw [hwid, hfs]
            by_cases he : w = wid
            · subst he
              rw [hfixed]
            · rw [if_neg he]
              split
              · rename_i wid' fs' _ heq1 _ _
                simp only [Except.ok.injEq] at heq1
                subst heq1
                rw [if_neg (fun hh => he hh.symm)]
              · rfl
          rw [hterm]
          cases getAt wv w with
          | error err => rfl
          | ok old =>
            by_cases he : w = wid
            · simp [Except.map, he]
            · simp [Except.map, he]

/-- The loop for a boolean variable adds `stepsize` times the sum of the terms of
its entries to each weight. -/
theorem boolean_loop (get_domain_index : Variable → Int → Int)
    (potential : Bool → CompactFactor → ℚ) (cfg : CompiledFactorGraph) (v : Variable)
    (hb : v.domain_type = DomainType.DTYPE_BOOLEAN) (n : Nat) :
    ∀ (i : Nat) (wv wv' : List ℚ),
      update_weight_loop get_domain_index potential cfg v n i wv = Except.ok wv' →
      ∀ w : Int, getAt wv' w = (getAt wv w).map (fun old => old + cfg.stepsize *
        ((List.range n).map (fun k => boolean_term potential cfg v w (i + k))).sum) := by
  induction n with
  | zero =>
    intro i wv wv' h w
    simp only [update_weight_loop, Except.ok.injEq] at h
    subst h
    cases getAt wv w <;> simp [Except.map]
  | succ n ih =>
    intro i wv wv' h w
    simp only [update_weight_loop, bind, Except.bind] at h
    split at h
    · cases h
    · rename_i wv1 hstep
      rw [ih (i + 1) wv1 wv' h w,
        boolean_step get_domain_index potential cfg v hb i wv wv1 hstep w]
      cases getAt wv w with
      | error err => rfl
      | ok old =>
        simp only [Except.map, Except.ok.injEq]
        rw [List.range_succ_eq_map, List.map_cons, List.sum_cons, List.map_map]
        have hfun : ((fun k => boolean_term potential cfg v w (i + k)) ∘ Nat.succ) =
            fun k => boolean_term potential cfg v w (i + 1 + k) := by
          funext k
          simp only [Function.comp, Nat.succ_eq_add_one]
          rw [show i + (k + 1) = i + 1 + k by omega]
        rw [hfun, mul_add, add_assoc]
        rfl

/-- The loop for a boolean variable returns when its entries, their weight ids and
their factors are inside the arrays. -/
theorem boolean_loop_ok (get_domain_index : Variable → Int → Int)
    (potential : Bool → CompactFactor → ℚ) (cfg : CompiledFactorGraph) (v : Variable)
    (hb : v.domain_type = DomainType.DTYPE_BOOLEAN) (n : Nat) :
    ∀ (i : Nat) (wv : List ℚ),
      (∀ k, k < n → ∃ wid isfixed fs old,
        getAt cfg.compact_factors_weightids (v.n_start_i_factors + (i + k : Nat)) =
          Except.ok wid ∧
        getAt cfg.infrs.weights_isfixed wid = Except.ok isfixed ∧
        getAt cfg.compact_factors (v.n_start_i_factors + (i + k : Nat)) = Except.ok fs ∧
        getAt wv wid = Except.ok old) →
      ∃ wv', update_weight_loop get_domain_index potential cfg v n i wv = Except.ok wv' := by
  induction n with
  | zero => intro i wv _; exact ⟨wv, rfl⟩
  | succ n ih =>
    intro i wv h
    obtain ⟨wid, isfixed, fs, old, h1, h2, h3, h4⟩ := h 0 (by omega)
    rw [Nat.add_zero] at h1 h3
    have hstep : ∃ wv1, update_weight_step get_domain_index potential cfg v i wv =
        Except.ok wv1 := by
      simp only [update_weight_step, hb, bind, Except.bind, h1, h2]
      cases isfixed with
      | true => exact ⟨wv, by simp⟩
      | false =>
        simp only [if_true, h3]
        exact add_weight_ok wv wid _ old h4
    obtain ⟨wv1, hwv1⟩ := hstep
    have hrec := ih (i + 1) wv1 (by
      intro k hk
      obtain ⟨wid', isfixed', fs', old', g1, g2, g3, g4⟩ := h (k + 1) (by omega)
      rw [show i + (k + 1) = i + 1 + k by omega] at g1 g3
      have hmap := boolean_step get_domain_index potential cfg v hb i wv wv1 hwv1 wid'
      rw [g4] at hmap
      exact ⟨wid', isfixed', fs', _, g1, g2, g3, hmap⟩)
    obtain ⟨wv', hwv'⟩ := hrec
    exact ⟨wv', by simp only [update_weight_loop, bind, Except.bind, hwv1, hwv']⟩

/-- The statement `weight_values[wid] += d` leaves the other weights. -/
theorem getAt_add_weight_ne (wv wv' : List ℚ) (wid : Int) (d : ℚ)
    (h : add_weight wv wid d = Except.ok wv') (w : Int) (hw : w ≠ wid) :
    getAt wv' w = getAt wv w := by
  rw [getAt_add_weight wv wv' wid d h w]
  cases getAt wv w <;> simp [Except.map, hw]

/-- The statement `weight_values[wid] += d` adds `d` at `wid`. -/
theorem getAt_add_weight_self (wv wv' : List ℚ) (wid : Int) (d old : ℚ)
    (h : add_weight wv wid d = Except.ok wv') (hold : getAt wv wid = Except.ok old) :
    getAt wv' wid = Except.ok (old + d) := by
  rw [getAt_add_weight wv wv' wid d h wid, hold]
  simp [Except.map]

/-- A guarded update never changes a fixed weight. -/
theorem add_unless_fixed_unchanged (weights_isfixed : List Bool) (wv wv' : List ℚ)
    (wid : Int) (d : ℚ)
    (h : add_unless_fixed weights_isfixed wv wid d = Except.ok wv')
    (w : Int) (hw : getAt weights_isfixed w = Except.ok true) :
    getAt wv' w = getAt wv w := by
  simp only [add_unless_fixed, bind, Except.bind] at h
  split at h
  · cases h
  · rename_i isfixed hf
    cases isfixed with
    | true =>
      simp only [Bool.true_eq_false, if_false, Except.ok.injEq] at h
      rw [h]
    | false =>
      simp only [if_true] at h
      apply getAt_add_weight_ne wv wv' wid d h w
      intro he
      rw [he, hf] at hw
      cases hw

/-! ### Multinomial variables -/

/-- One iteration for a multinomial variable whose two weights are not fixed is the
sequence of the two updates. -/
theorem multinomial_step (get_domain_index : Variable → Int → Int)
    (potential : Bool → CompactFactor → ℚ) (cfg : CompiledFactorGraph) (v : Variable)
    (hm : v.domain_type = DomainType.DTYPE_MULTINOMIAL) (i : Nat) (wv : List ℚ)
    (wid1 wid2 : Int) (fs : CompactFactor)
    (h1 : cfg.get_multinomial_weight_id get_domain_index cfg.infrs.assignments_evid
      (v.n_start_i_factors + i) (-1) (-1) = Except.ok wid1)
    (h2 : cfg.get_multinomial_weight_id get_domain_index cfg.infrs.assignments_free
      (v.n_start_i_factors + i) (-1) (-1) = Except.ok wid2)
    (hfs : getAt cfg.compact_factors (v.n_start_i_factors + i) = Except.ok fs)
    (hf1 : getAt cfg.infrs.weights_isfixed wid1 = Except.ok false)
    (hf2 : getAt cfg.infrs.weights_isfixed wid2 = Except.ok false) :
    update_weight_step get_domain_index potential cfg v i wv =
      (add_weight wv wid1 (cfg.stepsize *
        (potential false fs - (if wid1 = wid2 then 1 else 0) * potential true fs))).bind
      (fun wv1 => add_weight wv1 wid2 (cfg.stepsize *
        ((if wid1 = wid2 then 1 else 0) * potential false fs - potential true fs))) := by
  simp only [update_weight_step, hm, bind, Except.bind, h1, h2, hfs, add_unless_fixed, hf1,
    hf2, if_true]

/-- One iteration never changes a fixed weight. -/
theorem step_fixed_unchanged (get_domain_index : Variable → Int → Int)
    (potential : Bool → CompactFactor → ℚ) (cfg : CompiledFactorGraph) (v : Variable)
    (i : Nat) (wv wv' : List ℚ)
    (h : update_weight_step get_domain_index potential cfg v i wv = Except.ok wv')
    (w : Int) (hw : getAt cfg.infrs.weights_isfixed w = Except.ok true) :
    getAt wv' w = getAt wv w := by
  cases hd : v.domain_type with
  | DTYPE_BOOLEAN =>
    rw [boolean_step get_domain_index potential cfg v hd i wv wv' h w]
    have hterm : boolean_term potential cfg v w i = 0 := by
      unfold boolean_term
      rw [hw]
      split
      · rename_i heq
        cases heq
      · rfl
    rw [hterm]
    cases getAt wv w <;> simp [Except.map]
  | DTYPE_MULTINOMIAL =>
    simp only [update_weight_step, hd, bind, Except.bind] at h
    split at h
    · cases h
    · split at h
      · cases h
      · split at h
        · cases h
        · split at h
          · cases h
          · rename_i wv1 hwv1
            rw [add_unless_fixed_unchanged _ _ _ _ _ h w hw,
              add_unless_fixed_unchanged _ _ _ _ _ hwv1 w hw]
  | DTYPE_OTHER code =>
    simp only [update_weight_step, hd] at h
    cases h

/-- The loop never changes a fixed weight. -/
theorem loop_fixed_unchanged (get_domain_index : Variable → Int → Int)
    (potential : Bool → CompactFactor → ℚ) (cfg : CompiledFactorGraph) (v : Variable)
    (w : Int) (hw : getAt cfg.infrs.weights_isfixed w = Except.ok true) (n : Nat) :
    ∀ (i : Nat) (wv wv' : List ℚ),
      update_weight_loop get_domain_index potential cfg v n i wv = Except.ok wv' →
      getAt wv' w = getAt wv w := by
  induction n with
  | zero =>
    intro i wv wv' h
    simp only [update_weight_loop, Except.ok.injEq] at h
    rw [h]
  | succ n ih =>
    intro i wv wv' h
    simp only [update_weight_loop, bind, Except.bind] at h
    split at h
    · cases h
    · rename_i wv1 hstep
      rw [ih (i + 1) wv1 wv' h,
        step_fixed_unchanged get_domain_index potential cfg v i wv wv1 hstep w hw]

/-! ### Unrecognized domain types -/

/-- An iteration for a variable of unrecognized domain type is `abort()`. -/
theorem other_step_abort (get_domain_index : Variable → Int → Int)
    (potential : Bool → CompactFactor → ℚ) (cfg : CompiledFactorGraph) (v : Variable)
    (code : Int) (ho : v.domain_type = DomainType.DTYPE_OTHER code) (i : Nat)
    (wv : List ℚ) :
    update_weight_step get_domain_index potential cfg v i wv = Except.error Fault.abort := by
  simp only [update_weight_step, ho]

/-- For a variable with an unrecognized domain type and at least one incident
factor, `update_weight` ends in `abort()`. -/
theorem update_weight_other_abort (get_domain_index : Variable → Int → Int)
    (potential : Bool → CompactFactor → ℚ) (cfg : CompiledFactorGraph) (v : Variable)
    (code : Int) (ho : v.domain_type = DomainType.DTYPE_OTHER code)
    (hn : 0 < v.n_factors) :
    cfg.update_weight get_domain_index potential v = Except.error Fault.abort := by
  obtain ⟨n, hn'⟩ : ∃ n, v.n_factors.toNat = n + 1 := ⟨v.n_factors.toNat - 1, by omega⟩
  simp only [CompiledFactorGraph.update_weight, hn', update_weight_loop, bind, Except.bind,
    other_step_abort get_domain_index potential cfg v code ho]

/-- For a variable without incident factors, `update_weight` returns with the
graph unchanged, whatever the domain type. -/
theorem update_weight_no_factor (get_domain_index : Variable → Int → Int)
    (potential : Bool → CompactFactor → ℚ) (cfg : CompiledFactorGraph) (v : Variable)
    (hn : v.n_factors ≤ 0) :
    cfg.update_weight get_domain_index potential v = Except.ok cfg := by
  have hn' : v.n_factors.toNat = 0 := by omega
  simp only [CompiledFactorGraph.update_weight, hn', update_weight_loop, bind, Except.bind]

/-! ### A multinomial variable with a single incident factor -/

/-- For a multinomial variable with one incident factor whose two weights are valid
and not fixed, `update_weight` returns the graph after the two updates. -/
theorem multinomial_single (get_domain_index : Variable → Int → Int)
    (potential : Bool → CompactFactor → ℚ) (cfg : CompiledFactorGraph) (v : Variable)
    (wid1 wid2 : Int) (fs : CompactFactor) (old1 old2 : ℚ)
    (hm : v.domain_type = DomainType.DTYPE_MULTINOMIAL) (hn : v.n_factors = 1)
    (h1 : cfg.get_multinomial_weight_id get_domain_index cfg.infrs.assignments_evid
      v.n_start_i_factors (-1) (-1) = Except.ok wid1)
    (h2 : cfg.get_multinomial_weight_id get_domain_index cfg.infrs.assignments_free
      v.n_start_i_factors (-1) (-1) = Except.ok wid2)
    (hfs : getAt cfg.compact_factors v.n_start_i_factors = Except.ok fs)
    (hf1 : getAt cfg.infrs.weights_isfixed wid1 = Except.ok false)
    (hf2 : getAt cfg.infrs.weights_isfixed wid2 = Except.ok false)
    (ho1 : getAt cfg.infrs.weight_values wid1 = Except.ok old1)
    (ho2 : getAt cfg.infrs.weight_values wid2 = Except.ok old2) :
    ∃ wv1 wv2,
      add_weight cfg.infrs.weight_values wid1 (cfg.stepsize *
        (potential false fs - (if wid1 = wid2 then 1 else 0) * potential true fs)) =
        Except.ok wv1 ∧
      add_weight wv1 wid2 (cfg.stepsize *
        ((if wid1 = wid2 then 1 else 0) * potential false fs - potential true fs)) =
        Except.ok wv2 ∧
      cfg.update_weight get_domain_index potential v =
        Except.ok { cfg with infrs := { cfg.infrs with weight_values := wv2 } } := by
  have hz : v.n_start_i_factors + ((0 : Nat) : Int) = v.n_start_i_factors := by simp
  obtain ⟨wv1, hwv1⟩ := add_weight_ok cfg.infrs.weight_values wid1 (cfg.stepsize *
    (potential false fs - (if wid1 = wid2 then 1 else 0) * potential true fs)) old1 ho1
  have ho2' : ∃ old, getAt wv1 wid2 = Except.ok old := by
    rw [getAt_add_weight _ _ _ _ hwv1 wid2, ho2]
    exact ⟨_, rfl⟩
  obtain ⟨old2', ho2'⟩ := ho2'
  obtain ⟨wv2, hwv2⟩ := add_weight_ok wv1 wid2 (cfg.stepsize *
    ((if wid1 = wid2 then 1 else 0) * potential false fs - potential true fs)) old2' ho2'
  refine ⟨wv1, wv2, hwv1, hwv2, ?_⟩
  apply update_weight_of_loop
  have hstep := multinomial_step get_domain_index potential cfg v hm 0
    cfg.infrs.weight_values wid1 wid2 fs (by rw [hz]; exact h1) (by rw [hz]; exact h2)
    (by rw [hz]; exact hfs) hf1 hf2
  have hn1 : v.n_factors.toNat = 1 := by omega
  rw [hn1]
  simp only [update_weight_loop, bind, Except.bind, hstep, hwv1, hwv2]

/-- For a multinomial variable with one incident factor whose two weight ids
coincide, `update_weight` adds the common term twice. -/
theorem multinomial_single_equal (get_domain_index : Variable → Int → Int)
    (potential : Bool → CompactFactor → ℚ) (cfg : CompiledFactorGraph) (v : Variable)
    (wid : Int) (fs : CompactFactor) (old : ℚ)
    (hm : v.domain_type = DomainType.DTYPE_MULTINOMIAL) (hn : v.n_factors = 1)
    (h1 : cfg.get_multinomial_weight_id get_domain_index cfg.infrs.assignments_evid
      v.n_start_i_factors (-1) (-1) = Except.ok wid)
    (h2 : cfg.get_multinomial_weight_id get_domain_index cfg.infrs.assignments_free
      v.n_start_i_factors (-1) (-1) = Except.ok wid)
    (hfs : getAt cfg.compact_factors v.n_start_i_factors = Except.ok fs)
    (hf : getAt cfg.infrs.weights_isfixed wid = Except.ok false)
    (ho : getAt cfg.infrs.weight_values wid = Except.ok old) :
    ∃ cfg', cfg.update_weight get_domain_index potential v = Except.ok cfg' ∧
      getAt cfg'.infrs.weight_values wid =
        Except.ok (old + 2 * (cfg.stepsize * (potential false fs - potential true fs))) ∧
      ∀ w : Int, w ≠ wid →
        getAt cfg'.infrs.weight_values w = getAt cfg.infrs.weight_values w := by
  obtain ⟨wv1, wv2, hwv1, hwv2, hup⟩ := multinomial_single get_domain_index potential cfg v
    wid wid fs old old hm hn h1 h2 hfs hf hf ho ho
  simp only [if_true, one_mul] at hwv1 hwv2
  refine ⟨_, hup, ?_, ?_⟩
  · simp only
    rw [getAt_add_weight_self _ _ _ _ _ hwv2 (getAt_add_weight_self _ _ _ _ _ hwv1 ho)]
    congr 1
    ring
  · intro w hw
    simp only
    rw [getAt_add_weight_ne _ _ _ _ hwv2 _ hw, getAt_add_weight_ne _ _ _ _ hwv1 _ hw]

/-! ## The flags are not read by `update_weight` -/

/-- The offset loop reads only `vifs` and `variables`. -/
theorem weight_offset_congr (get_domain_index : Variable → Int → Int)
    (cfg1 cfg2 : CompiledFactorGraph) (hvifs : cfg1.vifs = cfg2.vifs)
    (hvars : cfg1.vars = cfg2.vars) (a : List Int) (vid p : Int) (n : Nat) :
    ∀ (i off : Int), weight_offset get_domain_index cfg1 a vid p n i off =
      weight_offset get_domain_index cfg2 a vid p n i off := by
  induction n with
  | zero => intro i off; rfl
  | succ n ih =>
    intro i off
    simp only [weight_offset, hvifs, hvars, ih]

/-- The resolver reads only the arrays of the graph. -/
theorem get_multinomial_weight_id_congr (get_domain_index : Variable → Int → Int)
    (cfg1 cfg2 : CompiledFactorGraph) (hvifs : cfg1.vifs = cfg2.vifs)
    (hvars : cfg1.vars = cfg2.vars) (hfactors : cfg1.factors = cfg2.factors)
    (hcfs : cfg1.compact_factors = cfg2.compact_factors)
    (hwids : cfg1.compact_factors_weightids = cfg2.compact_factors_weightids)
    (a : List Int) (e vid p : Int) :
    cfg1.get_multinomial_weight_id get_domain_index a e vid p =
      cfg2.get_multinomial_weight_id get_domain_index a e vid p := by
  simp only [CompiledFactorGraph.get_multinomial_weight_id, hfactors, hcfs, hwids,
    weight_offset_congr get_domain_index cfg1 cfg2 hvifs hvars]

/-- The loop of `update_weight` reads the arrays, the step size and the store of
the graph, and nothing else. -/
theorem update_weight_loop_congr (get_domain_index : Variable → Int → Int)
    (potential : Bool → CompactFactor → ℚ) (cfg1 cfg2 : CompiledFactorGraph)
    (hvifs : cfg1.vifs = cfg2.vifs) (hvars : cfg1.vars = cfg2.vars)
    (hfactors : cfg1.factors = cfg2.factors)
    (hcfs : cfg1.compact_factors = cfg2.compact_factors)
    (hwids : cfg1.compact_factors_weightids = cfg2.compact_factors_weightids)
    (hinfrs : cfg1.infrs = cfg2.infrs) (hstep : cfg1.stepsize = cfg2.stepsize)
    (v : Variable) (n : Nat) :
    ∀ (i : Nat) (wv : List ℚ),
      update_weight_loop get_domain_index potential cfg1 v n i wv =
        update_weight_loop get_domain_index potential cfg2 v n i wv := by
  induction n with
  | zero => intro i wv; rfl
  | succ n ih =>
    intro i wv
    have hs : update_weight_step get_domain_index potential cfg1 v i wv =
        update_weight_step get_domain_index potential cfg2 v i wv := by
      simp only [update_weight_step, hcfs, hwids, hinfrs, hstep,
        get_multinomial_weight_id_congr get_domain_index cfg1 cfg2 hvifs hvars hfactors
          hcfs hwids]
    simp only [update_weight_loop, hs, ih]

/-- The run of `update_weight` on the small graph for the boolean variable
record, with the potentials 1 and 0. -/
theorem example_boolean_update :
    example_compiled.update_weight (fun _ x => x) example_potential
      example_boolean_variable = Except.ok example_boolean_after := by
  with_unfolding_all rfl

/-- The loop of `safety_check` over an array returns when every id is its index,
and stops on the assertion otherwise. -/
theorem check_ids_eq (l : List Int) :
    ∀ k : Nat,
      ((∀ (j : Nat) (x : Int), l[j]? = some x → x = ((k + j : Nat) : Int)) →
        check_ids l k = Except.ok ()) ∧
      (¬(∀ (j : Nat) (x : Int), l[j]? = some x → x = ((k + j : Nat) : Int)) →
        check_ids l k = Except.error Fault.assertion) := by
  induction l with
  | nil =>
    intro k
    refine ⟨fun _ => rfl, fun h => absurd ?_ h⟩
    intro j x hj
    simp at hj
  | cons id rest ih =>
    intro k
    have hshift : (∀ (j : Nat) (x : Int), rest[j]? = some x → x = ((k + 1 + j : Nat) : Int)) ↔
        (∀ (j : Nat) (x : Int), (id :: rest)[j + 1]? = some x →
          x = ((k + (j + 1) : Nat) : Int)) := by
      constructor
      · intro h j x hj
        rw [h j x (by simpa using hj)]
        congr 1
        omega
      · intro h j x hj
        rw [h j x (by simpa using hj)]
        congr 1
        omega
    by_cases hid : id = (k : Int)
    · have hc : check_ids (id :: rest) k = check_ids rest (k + 1) := by
        simp only [check_ids, hid, if_true]
      rw [hc]
      refine ⟨fun h => (ih (k + 1)).1 (hshift.mpr (fun j x hj => h (j + 1) x hj)),
        fun h => (ih (k + 1)).2 (fun hrest => h ?_)⟩
      intro j x hj
      cases j with
      | zero =>
        simp only [List.getElem?_cons_zero, Option.some.injEq] at hj
        rw [← hj, hid]
        rfl
      | succ j => exact hshift.mp hrest j x hj
    · have hc : check_ids (id :: rest) k = Except.error Fault.assertion := by
        simp only [check_ids, hid, if_false]
      rw [hc]
      exact ⟨fun h => absurd (h 0 id (by simp)) (by simpa using hid), fun _ => rfl⟩

/-- The ids of a mapped array, position by position. -/
theorem ids_match_map {α : Type} (l : List α) (f : α → Int) :
    (∀ (j : Nat) (x : Int), (l.map f)[j]? = some x → x = ((0 + j : Nat) : Int)) ↔
      (∀ (i : Nat) (a : α), l[i]? = some a → f a = i) := by
  constructor
  · intro h i a ha
    have := h i (f a) (by simp [ha])
    rw [this, Nat.zero_add]
  · intro h j x hj
    simp only [List.getElem?_map, Option.map_eq_some'] at hj
    obtain ⟨a, ha, rfl⟩ := hj
    rw [h j a ha, Nat.zero_add]

/-- A `memcpy` of a whole array from an array of the same length gives the
source array. -/
theorem memcpy_same_length {α : Type} (dst src : List α) (n : Nat)
    (hd : dst.length = n) (hs : src.length = n) :
    memcpy dst src n = Except.ok src := by
  unfold memcpy
  rw [if_pos ⟨by omega, by omega⟩]
  rw [List.take_of_length_le (by omega), List.drop_of_length_le (by omega), List.append_nil]

/-- The copy of tallies returns the tally array of a store that has `ntallies`
of them. -/
theorem copy_tallies_same (ntallies : Int) (tallies : List Int)
    (h : (tallies.length : Int) = ntallies) :
    copy_tallies ntallies tallies = Except.ok tallies := by
  unfold copy_tallies
  rw [if_neg (by omega), if_pos (by omega), List.take_of_length_le (by omega)]

/-- The result of `copy_from` between graphs of the same sizes. -/
theorem copy_from_same_sizes (target source : CompiledFactorGraph) (n_edge : Nat)
    (hvars : target.vars.length = source.vars.length)
    (hfactors : target.factors.length = source.factors.length)
    (ht1 : target.vifs.length = n_edge) (ht2 : target.compact_factors.length = n_edge)
    (ht3 : target.compact_factors_weightids.length = n_edge)
    (ht4 : target.factor_ids.length = n_edge)
    (hs1 : source.vifs.length = n_edge) (hs2 : source.compact_factors.length = n_edge)
    (hs3 : source.compact_factors_weightids.length = n_edge)
    (hs4 : source.factor_ids.length = n_edge)
    (htally : (source.infrs.multinomial_tallies.length : Int) = source.infrs.ntallies) :
    target.copy_from source = Except.ok
      ({ source with
          stepsize := target.stepsize
          infrs := { target.infrs.copy_from source.infrs with
            ntallies := source.infrs.ntallies
            multinomial_tallies := source.infrs.multinomial_tallies } },
       source) := by
  have h1 := memcpy_same_length target.vars source.vars target.vars.length rfl hvars.symm
  have h2 := memcpy_same_length target.factors source.factors target.factors.length rfl
    hfactors.symm
  have h3 := memcpy_same_length target.compact_factors source.compact_factors
    target.vifs.length (by omega) (by omega)
  have h4 := memcpy_same_length target.compact_factors_weightids
    source.compact_factors_weightids target.vifs.length (by omega) (by omega)
  have h5 := memcpy_same_length target.factor_ids source.factor_ids target.vifs.length
    (by omega) (by omega)
  have h6 := memcpy_same_length target.vifs source.vifs target.vifs.length rfl (by omega)
  have h7 := copy_tallies_same source.infrs.ntallies source.infrs.multinomial_tallies htally
  simp only [CompiledFactorGraph.copy_from, bind, Except.bind, h1, h2, h3, h4, h5, h6, h7]

/-! ## Claims on `compile` -/

/-- The run of `compile` on the small graph. -/
theorem example_compile :
    example_raw.compile example_target = Except.ok (example_raw_after, example_compiled) := by
  rfl

/-- C1: after a successful `compile` of a raw graph in which every factor's
`n_variables` is the number of its loaded edges, the slice
`vifs[f.n_start_i_vif .. f.n_start_i_vif + f.n_variables)` of every compiled
factor `f` is ordered by non-decreasing `n_position` and is a permutation of
the edge list the raw factor had before the call; in particular the variable
ids are the same multiset. -/
theorem compile_factor_slice_sorted_perm (fg fg' : FactorGraph)
    (cfg cfg' : CompiledFactorGraph)
    (h : fg.compile cfg = Except.ok (fg', cfg'))
    (hn : ∀ rf ∈ fg.factors, rf.n_variables = rf.tmp_variables.length)
    (i : Nat) (rf : RawFactor) (hi : fg.factors[i]? = some rf) :
    ∃ f : Factor, cfg'.factors[i]? = some f ∧
      (slice cfg'.vifs f.n_start_i_vif f.n_variables).Pairwise
        (fun x y => x.n_position ≤ y.n_position) ∧
      (slice cfg'.vifs f.n_start_i_vif f.n_variables).Perm rf.tmp_variables ∧
      ((slice cfg'.vifs f.n_start_i_vif f.n_variables).map (fun x => x.vid)).Perm
        (rf.tmp_variables.map (fun x => x.vid)) := by
  obtain ⟨factors1, vars1, nt, arrs, h1, -⟩ := compile_ok h
  obtain ⟨-, -, -, -, -, -, -, -, a9⟩ := compile_factors_ok _ _ _ _ _ _ _ _ _ h1
  obtain ⟨-, b2, b3⟩ := a9 i rf hi
  rw [Nat.zero_add] at b2
  have hmem : rf ∈ fg.factors := by
    obtain ⟨hlt, heq⟩ := List.getElem?_eq_some.mp hi
    exact heq ▸ List.getElem_mem hlt
  have hs : slice cfg'.vifs
      (Factor.ofRaw (stamp_factor rf (0 + edge_count (List.take i fg.factors)))).n_start_i_vif
      (Factor.ofRaw (stamp_factor rf (0 + edge_count (List.take i fg.factors)))).n_variables =
      std_sort compare_position rf.tmp_variables := by
    have hlen := std_sort_length compare_position rf.tmp_variables
    simp only [Factor.ofRaw, stamp_factor, hn rf hmem]
    rw [← hlen]
    apply slice_eq_of_getElem?
    intro t ht
    exact b3 t (by omega)
  refine ⟨_, b2, ?_, ?_, ?_⟩
  · rw [hs]; exact std_sort_position_sorted _
  · rw [hs]; exact std_sort_perm _ _
  · rw [hs]; exact (std_sort_perm _ _).map _

/-- Witness of C1 on the small graph: the slice of compiled factor 0. -/
theorem compile_factor_slice_sorted_perm_witness :
    ∃ f : Factor, example_compiled.factors[0]? = some f ∧
      (slice example_compiled.vifs f.n_start_i_vif f.n_variables).Pairwise
        (fun x y => x.n_position ≤ y.n_position) ∧
      (slice example_compiled.vifs f.n_start_i_vif f.n_variables).Perm
        example_factor0.tmp_variables ∧
      ((slice example_compiled.vifs f.n_start_i_vif f.n_variables).map (fun x => x.vid)).Perm
        (example_factor0.tmp_variables.map (fun x => x.vid)) :=
  compile_factor_slice_sorted_perm example_raw example_raw_after example_target
    example_compiled example_compile (by decide) 0 example_factor0 rfl

/-- C2: after a successful `compile`, the compiled variable's `n_factors` is
the length of the raw variable's `tmp_factor_ids`, and the slice
`factor_ids[v.n_start_i_factors .. v.n_start_i_factors + v.n_factors)` is that
list, entry by entry in load order. -/
theorem compile_variable_slice_eq (fg fg' : FactorGraph) (cfg cfg' : CompiledFactorGraph)
    (h : fg.compile cfg = Except.ok (fg', cfg'))
    (i : Nat) (rv : RawVariable) (hi : fg.vars[i]? = some rv) :
    ∃ v : Variable, cfg'.vars[i]? = some v ∧
      v.n_factors = (rv.tmp_factor_ids.length : Int) ∧
      slice cfg'.factor_ids v.n_start_i_factors v.n_factors = rv.tmp_factor_ids := by
  obtain ⟨factors1, vars1, nt, arrs, -, h2, -, -, hf, -⟩ := compile_ok h
  obtain ⟨-, -, -, -, -, -, -, -, -, a10⟩ := compile_variables_ok _ _ _ _ _ _ _ _ _ _ _ _ h2
  obtain ⟨-, b2, b3⟩ := a10 i rv hi
  rw [Nat.zero_add] at b2
  refine ⟨_, b2, ?_, ?_⟩
  · simp [Variable.ofRaw, stamp_variable_n_factors]
  · simp only [Variable.ofRaw, stamp_variable_n_factors, stamp_variable_n_start_i_factors]
    apply slice_eq_of_getElem?
    intro t ht
    obtain ⟨f, -, c2, -⟩ := b3 t rv.tmp_factor_ids[t] (List.getElem?_eq_getElem ht)
    rw [hf, c2, List.getElem?_eq_getElem ht]

/-- Witness of C2 on the small graph: the factor ids of variable 1. -/
theorem compile_variable_slice_eq_witness :
    ∃ v : Variable, example_compiled.vars[1]? = some v ∧
      v.n_factors = (example_variable1.tmp_factor_ids.length : Int) ∧
      slice example_compiled.factor_ids v.n_start_i_factors v.n_factors =
        example_variable1.tmp_factor_ids :=
  compile_variable_slice_eq example_raw example_raw_after example_target
    example_compiled example_compile 1 example_variable1 rfl

/-! ## Claims on `get_multinomial_weight_id` -/

/-- C3, as stated, fails: in the graph with three variables of cardinality
2147483647, under the assignment that gives each of them the value
2147483646, the digits of the factor are `(2147483647, 2147483646)` three
times and their mixed-radix number is `2147483647^3 - 1`, while the `long`
accumulator of `get_multinomial_weight_id` ends at 4611686024869838846. -/
theorem weight_offset_eq_mixed_radix_counterexample :
    factor_digits (fun _ x => x) example_wide [2147483646, 2147483646, 2147483646] (-1) (-1)
        example_wide_factor.n_variables.toNat example_wide_factor.n_start_i_vif =
      Except.ok [(2147483647, 2147483646), (2147483647, 2147483646),
        (2147483647, 2147483646)] ∧
    mixed_radix [(2147483647, 2147483646), (2147483647, 2147483646),
        (2147483647, 2147483646)] = 9903520300447984150353281022 ∧
    weight_offset (fun _ x => x) example_wide [2147483646, 2147483646, 2147483646] (-1) (-1)
        example_wide_factor.n_variables.toNat example_wide_factor.n_start_i_vif 0 =
      Except.ok 4611686024869838846 :=
  ⟨rfl, by decide, rfl⟩

/-- C3, amended: when the variables of a compact factor, in stored order, have
cardinalities `d1..dk` and their values under the assignment have domain
indices `i1..ik` (none of them being the pivot), the offset accumulated by
`get_multinomial_weight_id` is the mixed-radix number (the sum over `j` of
`i_j` times the product of the later cardinalities, equal to its nested form)
reduced modulo 2^64 into the range `[-2^63, 2^63)` of the `long` that holds
it; when the mixed-radix number lies in that range the offset is the number
itself, for two variables `i1 * d2 + i2`, and for `d = [2, 3]`, `i = [1, 2]`
it is `5`. -/
theorem weight_offset_eq_mixed_radix (get_domain_index : Variable → Int → Int)
    (cfg : CompiledFactorGraph) (assignments : List Int) (vid proposal : Int)
    (fs : CompactFactor) (digits : List (Int × Int))
    (hk : fs.n_variables = digits.length)
    (hd : ∀ (j : Nat) (d x : Int), digits[j]? = some (d, x) → ∃ vif v val,
      getAt cfg.vifs (fs.n_start_i_vif + j) = Except.ok vif ∧ vif.vid ≠ vid ∧
      getAt cfg.vars vif.vid = Except.ok v ∧ getAt assignments vif.vid = Except.ok val ∧
      v.cardinality = d ∧ get_domain_index v val = x) :
    weight_offset get_domain_index cfg assignments vid proposal
        fs.n_variables.toNat fs.n_start_i_vif 0 =
      Except.ok (wrap_long (mixed_radix digits)) ∧
    (-9223372036854775808 ≤ mixed_radix digits → mixed_radix digits < 9223372036854775808 →
      weight_offset get_domain_index cfg assignments vid proposal
          fs.n_variables.toNat fs.n_start_i_vif 0 = Except.ok (mixed_radix digits)) ∧
    mixed_radix digits = mixed_radix_nested digits 0 ∧
    (∀ d1 i1 d2 i2 : Int, digits = [(d1, i1), (d2, i2)] →
      mixed_radix digits = i1 * d2 + i2) ∧
    (digits = [(2, 1), (3, 2)] →
      weight_offset get_domain_index cfg assignments vid proposal
          fs.n_variables.toNat fs.n_start_i_vif 0 = Except.ok 5) := by
  have hnest := mixed_radix_nested_zero digits
  have hoff : weight_offset get_domain_index cfg assignments vid proposal
      fs.n_variables.toNat fs.n_start_i_vif 0 =
        Except.ok (wrap_long (mixed_radix digits)) := by
    rw [hk, Int.toNat_ofNat, ← hnest]
    apply weight_offset_digits
    · unfold wrap_long; omega
    · intro j d x hj
      obtain ⟨vif, v, val, h1, h2, h3, h4, h5, h6⟩ := hd j d x hj
      exact ⟨vif, v, val, h1, h3, by rw [value_of, if_neg h2]; exact h4, h5, h6⟩
  refine ⟨hoff, ?_, hnest.symm, ?_, ?_⟩
  · intro h0 h1
    rw [hoff, wrap_long_of_range _ h0 h1]
  · rintro d1 i1 d2 i2 rfl
    simp [mixed_radix]
  · intro hdigits
    rw [hoff, hdigits]
    rfl

/-- Witness of C3 on the small graph: factor 0 has the variables 0 and 1 of
cardinalities 2 and 3, and the evidence snapshot `[1, 2]` gives the offset
`1 * 3 + 2 = 5`. -/
theorem weight_offset_eq_mixed_radix_witness :
    weight_offset (fun _ x => x) example_compiled [1, 2] (-1) (-1) 2 0 0 = Except.ok 5 :=
  (weight_offset_eq_mixed_radix (fun _ x => x) example_compiled [1, 2] (-1) (-1)
    { id := 0, func_id := FuncId.FUNC_MULTINOMIAL, n_variables := 2, n_start_i_vif := 0 }
    [(2, 1), (3, 2)] rfl (by
      intro j d x hj
      match j, hj with
      | 0, hj =>
        simp only [List.getElem?_cons_zero, Option.some.injEq, Prod.mk.injEq] at hj
        obtain ⟨rfl, rfl⟩ := hj
        exact ⟨{ vid := 0, n_position := 0 }, _, 1, rfl, by decide, rfl, rfl, rfl, rfl⟩
      | 1, hj =>
        simp only [List.getElem?_cons_succ, List.getElem?_cons_zero, Option.some.injEq,
          Prod.mk.injEq] at hj
        obtain ⟨rfl, rfl⟩ := hj
        exact ⟨{ vid := 1, n_position := 1 }, _, 2, rfl, by decide, rfl, rfl, rfl, rfl⟩
      | j + 2, hj => simp at hj)).2.2.2.2 rfl

/-- C4, as stated, fails: the raw graph `example_heavy` has `factors[i].id == i`
and `n_variables` equal to each factor's edge count, it compiles, entry 2 of
the compiled graph is the dense multinomial factor 1, whose weight id is
2147483653 and whose only variable has the digit `(3, 2)`; the base plus the
mixed-radix number is 2147483655, while `get_multinomial_weight_id` returns
-2147483641, because the base is read from the `int` array
`compact_factors_weightids`. -/
theorem get_multinomial_weight_id_dense_counterexample :
    example_heavy.compile example_target =
      Except.ok (example_heavy_after, example_heavy_compiled) ∧
    (∀ (i : Nat) (rf : RawFactor), example_heavy.factors[i]? = some rf → rf.id = i) ∧
    (∀ rf ∈ example_heavy.factors, rf.n_variables = rf.tmp_variables.length) ∧
    example_heavy_compiled.compact_factors[2]? = some
      { id := 1, func_id := FuncId.FUNC_MULTINOMIAL, n_variables := 1, n_start_i_vif := 2 } ∧
    (getAt example_heavy_compiled.factors 1).map (fun f => f.weight_id) =
      Except.ok 2147483653 ∧
    (getAt example_heavy.factors 1).map (fun rf => rf.weight_id) = Except.ok 2147483653 ∧
    factor_digits (fun _ x => x) example_heavy_compiled [1, 2] (-1) (-1) 1 2 =
      Except.ok [(3, 2)] ∧
    2147483653 + mixed_radix [(3, 2)] = 2147483655 ∧
    example_heavy_compiled.get_multinomial_weight_id (fun _ x => x) [1, 2] 2 (-1) (-1) =
      Except.ok (-2147483641) := by
  refine ⟨rfl, ?_, by decide, rfl, rfl, rfl, rfl, by decide, rfl⟩
  intro i rf hi
  match i, hi with
  | 0, hi => cases hi; rfl
  | 1, hi => cases hi; rfl
  | i + 2, hi => simp [example_heavy] at hi

/-- C4, amended: on the graph compiled from a raw graph with `factors[i].id == i`
and `n_variables` equal to each factor's edge count, for every
variable-adjacency entry `e` whose compact factor is dense multinomial,
`get_multinomial_weight_id` returns the base `factors[compact_factors[e].id].weight_id`
(the raw factor's own weight id) narrowed to an `int`, plus the mixed-radix
number of the digits of the factor's variables (the raw factor's edges in
position order), both the number and the sum reduced modulo 2^64 into the
range of a `long`; when the weight id fits an `int` and the number and the
sum fit a `long`, it returns the base plus the mixed-radix number. -/
theorem get_multinomial_weight_id_dense (get_domain_index : Variable → Int → Int)
    (fg fg' : FactorGraph) (cfg cfg' : CompiledFactorGraph)
    (h : fg.compile cfg = Except.ok (fg', cfg'))
    (hid : ∀ (i : Nat) (rf : RawFactor), fg.factors[i]? = some rf → rf.id = i)
    (hn : ∀ rf ∈ fg.factors, rf.n_variables = rf.tmp_variables.length)
    (e : Nat) (he : (e : Int) < fg.n_edge) (cf : CompactFactor)
    (hcf : cfg'.compact_factors[e]? = some cf)
    (hfunc : cf.func_id = FuncId.FUNC_MULTINOMIAL)
    (a : List Int) (vid p : Int) (digits : List (Int × Int))
    (hk : cf.n_variables = digits.length)
    (hd : ∀ (j : Nat) (d x : Int), digits[j]? = some (d, x) → ∃ vif v val,
      getAt cfg'.vifs (cf.n_start_i_vif + j) = Except.ok vif ∧
      getAt cfg'.vars vif.vid = Except.ok v ∧ value_of a vid p vif = Except.ok val ∧
      v.cardinality = d ∧ get_domain_index v val = x) :
    ∃ (f : Factor) (rf : RawFactor),
      getAt cfg'.factors cf.id = Except.ok f ∧ getAt fg.factors cf.id = Except.ok rf ∧
      f.weight_id = rf.weight_id ∧
      slice cfg'.vifs cf.n_start_i_vif cf.n_variables =
        std_sort compare_position rf.tmp_variables ∧
      cfg'.get_multinomial_weight_id get_domain_index a e vid p =
        Except.ok (wrap_long (wrap_int f.weight_id + wrap_long (mixed_radix digits))) ∧
      (-2147483648 ≤ f.weight_id → f.weight_id < 2147483648 →
        -9223372036854775808 ≤ mixed_radix digits →
        mixed_radix digits < 9223372036854775808 →
        -9223372036854775808 ≤ f.weight_id + mixed_radix digits →
        f.weight_id + mixed_radix digits < 9223372036854775808 →
        cfg'.get_multinomial_weight_id get_domain_index a e vid p =
          Except.ok (f.weight_id + mixed_radix digits)) := by
  obtain ⟨factors1, vars1, nt, arrs, h1, h2, hne, -, -, hcfs, hwids, -⟩ := compile_ok h
  obtain ⟨-, -, -, a4, -, -, -, -, a9⟩ := compile_factors_ok _ _ _ _ _ _ _ _ _ h1
  obtain ⟨fid, f1, g1, -, g3, g4⟩ :=
    compile_variables_entry _ _ _ _ _ _ _ _ _ _ _ _ h2 e (Nat.zero_le _) (by omega)
  rw [← hcfs, hcf, Option.some.injEq] at g3
  rw [← hwids] at g4
  obtain ⟨hfid, hf1⟩ := getAt_eq_ok.mp g1
  have hlt : fid.toNat < fg.factors.length := by
    rw [← a4]
    exact (List.getElem?_eq_some.mp hf1).1
  obtain ⟨b1, b2, b3⟩ := a9 fid.toNat _ (List.getElem?_eq_getElem hlt)
  rw [Nat.zero_add] at b2
  rw [hf1, Option.some.injEq] at b1
  have hrid := hid fid.toNat _ (List.getElem?_eq_getElem hlt)
  have hmem : fg.factors[fid.toNat] ∈ fg.factors := List.getElem_mem hlt
  have hcfid : cf.id = fid := by
    rw [g3, b1]
    simp only [stamp_factor]
    rw [hrid]
    omega
  have hoff := weight_offset_digits get_domain_index cfg' a vid p digits
    cf.n_start_i_vif 0 (by unfold wrap_long; omega) hd
  rw [mixed_radix_nested_zero] at hoff
  have hget : getAt cfg'.compact_factors (e : Int) = Except.ok cf := by
    rw [getAt_natCast, hcf]
  have hw : getAt cfg'.compact_factors_weightids (e : Int) =
      Except.ok (wrap_int f1.weight_id) := by
    rw [getAt_natCast, g4]
  have hres : cfg'.get_multinomial_weight_id get_domain_index a e vid p =
      Except.ok (wrap_long (wrap_int fg.factors[fid.toNat].weight_id +
        wrap_long (mixed_radix digits))) := by
    simp only [CompiledFactorGraph.get_multinomial_weight_id, bind, Except.bind, hget, hk,
      Int.toNat_ofNat, hoff, hfunc, hw]
    simp [b1, stamp_factor]
  refine ⟨Factor.ofRaw (stamp_factor fg.factors[fid.toNat]
    (0 + edge_count (List.take fid.toNat fg.factors))), fg.factors[fid.toNat],
    ?_, ?_, ?_, ?_, ?_, ?_⟩
  · rw [hcfid]
    exact getAt_eq_ok.mpr ⟨hfid, b2⟩
  · rw [hcfid]
    exact getAt_eq_ok.mpr ⟨hfid, List.getElem?_eq_getElem hlt⟩
  · simp [Factor.ofRaw, stamp_factor]
  · have hlen := std_sort_length compare_position fg.factors[fid.toNat].tmp_variables
    rw [g3, b1]
    simp only [stamp_factor, hn _ hmem]
    rw [← hlen]
    apply slice_eq_of_getElem?
    intro t ht
    exact b3 t (by omega)
  · simpa [Factor.ofRaw, stamp_factor] using hres
  · intro h0 h1 h2 h3 h4 h5
    have e1 : (Factor.ofRaw (stamp_factor fg.factors[fid.toNat]
        (0 + edge_count (List.take fid.toNat fg.factors)))).weight_id =
        fg.factors[fid.toNat].weight_id := by
      simp [Factor.ofRaw, stamp_factor]
    rw [e1] at h0 h1 h4 h5 ⊢
    rw [hres, wrap_int_of_range _ h0 h1, wrap_long_of_range _ h2 h3,
      wrap_long_of_range _ h4 h5]

/-- Witness of C4 on the small graph: entry 2 is factor 1 (base weight id 6)
seen from variable 1, whose evidence value 2 gives the weight id `6 + 2`. -/
theorem get_multinomial_weight_id_dense_witness :
    ∃ (f : Factor) (rf : RawFactor),
      getAt example_compiled.factors 1 = Except.ok f ∧
      getAt example_raw.factors 1 = Except.ok rf ∧
      f.weight_id = rf.weight_id ∧
      slice example_compiled.vifs 2 1 = std_sort compare_position rf.tmp_variables ∧
      example_compiled.get_multinomial_weight_id (fun _ x => x) [1, 2] 2 (-1) (-1) =
        Except.ok (wrap_long (wrap_int f.weight_id + wrap_long (mixed_radix [(3, 2)]))) ∧
      example_compiled.get_multinomial_weight_id (fun _ x => x) [1, 2] 2 (-1) (-1) =
        Except.ok 8 := by
  obtain ⟨f, rf, h1, h2, h3, h4, h5, -⟩ :=
    get_multinomial_weight_id_dense (fun _ x => x) example_raw example_raw_after
      example_target example_compiled example_compile
      (by
        intro i rf hi
        match i, hi with
        | 0, hi => cases hi; rfl
        | 1, hi => cases hi; rfl
        | i + 2, hi => simp [example_raw] at hi)
      (by decide) 2 (by decide)
      { id := 1, func_id := FuncId.FUNC_MULTINOMIAL, n_variables := 1, n_start_i_vif := 2 }
      rfl rfl [1, 2] (-1) (-1) [(3, 2)] rfl
      (by
        intro j d x hj
        match j, hj with
        | 0, hj =>
          simp only [List.getElem?_cons_zero, Option.some.injEq, Prod.mk.injEq] at hj
          obtain ⟨rfl, rfl⟩ := hj
          exact ⟨{ vid := 1, n_position := 0 }, _, 2, rfl, rfl, rfl, rfl, rfl⟩
        | j + 1, hj => simp at hj)
  exact ⟨f, rf, h1, h2, h3, h4, h5, rfl⟩

/-- C5: for a valid variable id `vid` and any proposed value `p`,
`get_multinomial_weight_id(a, fs, vid, p)` is
`get_multinomial_weight_id(a', fs, -1, -1)` where `a'` is `a` with the entry at
`vid` replaced by `p`; and when `vid` is not one of the factor's variables the
result does not depend on `p`. -/
theorem get_multinomial_weight_id_proposal (get_domain_index : Variable → Int → Int)
    (cfg : CompiledFactorGraph) (a : List Int) (e vid p : Int)
    (h0 : 0 ≤ vid) (h1 : vid < a.length) :
    cfg.get_multinomial_weight_id get_domain_index a e vid p =
        cfg.get_multinomial_weight_id get_domain_index (a.set vid.toNat p) e (-1) (-1) ∧
      ((∀ fs, getAt cfg.compact_factors e = Except.ok fs →
          ∀ (j : Nat) (vif : VariableInFactor), (j : Int) < fs.n_variables →
            getAt cfg.vifs (fs.n_start_i_vif + j) = Except.ok vif → vif.vid ≠ vid) →
        ∀ q : Int, cfg.get_multinomial_weight_id get_domain_index a e vid p =
          cfg.get_multinomial_weight_id get_domain_index a e vid q) := by
  refine ⟨?_, ?_⟩
  · simp only [CompiledFactorGraph.get_multinomial_weight_id]
    cases getAt cfg.compact_factors e with
    | error err => rfl
    | ok fs =>
      simp only [bind, Except.bind]
      rw [weight_offset_set get_domain_index cfg a vid p h0 h1]
  · intro h q
    simp only [CompiledFactorGraph.get_multinomial_weight_id]
    cases hfs : getAt cfg.compact_factors e with
    | error err => rfl
    | ok fs =>
      simp only [bind, Except.bind]
      rw [weight_offset_no_pivot get_domain_index cfg a vid p q]
      intro j vif hj hget
      exact h fs hfs j vif (by omega) hget

/-- Witness of C5 on the small graph: proposing the value 0 for variable 1 in
the evidence snapshot `[1, 2]`. -/
theorem get_multinomial_weight_id_proposal_witness :
    example_compiled.get_multinomial_weight_id (fun _ x => x) [1, 2] 0 1 0 =
      example_compiled.get_multinomial_weight_id (fun _ x => x) [1, 0] 0 (-1) (-1) :=
  (get_multinomial_weight_id_proposal (fun _ x => x) example_compiled [1, 2] 0 1 0
    (by decide) (by decide)).1

/-! ## Claims on `update_weight` -/

/-- C6: for a boolean variable `v`, `update_weight(v)` leaves every weight `w`
with its old value plus `stepsize` times the sum, over the incident entries
`i` in `[0, v.n_factors)` whose recorded weight id is `w` and is not fixed, of
`potential(evidence) - potential(free)` of the entry's factor; the call returns
whenever the entries and their weights are inside the arrays; and with a single
incident factor of potentials 1 and 0 and a weight that is not fixed, the
weight afterwards is its old value plus the step size. -/
theorem update_weight_boolean (get_domain_index : Variable → Int → Int)
    (potential : Bool → CompactFactor → ℚ) (cfg : CompiledFactorGraph) (v : Variable)
    (hb : v.domain_type = DomainType.DTYPE_BOOLEAN) :
    (∀ cfg', cfg.update_weight get_domain_index potential v = Except.ok cfg' →
      ∀ w : Int, getAt cfg'.infrs.weight_values w =
        (getAt cfg.infrs.weight_values w).map
          (fun old => old + cfg.stepsize * boolean_gradient potential cfg v w)) ∧
    ((∀ k : Nat, k < v.n_factors.toNat → ∃ wid isfixed fs old,
        getAt cfg.compact_factors_weightids (v.n_start_i_factors + k) = Except.ok wid ∧
        getAt cfg.infrs.weights_isfixed wid = Except.ok isfixed ∧
        getAt cfg.compact_factors (v.n_start_i_factors + k) = Except.ok fs ∧
        getAt cfg.infrs.weight_values wid = Except.ok old) →
      ∃ cfg', cfg.update_weight get_domain_index potential v = Except.ok cfg') ∧
    (∀ (wid : Int) (fs : CompactFactor) (old : ℚ), v.n_factors = 1 →
      getAt cfg.compact_factors_weightids v.n_start_i_factors = Except.ok wid →
      getAt cfg.infrs.weights_isfixed wid = Except.ok false →
      getAt cfg.compact_factors v.n_start_i_factors = Except.ok fs →
      potential false fs = 1 → potential true fs = 0 →
      getAt cfg.infrs.weight_values wid = Except.ok old →
      ∃ cfg', cfg.update_weight get_domain_index potential v = Except.ok cfg' ∧
        getAt cfg'.infrs.weight_values wid = Except.ok (old + cfg.stepsize)) := by
  have hformula : ∀ cfg', cfg.update_weight get_domain_index potential v = Except.ok cfg' →
      ∀ w : Int, getAt cfg'.infrs.weight_values w =
        (getAt cfg.infrs.weight_values w).map
          (fun old => old + cfg.stepsize * boolean_gradient potential cfg v w) := by
    intro cfg' h w
    obtain ⟨hloop, -⟩ := update_weight_eq get_domain_index potential cfg cfg' v h
    have := boolean_loop get_domain_index potential cfg v hb _ _ _ _ hloop w
    simp only [Nat.zero_add] at this
    exact this
  have hreturns : (∀ k : Nat, k < v.n_factors.toNat → ∃ wid isfixed fs old,
        getAt cfg.compact_factors_weightids (v.n_start_i_factors + k) = Except.ok wid ∧
        getAt cfg.infrs.weights_isfixed wid = Except.ok isfixed ∧
        getAt cfg.compact_factors (v.n_start_i_factors + k) = Except.ok fs ∧
        getAt cfg.infrs.weight_values wid = Except.ok old) →
      ∃ cfg', cfg.update_weight get_domain_index potential v = Except.ok cfg' := by
    intro hin
    obtain ⟨wv, hwv⟩ := boolean_loop_ok get_domain_index potential cfg v hb
      v.n_factors.toNat 0 cfg.infrs.weight_values (by
        intro k hk
        simp only [Nat.zero_add]
        exact hin k hk)
    exact ⟨_, update_weight_of_loop get_domain_index potential cfg v wv hwv⟩
  refine ⟨hformula, hreturns, ?_⟩
  intro wid fs old hn hwid hfixed hfs hpe hpf hold
  have hn1 : v.n_factors.toNat = 1 := by omega
  obtain ⟨cfg', hcfg'⟩ := hreturns (by
    intro k hk
    have hk0 : k = 0 := by omega
    subst hk0
    simp only [Nat.cast_zero, add_zero]
    exact ⟨wid, false, fs, old, hwid, hfixed, hfs, hold⟩)
  refine ⟨cfg', hcfg', ?_⟩
  have hterm : boolean_term potential cfg v wid 0 = 1 := by
    simp [boolean_term, hwid, hfs, hfixed, hpe, hpf]
  rw [hformula cfg' hcfg' wid, hold]
  simp [Except.map, boolean_gradient, hn1, List.range_succ, hterm]

/-- Witness of C6 on the small graph: the boolean variable record with the
single incident entry 2, step size 1 and potentials 1 and 0 moves the weight 6
from 0 to `0 + 1`. -/
theorem update_weight_boolean_witness :
    ∃ cfg', example_compiled.update_weight (fun _ x => x) example_potential
        example_boolean_variable = Except.ok cfg' ∧
      getAt cfg'.infrs.weight_values 6 = Except.ok (0 + example_compiled.stepsize) :=
  (update_weight_boolean (fun _ x => x) example_potential example_compiled
    example_boolean_variable rfl).2.2 6
    { id := 1, func_id := FuncId.FUNC_MULTINOMIAL, n_variables := 1, n_start_i_vif := 2 } 0
    rfl rfl rfl rfl rfl rfl rfl

/-- C7: for a multinomial variable with exactly one incident factor, when the
weight ids resolved from the evidence and the free snapshot differ and neither
weight is fixed, `update_weight` returns with the value at `wid_evid` increased
by `stepsize * potential(evidence)`, the value at `wid_free` decreased by
`stepsize * potential(free)`, and every other weight value unchanged. -/
theorem update_weight_multinomial_distinct (get_domain_index : Variable → Int → Int)
    (potential : Bool → CompactFactor → ℚ) (cfg : CompiledFactorGraph) (v : Variable)
    (wid_evid wid_free : Int) (fs : CompactFactor) (old_evid old_free : ℚ)
    (hm : v.domain_type = DomainType.DTYPE_MULTINOMIAL) (hn : v.n_factors = 1)
    (h1 : cfg.get_multinomial_weight_id get_domain_index cfg.infrs.assignments_evid
      v.n_start_i_factors (-1) (-1) = Except.ok wid_evid)
    (h2 : cfg.get_multinomial_weight_id get_domain_index cfg.infrs.assignments_free
      v.n_start_i_factors (-1) (-1) = Except.ok wid_free)
    (hne : wid_evid ≠ wid_free)
    (hfs : getAt cfg.compact_factors v.n_start_i_factors = Except.ok fs)
    (hf1 : getAt cfg.infrs.weights_isfixed wid_evid = Except.ok false)
    (hf2 : getAt cfg.infrs.weights_isfixed wid_free = Except.ok false)
    (ho1 : getAt cfg.infrs.weight_values wid_evid = Except.ok old_evid)
    (ho2 : getAt cfg.infrs.weight_values wid_free = Except.ok old_free) :
    ∃ cfg', cfg.update_weight get_domain_index potential v = Except.ok cfg' ∧
      getAt cfg'.infrs.weight_values wid_evid =
        Except.ok (old_evid + cfg.stepsize * potential false fs) ∧
      getAt cfg'.infrs.weight_values wid_free =
        Except.ok (old_free - cfg.stepsize * potential true fs) ∧
      ∀ w : Int, w ≠ wid_evid → w ≠ wid_free →
        getAt cfg'.infrs.weight_values w = getAt cfg.infrs.weight_values w := by
  obtain ⟨wv1, wv2, hwv1, hwv2, hup⟩ := multinomial_single get_domain_index potential cfg v
    wid_evid wid_free fs old_evid old_free hm hn h1 h2 hfs hf1 hf2 ho1 ho2
  rw [if_neg hne] at hwv1 hwv2
  refine ⟨_, hup, ?_, ?_, ?_⟩
  · simp only
    rw [getAt_add_weight_ne _ _ _ _ hwv2 _ hne,
      getAt_add_weight_self _ _ _ _ _ hwv1 ho1]
    simp
  · simp only
    have hmid : getAt wv1 wid_free = Except.ok old_free := by
      rw [getAt_add_weight_ne _ _ _ _ hwv1 _ (Ne.symm hne), ho2]
    rw [getAt_add_weight_self _ _ _ _ _ hwv2 hmid]
    congr 1
    ring
  · intro w hw1 hw2
    simp only
    rw [getAt_add_weight_ne _ _ _ _ hwv2 _ hw2, getAt_add_weight_ne _ _ _ _ hwv1 _ hw1]

/-- Witness of C7 on the small graph: for variable 0 the evidence snapshot
resolves factor 0 to the weight 5 and the free snapshot to the weight 1. -/
theorem update_weight_multinomial_distinct_witness :
    ∃ cfg', example_compiled.update_weight (fun _ x => x) example_potential_3_2
        example_multinomial_variable = Except.ok cfg' ∧
      getAt cfg'.infrs.weight_values 5 = Except.ok (0 + example_compiled.stepsize * 3) ∧
      getAt cfg'.infrs.weight_values 1 = Except.ok (0 - example_compiled.stepsize * 2) ∧
      ∀ w : Int, w ≠ 5 → w ≠ 1 →
        getAt cfg'.infrs.weight_values w = getAt example_compiled.infrs.weight_values w :=
  update_weight_multinomial_distinct (fun _ x => x) example_potential_3_2 example_compiled
    example_multinomial_variable 5 1
    { id := 0, func_id := FuncId.FUNC_MULTINOMIAL, n_variables := 2, n_start_i_vif := 0 }
    0 0 rfl rfl rfl rfl (by decide) rfl rfl rfl rfl rfl

/-- C8, as stated, fails: on the small graph whose factor 0 has a function
that is neither dense nor sparse multinomial, variable 0 is multinomial with
the single incident factor 0, the evidence snapshot `[1, 2]` and the free
snapshot `[0, 1]` differ and both resolve to the weight id 0, the weight is
not fixed, its value is 0, the step size is 1 and the potentials are 3 and 2,
yet the value after the call is 2, not `0 + 1 * (3 - 2)`. -/
theorem update_weight_multinomial_equal_counterexample :
    example_multinomial_variable.domain_type = DomainType.DTYPE_MULTINOMIAL ∧
    example_multinomial_variable.n_factors = 1 ∧
    example_shared.infrs.assignments_evid = [1, 2] ∧
    example_shared.infrs.assignments_free = [0, 1] ∧
    getAt example_shared.compact_factors example_multinomial_variable.n_start_i_factors =
      Except.ok { id := 0, func_id := FuncId.FUNC_OTHER 0, n_variables := 2,
                  n_start_i_vif := 0 } ∧
    example_shared.get_multinomial_weight_id (fun _ x => x)
      example_shared.infrs.assignments_evid
      example_multinomial_variable.n_start_i_factors (-1) (-1) = Except.ok 0 ∧
    example_shared.get_multinomial_weight_id (fun _ x => x)
      example_shared.infrs.assignments_free
      example_multinomial_variable.n_start_i_factors (-1) (-1) = Except.ok 0 ∧
    getAt example_shared.infrs.weights_isfixed 0 = Except.ok false ∧
    getAt example_shared.infrs.weight_values 0 = Except.ok 0 ∧
    example_shared.stepsize = 1 ∧
    ∃ cfg', example_shared.update_weight (fun _ x => x) example_potential_3_2
        example_multinomial_variable = Except.ok cfg' ∧
      getAt cfg'.infrs.weight_values 0 = Except.ok 2 ∧
      getAt cfg'.infrs.weight_values 0 ≠
        Except.ok (0 + example_shared.stepsize *
          (example_potential_3_2 false
              { id := 0, func_id := FuncId.FUNC_OTHER 0, n_variables := 2,
                n_start_i_vif := 0 } -
            example_potential_3_2 true
              { id := 0, func_id := FuncId.FUNC_OTHER 0, n_variables := 2,
                n_start_i_vif := 0 })) := by
  obtain ⟨cfg', hup, hval, -⟩ := multinomial_single_equal (fun _ x => x)
    example_potential_3_2 example_shared example_multinomial_variable 0
    { id := 0, func_id := FuncId.FUNC_OTHER 0, n_variables := 2, n_start_i_vif := 0 } 0
    rfl rfl rfl rfl rfl rfl rfl
  have hval2 : getAt cfg'.infrs.weight_values 0 = Except.ok 2 := by
    rw [hval]
    norm_num [example_shared, example_compiled, example_potential_3_2]
  refine ⟨rfl, rfl, rfl, rfl, rfl, rfl, rfl, rfl, rfl, rfl, cfg', hup, hval2, ?_⟩
  rw [hval2]
  intro hbad
  rw [Except.ok.injEq] at hbad
  norm_num [example_shared, example_compiled, example_potential_3_2] at hbad

/-- C8, amended: for a multinomial variable with exactly one incident factor,
when the evidence and the free snapshot resolve to the same weight id and that
weight is not fixed, both guarded updates of `update_weight` are applied to
it: the call returns with the weight's value increased by
`2 * stepsize * (potential(evidence) - potential(free))`, and every other
weight value unchanged. -/
theorem update_weight_multinomial_equal (get_domain_index : Variable → Int → Int)
    (potential : Bool → CompactFactor → ℚ) (cfg : CompiledFactorGraph) (v : Variable)
    (wid : Int) (fs : CompactFactor) (old : ℚ)
    (hm : v.domain_type = DomainType.DTYPE_MULTINOMIAL) (hn : v.n_factors = 1)
    (h1 : cfg.get_multinomial_weight_id get_domain_index cfg.infrs.assignments_evid
      v.n_start_i_factors (-1) (-1) = Except.ok wid)
    (h2 : cfg.get_multinomial_weight_id get_domain_index cfg.infrs.assignments_free
      v.n_start_i_factors (-1) (-1) = Except.ok wid)
    (hfs : getAt cfg.compact_factors v.n_start_i_factors = Except.ok fs)
    (hf : getAt cfg.infrs.weights_isfixed wid = Except.ok false)
    (ho : getAt cfg.infrs.weight_values wid = Except.ok old) :
    ∃ cfg', cfg.update_weight get_domain_index potential v = Except.ok cfg' ∧
      getAt cfg'.infrs.weight_values wid =
        Except.ok (old + 2 * cfg.stepsize * (potential false fs - potential true fs)) ∧
      ∀ w : Int, w ≠ wid →
        getAt cfg'.infrs.weight_values w = getAt cfg.infrs.weight_values w := by
  obtain ⟨cfg', hup, hval, hrest⟩ := multinomial_single_equal get_domain_index potential
    cfg v wid fs old hm hn h1 h2 hfs hf ho
  refine ⟨cfg', hup, ?_, hrest⟩
  rw [hval, mul_assoc]

/-- Witness of the amended C8 on the small graph with a sparse multinomial
factor whose table gives the offsets of the two snapshots, 5 and 1, the same
weight id 4. -/
theorem update_weight_multinomial_equal_witness :
    example_tied.infrs.assignments_evid ≠ example_tied.infrs.assignments_free ∧
    ∃ cfg', example_tied.update_weight (fun _ x => x) example_potential_3_2
        example_multinomial_variable = Except.ok cfg' ∧
      getAt cfg'.infrs.weight_values 4 =
        Except.ok (0 + 2 * example_tied.stepsize * (3 - 2)) ∧
      ∀ w : Int, w ≠ 4 →
        getAt cfg'.infrs.weight_values w = getAt example_tied.infrs.weight_values w :=
  ⟨by decide, update_weight_multinomial_equal (fun _ x => x) example_potential_3_2
    example_tied example_multinomial_variable 4
    { id := 0, func_id := FuncId.FUNC_SPARSE_MULTINOMIAL, n_variables := 2,
      n_start_i_vif := 0 } 0
    rfl rfl rfl rfl rfl rfl rfl⟩

/-- C9: `update_weight` leaves the value of every weight whose
`weights_isfixed` flag is true unchanged, for a variable of any domain type,
and it changes no `weights_isfixed` flag. -/
theorem update_weight_fixed_unchanged (get_domain_index : Variable → Int → Int)
    (potential : Bool → CompactFactor → ℚ) (cfg cfg' : CompiledFactorGraph) (v : Variable)
    (h : cfg.update_weight get_domain_index potential v = Except.ok cfg') :
    cfg'.infrs.weights_isfixed = cfg.infrs.weights_isfixed ∧
      ∀ w : Int, getAt cfg.infrs.weights_isfixed w = Except.ok true →
        getAt cfg'.infrs.weight_values w = getAt cfg.infrs.weight_values w := by
  obtain ⟨hloop, hcfg⟩ := update_weight_eq get_domain_index potential cfg cfg' v h
  refine ⟨?_, ?_⟩
  · rw [hcfg]
  · intro w hw
    exact loop_fixed_unchanged get_domain_index potential cfg v w hw _ _ _ _ hloop

/-- The run of `update_weight` on the small graph with the weight 5 fixed. -/
theorem example_fixed_update :
    example_fixed.update_weight (fun _ x => x) example_potential_3_2
      example_multinomial_variable = Except.ok example_fixed_after := by
  with_unfolding_all rfl

/-- Witness of C9 on the small graph with the weight 5 fixed: the update of
variable 0 resolves the evidence snapshot to the weight 5 and leaves it. -/
theorem update_weight_fixed_unchanged_witness :
    example_fixed_after.infrs.weights_isfixed = example_fixed.infrs.weights_isfixed ∧
      ∀ w : Int, getAt example_fixed.infrs.weights_isfixed w = Except.ok true →
        getAt example_fixed_after.infrs.weight_values w =
          getAt example_fixed.infrs.weight_values w :=
  update_weight_fixed_unchanged (fun _ x => x) example_potential_3_2 example_fixed
    example_fixed_after example_multinomial_variable example_fixed_update

/-- C10 fails on the code: for the variable record with an unrecognized domain
type and no incident factor, the loop body holding `abort()` is never entered
and `update_weight` returns normally, with the graph unchanged. -/
theorem update_weight_unrecognized_returns :
    example_unrecognized_variable.domain_type ≠ DomainType.DTYPE_BOOLEAN ∧
      example_unrecognized_variable.domain_type ≠ DomainType.DTYPE_MULTINOMIAL ∧
      example_compiled.update_weight (fun _ x => x) example_potential
        example_unrecognized_variable = Except.ok example_compiled :=
  ⟨by decide, by decide, rfl⟩

/-! ## Claims on the outcome of `compile` -/

/-- C11: on a target sized to the raw graph's `(n_var, n_factor, n_edge)` and
with every incident factor id an index of a raw factor (so that no access is
outside of an array while the totals do not exceed `n_edge`), `compile`
returns if and only if the total number of edges of the factors is `n_edge` and
the total number of incident factor ids of the variables is `n_edge`; on a
mismatch it stops on a failed assertion, or, when a total exceeds `n_edge`, on
the write past the end of the target that precedes the assertion. -/
theorem compile_returns_iff (fg : FactorGraph) (cfg : CompiledFactorGraph)
    (hvars : cfg.vars.length = fg.vars.length)
    (hfactors : cfg.factors.length = fg.factors.length)
    (hvifs : (cfg.vifs.length : Int) = fg.n_edge)
    (hfids : (cfg.factor_ids.length : Int) = fg.n_edge)
    (hcfs : (cfg.compact_factors.length : Int) = fg.n_edge)
    (hwids : (cfg.compact_factors_weightids.length : Int) = fg.n_edge)
    (hfid : ∀ rv ∈ fg.vars, ∀ fid ∈ rv.tmp_factor_ids, 0 ≤ fid ∧ fid < fg.factors.length) :
    ((∃ r, fg.compile cfg = Except.ok r) ↔
      ((edge_count fg.factors : Int) = fg.n_edge ∧
        (incidence_count fg.vars : Int) = fg.n_edge)) ∧
    (¬((edge_count fg.factors : Int) = fg.n_edge ∧
        (incidence_count fg.vars : Int) = fg.n_edge) →
      fg.compile cfg = Except.error Fault.assertion ∨
        fg.compile cfg = Except.error Fault.out_of_bounds) ∧
    ((edge_count fg.factors : Int) ≤ fg.n_edge → (incidence_count fg.vars : Int) ≤ fg.n_edge →
      ¬((edge_count fg.factors : Int) = fg.n_edge ∧
        (incidence_count fg.vars : Int) = fg.n_edge) →
      fg.compile cfg = Except.error Fault.assertion) := by
  have hiff : (∃ r, fg.compile cfg = Except.ok r) ↔
      ((edge_count fg.factors : Int) = fg.n_edge ∧
        (incidence_count fg.vars : Int) = fg.n_edge) := by
    constructor
    · rintro ⟨⟨fg', cfg'⟩, h⟩
      exact compile_ok_counts h
    · intro hAB
      exact (compile_outcome fg cfg (by omega) (by omega) hfid (by omega) (by omega)
        (by omega) (by omega)).1 hAB
  refine ⟨hiff, ?_, ?_⟩
  · intro hne
    cases hc : fg.compile cfg with
    | ok r => exact absurd (hiff.mp ⟨r, hc⟩) hne
    | error e =>
      rcases compile_error fg cfg e hc with rfl | rfl
      · exact Or.inl rfl
      · exact Or.inr rfl
  · intro hA hB hne
    exact (compile_outcome fg cfg (by omega) (by omega) hfid (by omega) (by omega)
      (by omega) (by omega)).2 hne

/-- Witness of C11 on the small graph, whose factors hold 3 edges and whose
variables hold 3 incident factor ids, with `n_edge = 3`. -/
theorem compile_returns_iff_witness :
    (∃ r, example_raw.compile example_target = Except.ok r) ↔
      ((edge_count example_raw.factors : Int) = example_raw.n_edge ∧
        (incidence_count example_raw.vars : Int) = example_raw.n_edge) :=
  (compile_returns_iff example_raw example_target rfl rfl rfl rfl rfl rfl (by decide)).1

/-- C12, as stated, fails: `compile` succeeds on the small graph whose factor 1
holds one edge and has `n_variables = 5`; the compiled factors then have
`n_variables` 2 and 5, of sum 7, while `cfg.c_edge` and `n_edge` are 3. -/
theorem compile_sum_n_variables_counterexample :
    example_miscounted.compile example_target =
        Except.ok (example_miscounted_after, example_miscounted_compiled) ∧
      ((example_miscounted_compiled.factors.take example_miscounted.factors.length).map
        (fun f => f.n_variables)).sum = 7 ∧
      example_miscounted_compiled.c_edge = 3 ∧ example_miscounted.n_edge = 3 :=
  ⟨example_miscounted_compile, by decide, by decide, by decide⟩

/-- C12, amended: after a successful `compile` of a raw graph in which every
factor's `n_variables` is the number of its loaded edges, the sum of
`n_variables` over the compiled factors `cfg.factors[0 .. n_factor)` is the edge
cursor recorded in `cfg.c_edge`, which is `n_edge`. -/
theorem compile_sum_n_variables (fg fg' : FactorGraph) (cfg cfg' : CompiledFactorGraph)
    (h : fg.compile cfg = Except.ok (fg', cfg'))
    (hn : ∀ rf ∈ fg.factors, rf.n_variables = rf.tmp_variables.length) :
    ((cfg'.factors.take fg.factors.length).map (fun f => f.n_variables)).sum = cfg'.c_edge ∧
      cfg'.c_edge = fg.n_edge := by
  obtain ⟨hA, -⟩ := compile_ok_counts h
  obtain ⟨-, -, -, -, -, -, -, -, -, -, -, hc, -⟩ := compile_ok h
  refine ⟨?_, hc⟩
  rw [compile_n_variables h, hc, ← hA]
  have hsum : ∀ l : List RawFactor, (∀ rf ∈ l, rf.n_variables = rf.tmp_variables.length) →
      (l.map (fun rf => rf.n_variables)).sum = (edge_count l : Int) := by
    intro l
    induction l with
    | nil => intro _; simp [edge_count]
    | cons rf rest ih =>
      intro hl
      rw [List.map_cons, List.sum_cons, edge_count_cons, ih (fun r hr => hl r
        (List.mem_cons_of_mem _ hr)), hl rf (List.mem_cons_self _ _)]
      push_cast
      rfl
  exact hsum fg.factors hn

/-- Witness of the amended C12 on the small graph: `2 + 1 = 3`. -/
theorem compile_sum_n_variables_witness :
    ((example_compiled.factors.take example_raw.factors.length).map
        (fun f => f.n_variables)).sum = example_compiled.c_edge ∧
      example_compiled.c_edge = example_raw.n_edge :=
  compile_sum_n_variables example_raw example_raw_after example_target example_compiled
    example_compile (by decide)

/-- C14, as stated, fails: on the small compiled graph, whose flags `sorted`
and `safety_check_passed` are both false, `update_weight` on the boolean
variable record returns normally and has moved the weight 6 from 0 to 1. -/
theorem update_weight_not_usable_counterexample :
    example_compiled.sorted = false ∧ example_compiled.safety_check_passed = false ∧
      example_compiled.update_weight (fun _ x => x) example_potential
        example_boolean_variable = Except.ok example_boolean_after ∧
      getAt example_compiled.infrs.weight_values 6 = Except.ok 0 ∧
      getAt example_boolean_after.infrs.weight_values 6 = Except.ok 1 :=
  ⟨rfl, rfl, example_boolean_update, rfl, rfl⟩

/-- C14, amended: `update_weight` does not read the flags `sorted` and
`safety_check_passed` of the compiled graph: on a graph with any values of
the two flags it has the outcome it has on the same graph with the flags as
they were, and it leaves the flags as it finds them. -/
theorem update_weight_ignores_flags (get_domain_index : Variable → Int → Int)
    (potential : Bool → CompactFactor → ℚ) (cfg : CompiledFactorGraph) (v : Variable)
    (is_sorted is_checked : Bool) :
    CompiledFactorGraph.update_weight get_domain_index potential
        { cfg with sorted := is_sorted, safety_check_passed := is_checked } v =
      (cfg.update_weight get_domain_index potential v).map
        (fun cfg' => { cfg' with sorted := is_sorted, safety_check_passed := is_checked }) := by
  have hloop := update_weight_loop_congr get_domain_index potential
    { cfg with sorted := is_sorted, safety_check_passed := is_checked } cfg
    rfl rfl rfl rfl rfl rfl rfl v v.n_factors.toNat 0 cfg.infrs.weight_values
  simp only [CompiledFactorGraph.update_weight, bind, Except.bind] at hloop ⊢
  rw [hloop]
  cases update_weight_loop get_domain_index potential cfg v v.n_factors.toNat 0
    cfg.infrs.weight_values with
  | error e => rfl
  | ok wv => rfl

/-- C15: `safety_check` returns, with `safety_check_passed` set to true and
nothing else changed, if and only if `variables[i].id == i`,
`factors[i].id == i` and `weights[i].id == i` at every index; otherwise it
stops on a failed assertion, before the flag is set.  It does not change
`sorted`, so a graph whose `sorted` flag is false is not usable after
`safety_check` alone, and `is_usable()` is true exactly when both flags are
true. -/
theorem safety_check_iff (fg : FactorGraph) :
    (∀ fg' : FactorGraph, fg.safety_check = Except.ok fg' ↔
      (((∀ (i : Nat) (rv : RawVariable), fg.vars[i]? = some rv → rv.id = i) ∧
        (∀ (i : Nat) (rf : RawFactor), fg.factors[i]? = some rf → rf.id = i) ∧
        (∀ (i : Nat) (w : Weight), fg.weights[i]? = some w → w.id = i)) ∧
        fg' = { fg with safety_check_passed := true })) ∧
    (¬((∀ (i : Nat) (rv : RawVariable), fg.vars[i]? = some rv → rv.id = i) ∧
        (∀ (i : Nat) (rf : RawFactor), fg.factors[i]? = some rf → rf.id = i) ∧
        (∀ (i : Nat) (w : Weight), fg.weights[i]? = some w → w.id = i)) →
      fg.safety_check = Except.error Fault.assertion) ∧
    (∀ fg' : FactorGraph, fg.safety_check = Except.ok fg' →
      fg'.sorted = fg.sorted ∧ fg'.safety_check_passed = true ∧
      (fg.sorted = false → fg'.is_usable = false)) ∧
    (fg.is_usable = true ↔ fg.sorted = true ∧ fg.safety_check_passed = true) := by
  have hv := check_ids_eq (fg.vars.map (fun rv => rv.id)) 0
  have hf := check_ids_eq (fg.factors.map (fun rf => rf.id)) 0
  have hw := check_ids_eq (fg.weights.map (fun w => w.id)) 0
  rw [ids_match_map] at hv hf hw
  have hmain : ∀ fg' : FactorGraph, fg.safety_check = Except.ok fg' ↔
      (((∀ (i : Nat) (rv : RawVariable), fg.vars[i]? = some rv → rv.id = i) ∧
        (∀ (i : Nat) (rf : RawFactor), fg.factors[i]? = some rf → rf.id = i) ∧
        (∀ (i : Nat) (w : Weight), fg.weights[i]? = some w → w.id = i)) ∧
        fg' = { fg with safety_check_passed := true }) := by
    intro fg'
    by_cases h1 : ∀ (i : Nat) (rv : RawVariable), fg.vars[i]? = some rv → rv.id = i
    · by_cases h2 : ∀ (i : Nat) (rf : RawFactor), fg.factors[i]? = some rf → rf.id = i
      · by_cases h3 : ∀ (i : Nat) (w : Weight), fg.weights[i]? = some w → w.id = i
        · simp only [FactorGraph.safety_check, bind, Except.bind, hv.1 h1, hf.1 h2, hw.1 h3,
            Except.ok.injEq]
          constructor
          · intro h; exact ⟨⟨h1, h2, h3⟩, h.symm⟩
          · intro h; exact h.2.symm
        · simp only [FactorGraph.safety_check, bind, Except.bind, hv.1 h1, hf.1 h2, hw.2 h3]
          constructor
          · intro h; cases h
          · intro h; exact absurd h.1.2.2 h3
      · simp only [FactorGraph.safety_check, bind, Except.bind, hv.1 h1, hf.2 h2]
        constructor
        · intro h; cases h
        · intro h; exact absurd h.1.2.1 h2
    · simp only [FactorGraph.safety_check, bind, Except.bind, hv.2 h1]
      constructor
      · intro h; cases h
      · intro h; exact absurd h.1.1 h1
  refine ⟨hmain, ?_, ?_, ?_⟩
  · intro hne
    by_cases h1 : ∀ (i : Nat) (rv : RawVariable), fg.vars[i]? = some rv → rv.id = i
    · by_cases h2 : ∀ (i : Nat) (rf : RawFactor), fg.factors[i]? = some rf → rf.id = i
      · have h3 : ¬ ∀ (i : Nat) (w : Weight), fg.weights[i]? = some w → w.id = i :=
          fun h3 => hne ⟨h1, h2, h3⟩
        simp only [FactorGraph.safety_check, bind, Except.bind, hv.1 h1, hf.1 h2, hw.2 h3]
      · simp only [FactorGraph.safety_check, bind, Except.bind, hv.1 h1, hf.2 h2]
    · simp only [FactorGraph.safety_check, bind, Except.bind, hv.2 h1]
  · intro fg' h
    obtain ⟨-, rfl⟩ := (hmain fg').mp h
    refine ⟨rfl, rfl, ?_⟩
    intro hs
    simp [FactorGraph.is_usable, hs]
  · simp [FactorGraph.is_usable]

/-! ## Claims on what `compile` and `copy_from` write -/

/-- C16, as stated, fails: `compile` on the small graph leaves the raw graph
with the edge list of factor 0 reordered, the offset of factor 1 set to 2, the
`n_factors` and `n_start_i_factors` of the variables set, the
`n_start_i_tally` of variable 1 set to 2, and `c_edge` set to 3. -/
theorem compile_raw_unchanged_counterexample :
    example_raw.compile example_target = Except.ok (example_raw_after, example_compiled) ∧
      example_raw_after.factors.map (fun rf => rf.tmp_variables) ≠
        example_raw.factors.map (fun rf => rf.tmp_variables) ∧
      example_raw_after.factors.map (fun rf => rf.n_start_i_vif) ≠
        example_raw.factors.map (fun rf => rf.n_start_i_vif) ∧
      example_raw_after.vars.map (fun rv => rv.n_factors) ≠
        example_raw.vars.map (fun rv => rv.n_factors) ∧
      example_raw_after.vars.map (fun rv => rv.n_start_i_factors) ≠
        example_raw.vars.map (fun rv => rv.n_start_i_factors) ∧
      example_raw_after.vars.map (fun rv => rv.n_start_i_tally) ≠
        example_raw.vars.map (fun rv => rv.n_start_i_tally) ∧
      example_raw_after.c_edge ≠ example_raw.c_edge :=
  ⟨example_compile, by decide, by decide, by decide, by decide, by decide, by decide⟩

/-- C16, amended: a successful `compile` updates the raw graph in place and
leaves the rest of it as loaded.  Each raw factor keeps its fields except that
its edge list is sorted by position (a permutation of the loaded list) and its
`n_start_i_vif` is the number of edges of the factors before it; each raw
variable keeps its fields, its list of incident factor ids included, except
that `n_factors` is the size of that list, `n_start_i_factors` is the number of
incident ids of the variables before it and, for a multinomial variable,
`n_start_i_tally` is the tally cursor; `c_edge` is `n_edge`; the weights, the
counters and the flags of the raw graph are unchanged. -/
theorem compile_raw_after (fg fg' : FactorGraph) (cfg cfg' : CompiledFactorGraph)
    (h : fg.compile cfg = Except.ok (fg', cfg')) :
    fg' = { fg with factors := fg'.factors, vars := fg'.vars, c_edge := fg.n_edge } ∧
    fg'.factors.length = fg.factors.length ∧ fg'.vars.length = fg.vars.length ∧
    (∀ (j : Nat) (rf : RawFactor), fg.factors[j]? = some rf →
      fg'.factors[j]? = some
        { rf with n_start_i_vif := (edge_count (fg.factors.take j) : Nat)
                  tmp_variables := std_sort compare_position rf.tmp_variables } ∧
      (std_sort compare_position rf.tmp_variables).Perm rf.tmp_variables) ∧
    (∀ (j : Nat) (rv : RawVariable), fg.vars[j]? = some rv →
      ∃ rv' : RawVariable, fg'.vars[j]? = some rv' ∧
        rv' = { rv with n_factors := rv'.n_factors, n_start_i_factors := rv'.n_start_i_factors,
                        n_start_i_tally := rv'.n_start_i_tally } ∧
        rv'.n_factors = (rv.tmp_factor_ids.length : Int) ∧
        rv'.n_start_i_factors = (incidence_count (fg.vars.take j) : Int) ∧
        rv'.n_start_i_tally =
          (if rv.domain_type = DomainType.DTYPE_MULTINOMIAL then
            tally_after (fg.vars.take j) 0 else rv.n_start_i_tally)) := by
  obtain ⟨factors1, vars1, nt, arrs, h1, h2, -, hfg, -⟩ := compile_ok h
  obtain ⟨-, -, -, a4, -, -, -, -, a9⟩ := compile_factors_ok _ _ _ _ _ _ _ _ _ h1
  obtain ⟨-, -, -, -, -, -, b7, -, -, b10⟩ :=
    compile_variables_ok _ _ _ _ _ _ _ _ _ _ _ _ h2
  subst hfg
  refine ⟨rfl, a4, b7, ?_, ?_⟩
  · intro j rf hj
    obtain ⟨c1, -⟩ := a9 j rf hj
    rw [Nat.zero_add] at c1
    exact ⟨c1, std_sort_perm _ _⟩
  · intro j rv hj
    obtain ⟨c1, -⟩ := b10 j rv hj
    rw [Nat.zero_add] at c1
    refine ⟨_, c1, ?_, ?_, ?_, ?_⟩
    · unfold stamp_variable
      simp only
      split <;> rfl
    · exact stamp_variable_n_factors _ _ _
    · exact stamp_variable_n_start_i_factors _ _ _
    · unfold stamp_variable
      simp only
      split <;> rfl

/-- Witness of the amended C16 on the small graph. -/
theorem compile_raw_after_witness :
    example_raw_after =
        { example_raw with factors := example_raw_after.factors,
                           vars := example_raw_after.vars, c_edge := example_raw.n_edge } ∧
      example_raw_after.factors.length = example_raw.factors.length ∧
      example_raw_after.vars.length = example_raw.vars.length :=
  ⟨(compile_raw_after example_raw example_raw_after example_target example_compiled
      example_compile).1,
    (compile_raw_after example_raw example_raw_after example_target example_compiled
      example_compile).2.1,
    (compile_raw_after example_raw example_raw_after example_target example_compiled
      example_compile).2.2.1⟩

/-- C17: for a target constructed with the `(n_var, n_factor, n_edge)` of the
source, and a source whose tally array has `ntallies` entries,
`target.copy_from(source)` returns with the target's `variables`, `factors`,
`compact_factors`, `compact_factors_weightids`, `factor_ids` and `vifs`, its
counters `c_nvar`, `c_nfactor`, `c_nweight`, `c_edge`, `n_evid` and `n_query`,
its flags `sorted` and `safety_check_passed`, its tally count and its tally
array equal to the source's, and with the source unchanged. -/
theorem copy_from_equal (target source : CompiledFactorGraph) (n_edge : Nat)
    (hvars : target.vars.length = source.vars.length)
    (hfactors : target.factors.length = source.factors.length)
    (ht1 : target.vifs.length = n_edge) (ht2 : target.compact_factors.length = n_edge)
    (ht3 : target.compact_factors_weightids.length = n_edge)
    (ht4 : target.factor_ids.length = n_edge)
    (hs1 : source.vifs.length = n_edge) (hs2 : source.compact_factors.length = n_edge)
    (hs3 : source.compact_factors_weightids.length = n_edge)
    (hs4 : source.factor_ids.length = n_edge)
    (htally : (source.infrs.multinomial_tallies.length : Int) = source.infrs.ntallies) :
    ∃ target' : CompiledFactorGraph,
      target.copy_from source = Except.ok (target', source) ∧
      target'.vars = source.vars ∧ target'.factors = source.factors ∧
      target'.compact_factors = source.compact_factors ∧
      target'.compact_factors_weightids = source.compact_factors_weightids ∧
      target'.factor_ids = source.factor_ids ∧ target'.vifs = source.vifs ∧
      target'.c_nvar = source.c_nvar ∧ target'.c_nfactor = source.c_nfactor ∧
      target'.c_nweight = source.c_nweight ∧ target'.c_edge = source.c_edge ∧
      target'.n_evid = source.n_evid ∧ target'.n_query = source.n_query ∧
      target'.sorted = source.sorted ∧
      target'.safety_check_passed = source.safety_check_passed ∧
      target'.infrs.ntallies = source.infrs.ntallies ∧
      target'.infrs.multinomial_tallies = source.infrs.multinomial_tallies := by
  exact ⟨_, copy_from_same_sizes target source n_edge hvars hfactors ht1 ht2 ht3 ht4 hs1 hs2
    hs3 hs4 htally, rfl, rfl, rfl, rfl, rfl, rfl, rfl, rfl, rfl, rfl, rfl, rfl, rfl, rfl, rfl,
    rfl⟩

/-- Witness of C17: copying the small compiled graph into the freshly
constructed target. -/
theorem copy_from_equal_witness :
    ∃ target' : CompiledFactorGraph,
      example_target.copy_from example_compiled = Except.ok (target', example_compiled) ∧
      target'.vars = example_compiled.vars ∧ target'.factors = example_compiled.factors ∧
      target'.compact_factors = example_compiled.compact_factors ∧
      target'.compact_factors_weightids = example_compiled.compact_factors_weightids ∧
      target'.factor_ids = example_compiled.factor_ids ∧
      target'.vifs = example_compiled.vifs ∧
      target'.c_nvar = example_compiled.c_nvar ∧
      target'.c_nfactor = example_compiled.c_nfactor ∧
      target'.c_nweight = example_compiled.c_nweight ∧
      target'.c_edge = example_compiled.c_edge ∧
      target'.n_evid = example_compiled.n_evid ∧ target'.n_query = example_compiled.n_query ∧
      target'.sorted = example_compiled.sorted ∧
      target'.safety_check_passed = example_compiled.safety_check_passed ∧
      target'.infrs.ntallies = example_compiled.infrs.ntallies ∧
      target'.infrs.multinomial_tallies = example_compiled.infrs.multinomial_tallies :=
  copy_from_equal example_target example_compiled 3 rfl rfl rfl rfl rfl rfl rfl rfl rfl rfl
    rfl

/-- C18, as stated, fails: the raw graph `example_heavy` has
`factors[i].id == i` and compiles; at the edge index 2 the factor id is 1 and
`cfg.factors[1].weight_id` is 2147483653, while the `int` array entry
`compact_factors_weightids[2]` is -2147483643. -/
theorem compile_edge_arrays_parallel_counterexample :
    example_heavy.compile example_target =
      Except.ok (example_heavy_after, example_heavy_compiled) ∧
    (∀ (i : Nat) (rf : RawFactor), example_heavy.factors[i]? = some rf → rf.id = i) ∧
    ((2 : Nat) : Int) < example_heavy.n_edge ∧
    example_heavy_compiled.factor_ids[2]? = some 1 ∧
    (getAt example_heavy_compiled.factors 1).map (fun f => f.weight_id) =
      Except.ok 2147483653 ∧
    example_heavy_compiled.compact_factors_weightids[2]? = some (-2147483643) := by
  refine ⟨rfl, ?_, by decide, rfl, rfl, rfl⟩
  intro i rf hi
  match i, hi with
  | 0, hi => cases hi; rfl
  | 1, hi => cases hi; rfl
  | i + 2, hi => simp [example_heavy] at hi

/-- C18, amended: after a successful `compile` of a raw graph with
`factors[i].id == i`, for every edge index `e` in `[0, n_edge)`, with
`fid = factor_ids[e]`, the compact factor `compact_factors[e]` has the id `fid`
and the `func_id`, `n_variables` and `n_start_i_vif` of `cfg.factors[fid]`, and
`compact_factors_weightids[e]` is `cfg.factors[fid].weight_id` narrowed to an
`int` (reduced modulo 2^32 into `[-2^31, 2^31)`), which is the weight id itself
when it lies in that range. -/
theorem compile_edge_arrays_parallel (fg fg' : FactorGraph) (cfg cfg' : CompiledFactorGraph)
    (h : fg.compile cfg = Except.ok (fg', cfg'))
    (hid : ∀ (i : Nat) (rf : RawFactor), fg.factors[i]? = some rf → rf.id = i)
    (e : Nat) (he : (e : Int) < fg.n_edge) :
    ∃ (fid : Int) (cf : CompactFactor) (wid : Int) (f : Factor),
      cfg'.factor_ids[e]? = some fid ∧ cfg'.compact_factors[e]? = some cf ∧
      cfg'.compact_factors_weightids[e]? = some wid ∧
      getAt cfg'.factors fid = Except.ok f ∧
      cf.id = fid ∧ cf.func_id = f.func_id ∧ cf.n_variables = f.n_variables ∧
      cf.n_start_i_vif = f.n_start_i_vif ∧ wid = wrap_int f.weight_id ∧
      (-2147483648 ≤ f.weight_id → f.weight_id < 2147483648 → wid = f.weight_id) := by
  obtain ⟨factors1, vars1, nt, arrs, h1, h2, hne, -, hfids, hcfs, hwids, -⟩ := compile_ok h
  obtain ⟨-, -, -, a4, -, -, -, -, a9⟩ := compile_factors_ok _ _ _ _ _ _ _ _ _ h1
  obtain ⟨fid, f1, g1, g2, g3, g4⟩ :=
    compile_variables_entry _ _ _ _ _ _ _ _ _ _ _ _ h2 e (Nat.zero_le _) (by omega)
  rw [← hfids] at g2
  rw [← hcfs] at g3
  rw [← hwids] at g4
  obtain ⟨hfid, hf1⟩ := getAt_eq_ok.mp g1
  have hlt : fid.toNat < fg.factors.length := by
    rw [← a4]
    exact (List.getElem?_eq_some.mp hf1).1
  obtain ⟨b1, b2, -⟩ := a9 fid.toNat _ (List.getElem?_eq_getElem hlt)
  rw [Nat.zero_add] at b2
  rw [hf1, Option.some.injEq] at b1
  have hrid := hid fid.toNat _ (List.getElem?_eq_getElem hlt)
  refine ⟨fid, _, _, _, g2, g3, g4, getAt_eq_ok.mpr ⟨hfid, b2⟩, ?_, ?_, ?_, ?_, ?_, ?_⟩
  · rw [b1]
    simp only [stamp_factor]
    rw [hrid]
    omega
  · rw [b1]; rfl
  · rw [b1]; rfl
  · rw [b1]; rfl
  · rw [b1]; rfl
  · intro h0 h1
    rw [b1]
    exact wrap_int_of_range _ h0 h1

/-- Witness of C18 on the small graph, at the edge index 2: the factor id is 1
and the array entry is the weight id 6 of the factor 1. -/
theorem compile_edge_arrays_parallel_witness :
    ∃ (fid : Int) (cf : CompactFactor) (wid : Int) (f : Factor),
      example_compiled.factor_ids[2]? = some fid ∧
      example_compiled.compact_factors[2]? = some cf ∧
      example_compiled.compact_factors_weightids[2]? = some wid ∧
      getAt example_compiled.factors fid = Except.ok f ∧
      cf.id = fid ∧ cf.func_id = f.func_id ∧ cf.n_variables = f.n_variables ∧
      cf.n_start_i_vif = f.n_start_i_vif ∧ wid = wrap_int f.weight_id ∧ wid = 6 := by
  obtain ⟨fid, cf, wid, f, h1, h2, h3, h4, h5, h6, h7, h8, h9, -⟩ :=
    compile_edge_arrays_parallel example_raw example_raw_after example_target
      example_compiled example_compile
      (by
        intro i rf hi
        match i, hi with
        | 0, hi => cases hi; rfl
        | 1, hi => cases hi; rfl
        | i + 2, hi => simp [example_raw] at hi)
      2 (by decide)
  have h3c : some (6 : Int) = some wid := h3
  exact ⟨fid, cf, wid, f, h1, h2, h3, h4, h5, h6, h7, h8, h9, (Option.some.inj h3c).symm⟩

/-! ## Claims on the range and the injectivity of the weight index -/

/-- C19, as stated, fails: in the graph with three variables of cardinality
2147483647 and one dense factor over them with the base 0, the assignment
`[2, 4, 2]` has every domain index in `[0, cardinality)`, the mixed-radix
number of its digits is 2^63, and the offset computed by
`get_multinomial_weight_id` is -2^63: it is negative, and the weight id
returned, -2^63, is outside the block that starts at the base 0. -/
theorem weight_offset_in_block_counterexample :
    factor_digits (fun _ x => x) example_wide [2, 4, 2] (-1) (-1)
        example_wide_factor.n_variables.toNat example_wide_factor.n_start_i_vif =
      Except.ok [(2147483647, 2), (2147483647, 4), (2147483647, 2)] ∧
    (∀ di ∈ [((2147483647 : Int), (2 : Int)), (2147483647, 4), (2147483647, 2)],
      1 ≤ di.1 ∧ 0 ≤ di.2 ∧ di.2 < di.1) ∧
    mixed_radix [(2147483647, 2), (2147483647, 4), (2147483647, 2)] =
      9223372036854775808 ∧
    weight_offset (fun _ x => x) example_wide [2, 4, 2] (-1) (-1)
        example_wide_factor.n_variables.toNat example_wide_factor.n_start_i_vif 0 =
      Except.ok (-9223372036854775808) ∧
    getAt example_wide.compact_factors 0 = Except.ok example_wide_factor ∧
    example_wide_factor.func_id = FuncId.FUNC_MULTINOMIAL ∧
    getAt example_wide.compact_factors_weightids 0 = Except.ok 0 ∧
    example_wide.get_multinomial_weight_id (fun _ x => x) [2, 4, 2] 0 (-1) (-1) =
      Except.ok (-9223372036854775808) :=
  ⟨rfl, by decide, by decide, rfl, rfl, rfl, rfl, rfl⟩

/-- C19, amended: when the digits of a factor (the cardinality of each of its
variables and the domain index of its value, the proposal for the pivot) have
a cardinality of at least 1 and a domain index in `[0, cardinality)`, and the
product of the cardinalities is at most 2^63, the offset computed by
`get_multinomial_weight_id` is at least 0 and below the product of the
cardinalities, and for a dense multinomial factor whose block
`[base, base + product of the cardinalities)` lies in the range of a `long`
the weight id returned lies in the block. -/
theorem weight_offset_in_block (get_domain_index : Variable → Int → Int)
    (cfg : CompiledFactorGraph) (a : List Int) (vid p : Int) (fs : CompactFactor)
    (ds : List (Int × Int))
    (hds : factor_digits get_domain_index cfg a vid p fs.n_variables.toNat
      fs.n_start_i_vif = Except.ok ds)
    (hrange : ∀ di ∈ ds, 1 ≤ di.1 ∧ 0 ≤ di.2 ∧ di.2 < di.1)
    (hprod : (ds.map Prod.fst).prod ≤ 9223372036854775808) :
    ∃ off : Int,
      weight_offset get_domain_index cfg a vid p fs.n_variables.toNat fs.n_start_i_vif 0 =
        Except.ok off ∧
      0 ≤ off ∧ off < (ds.map Prod.fst).prod ∧
      ∀ (e base : Int), getAt cfg.compact_factors e = Except.ok fs →
        fs.func_id = FuncId.FUNC_MULTINOMIAL →
        getAt cfg.compact_factors_weightids e = Except.ok base →
        -9223372036854775808 ≤ base →
        base + (ds.map Prod.fst).prod ≤ 9223372036854775808 →
        ∃ w : Int, cfg.get_multinomial_weight_id get_domain_index a e vid p = Except.ok w ∧
          base ≤ w ∧ w < base + (ds.map Prod.fst).prod := by
  have hoff := weight_offset_of_factor_digits get_domain_index cfg a vid p _ _ ds hds
  obtain ⟨h0, h1⟩ := mixed_radix_bounds ds (fun di hdi => (hrange di hdi).2)
  rw [wrap_long_of_range _ (by omega) (by omega)] at hoff
  refine ⟨mixed_radix ds, hoff, h0, h1, ?_⟩
  intro e base hfs hfunc hbase hb0 hb1
  refine ⟨base + mixed_radix ds, ?_, by omega, by omega⟩
  simp only [CompiledFactorGraph.get_multinomial_weight_id, bind, Except.bind, hfs, hoff,
    hfunc, hbase]
  rw [wrap_long_of_range _ (by omega) (by omega)]

/-- Witness of C19 on the small graph: factor 1 seen from entry 2, with the
base 6 and the single digit `(3, 2)`. -/
theorem weight_offset_in_block_witness :
    ∃ off : Int,
      weight_offset (fun _ x => x) example_compiled [1, 2] (-1) (-1) 1 2 0 = Except.ok off ∧
      0 ≤ off ∧ off < ([(3, 2)].map Prod.fst).prod ∧
      ∃ w : Int, example_compiled.get_multinomial_weight_id (fun _ x => x) [1, 2] 2
          (-1) (-1) = Except.ok w ∧
        6 ≤ w ∧ w < 6 + ([(3, 2)].map Prod.fst).prod := by
  obtain ⟨off, h1, h2, h3, h4⟩ :=
    weight_offset_in_block (fun _ x => x) example_compiled [1, 2] (-1) (-1)
      { id := 1, func_id := FuncId.FUNC_MULTINOMIAL, n_variables := 1, n_start_i_vif := 2 }
      [(3, 2)] rfl (by decide) (by decide)
  exact ⟨off, h1, h2, h3, h4 2 6 rfl rfl rfl (by decide) (by decide)⟩

end dd
